import Mathlib

/-!
# SherpaDeploy: streaming transducer decoding core

A shallow embedding of the decoding core of `frankyoujian/SherpaDeploy`
(`src/runtime/mnn` and `src/runtime/openvino`) together with theorems about it.

Conventions of the embedding.

* `float` is an abstract type `S`; only the operations the code performs on it
  (`<`, `<=`, `+`, `*`, literals, conversions from integers) are used and nothing is
  assumed of them, so every theorem holds for IEEE floats, NaN included, as well as
  for exact numbers.  Where a property needs the scores to compare like numbers
  this is a stated condition (`OrderedScores`).
* Concrete `float` and `double` values are computed in `Binary32` and `Binary64`,
  the finite IEEE 754 values with round to nearest, ties to even.
* `Stream::Finalize` is not among the sources; the functions that call it take it
  as a parameter.
* `int32_t` fields of `DecoderResult` and `Hypothesis` are `Int`.  Signed overflow
  is undefined behaviour in C++ and is outside the embedding.
* Sizes (`ContextSize`, `Segment`, `Offset`, tensor shapes, beam width, frame
  counts of the feature buffer) are `Nat`.
* A `TensorPtr` that may be null is an `Option (Tensor S)`.
* The neural network is a record of pure functions (`Model`).
* A loop `for (t = 0; t != n; ++t)` is a left fold over `List.range n`.
* Where C++ has undefined behaviour that the beam search can reach (indexing
  `prev` out of range, dereferencing `end()`, a null tensor handed to the
  joiner, a division by zero) the embedded function returns `none`.
* A read of the last `context_size` entries of a shorter vector, or of a buffer
  beyond its end, yields the entries that exist.
-/

namespace SherpaDeploy

/-! ## Tensors and the model boundary -/

/-- Host tensor as the decoders read it: a shape and a flat row-major buffer. -/
structure Tensor (α : Type) where
  shape : List Nat
  data : List α
deriving DecidableEq

/-- Pure-function view of `class Model` (`model.h`): the virtual methods the
decoding core calls. -/
structure Model (S : Type) where
  ContextSize : Nat
  Segment : Nat
  Offset : Nat
  GetEncoderInitStates : List (Tensor S)
  RunEncoder : Tensor S → List (Tensor S) → Tensor S × List (Tensor S)
  RunDecoder : Tensor Int → Tensor S
  RunJoiner : Tensor S → Tensor S → Tensor S

/-! ## Hypothesis, Hypotheses and DecoderResult -/

/-- Modelled from the spec: `struct Hypothesis` (`hypothesis.h` is not among the
sources).  Fields as listed in the data model: `ys`, `log_prob`, `timestamps`,
`num_trailing_blanks`, `context_state` (a nullable reference into the context
graph). -/
structure Hypothesis (S C : Type) where
  ys : List Int
  log_prob : S
  timestamps : List Int := []
  num_trailing_blanks : Int := 0
  context_state : Option C := none
deriving DecidableEq

/-- Modelled from the spec: `class Hypotheses`, a container of hypotheses keyed by
`ys` with at most one entry per key; entries are kept in insertion order. -/
structure Hypotheses (S C : Type) where
  hyps_dict : List (Hypothesis S C)
deriving DecidableEq

/-- Modelled from the spec: `struct DecoderResult` (`decoder.h` is not among the
sources), with the defaults of a value-initialised result. -/
structure DecoderResult (S C : Type) where
  frame_offset : Int := 0
  tokens : List Int := []
  num_trailing_blanks : Int := 0
  timestamps : List Int := []
  decoder_out : Option (Tensor S) := none
  hyps : Hypotheses S C := ⟨[]⟩
deriving DecidableEq

/-! ## Small helpers for pointer arithmetic on buffers -/

/-- The range `[start, start + len)` of a buffer. -/
def slice {α : Type} (l : List α) (start len : Nat) : List α :=
  (l.drop start).take len

/-- The range `[end() - n, end())` of a vector. -/
def lastN {α : Type} (n : Nat) (l : List α) : List α :=
  l.drop (l.length - n)

/-- Loop of `std::max_element`: `largest` is replaced only by a strictly larger
element. -/
def maxElementLoop {S : Type} [LT S] [DecidableRel (fun a b : S => a < b)] :
    List S → S → Nat → Nat → Nat
  | [], _, largestIdx, _ => largestIdx
  | x :: xs, largest, largestIdx, cur =>
    if largest < x then maxElementLoop xs x cur (cur + 1)
    else maxElementLoop xs largest largestIdx (cur + 1)

/-- The value of `std::distance(p, std::max_element(p, p + n))` on the buffer
`p[0..n)`: the index of the first largest element, `0` for an empty range. -/
def maxElementIndex {S : Type} [LT S] [DecidableRel (fun a b : S => a < b)] :
    List S → Nat
  | [] => 0
  | x :: xs => maxElementLoop xs x 0 1

/-- Embeds `GetEncoderOutFrame` (`mnn-utils.cc`, and the member of the same name
in `openvino/greedy-search-decoder.cc`): frame `t` of every batch entry. -/
def GetEncoderOutFrame {S : Type} (encoder_out : Tensor S) (t : Nat) : Tensor S :=
  let batch_size := encoder_out.shape.getD 0 0
  let num_frames := encoder_out.shape.getD 1 0
  let encoder_out_dim := encoder_out.shape.getD 2 0
  let offset := num_frames * encoder_out_dim
  { shape := [batch_size, encoder_out_dim]
    data := (List.range batch_size).flatMap fun i =>
      slice encoder_out.data (i * offset + t * encoder_out_dim) encoder_out_dim }

/-! ## GreedySearchDecoder -/

namespace GreedySearchDecoder

variable {S C : Type}

/-- Embeds `GreedySearchDecoder::BuildDecoderInput`: a `{1, context_size}` tensor
holding the last `context_size` tokens. -/
def BuildDecoderInput (model : Model S) (result : DecoderResult S C) : Tensor Int :=
  { shape := [1, model.ContextSize]
    data := lastN model.ContextSize result.tokens }

/-- Embeds `GreedySearchDecoder::GetEmptyResult`. -/
def GetEmptyResult (model : Model S) : DecoderResult S C :=
  { tokens := List.replicate model.ContextSize 0 }

/-- Embeds `GreedySearchDecoder::StripLeadingBlanks`. -/
def StripLeadingBlanks (model : Model S) (r : DecoderResult S C) : DecoderResult S C :=
  { r with tokens := r.tokens.drop model.ContextSize }

/-- The token chosen at one frame: the argmax over the first `vocab_size` scores
of the joiner output. -/
def newToken [LT S] [DecidableRel (fun a b : S => a < b)] (joiner_out : Tensor S) : Nat :=
  let vocab_size := joiner_out.shape.getD 1 0
  maxElementIndex (joiner_out.data.take vocab_size)

/-- Body of the frame loop of `GreedySearchDecoder::Decode`; the loop state is
`*result` and the local `decoder_out`. -/
def DecodeFrame [LT S] [DecidableRel (fun a b : S => a < b)] (model : Model S)
    (encoder_out : Tensor S) (frame_offset : Int)
    (st : DecoderResult S C × Tensor S) (t : Nat) : DecoderResult S C × Tensor S :=
  let encoder_out_t := GetEncoderOutFrame encoder_out t
  let joiner_out := model.RunJoiner encoder_out_t st.2
  let new_token := newToken joiner_out
  if new_token ≠ 0 ∧ new_token ≠ 2 then
    let result := { st.1 with tokens := st.1.tokens ++ [(new_token : Int)] }
    let decoder_out := model.RunDecoder (BuildDecoderInput model result)
    ({ result with
        num_trailing_blanks := 0
        timestamps := result.timestamps ++ [(t : Int) + frame_offset] }, decoder_out)
  else
    ({ st.1 with num_trailing_blanks := st.1.num_trailing_blanks + 1 }, st.2)

/-- Embeds `GreedySearchDecoder::Decode` (identical in the MNN and the OpenVINO
runtime up to the tensor container). -/
def Decode [LT S] [DecidableRel (fun a b : S => a < b)] (model : Model S)
    (encoder_out : Tensor S) (result : DecoderResult S C) : DecoderResult S C :=
  let num_frames := encoder_out.shape.getD 1 0
  let decoder_out :=
    match result.decoder_out with
    | some d => d
    | none => model.RunDecoder (BuildDecoderInput model result)
  let frame_offset := result.frame_offset
  let st := (List.range num_frames).foldl (DecodeFrame model encoder_out frame_offset)
    (result, decoder_out)
  { st.1 with
    frame_offset := st.1.frame_offset + (num_frames : Int)
    decoder_out := some st.2 }

/-- Results reachable from `GetEmptyResult` by a sequence of `Decode` calls. -/
inductive Reachable [LT S] [DecidableRel (fun a b : S => a < b)] (model : Model S) :
    DecoderResult S C → Prop
  | empty : Reachable model (GetEmptyResult model)
  | decode (encoder_out : Tensor S) (r : DecoderResult S C) :
      Reachable model r → Reachable model (Decode model encoder_out r)

end GreedySearchDecoder

/-! ## Context graph and stream (external collaborators) -/

/-- Modelled from the spec: the `ContextGraph` boundary (`context-graph.h` is not
among the sources): `Root()` and
`ForwardOneStep(state, token, strict_mode) -> (score, next_state)`.  States are
references of an opaque type `C`; a null reference is `none`. -/
structure ContextGraph (S C : Type) where
  Root : C
  ForwardOneStep : Option C → Int → Bool → S × Option C

/-- Modelled from the spec: `class Stream` (`stream.h` is not among the sources):
the buffered feature frames, the frame cursor, the current `DecoderResult`, the
encoder recurrent states and an optional context graph. -/
structure Stream (S C : Type) where
  features : List (List S)
  feature_dim : Nat
  num_processed_frames : Nat
  result : DecoderResult S C
  states : List (Tensor S)
  context_graph : Option (ContextGraph S C)

namespace Stream

variable {S C : Type}

/-- Modelled from the spec: `Stream::NumFramesReady`, the number of buffered
feature frames. -/
def NumFramesReady (s : Stream S C) : Nat := s.features.length

/-- Modelled from the spec: the frame indices read by `GetFrames(frame_index, n)`,
the `n` indices starting at `frame_index`. -/
def requestedFrames (frame_index n : Nat) : List Nat := List.range' frame_index n

/-- Modelled from the spec: `Stream::GetFrames(frame_index, n)`, the `n` feature
frames starting at `frame_index` as one flat buffer, with the feature
dimension. -/
def GetFrames (s : Stream S C) (frame_index n : Nat) : List S × Nat :=
  ((requestedFrames frame_index n).flatMap fun i => s.features.getD i [], s.feature_dim)

/-- Modelled from the spec: `Stream::Reset`, which only resets the frame-processing
cursor. -/
def Reset (s : Stream S C) : Stream S C :=
  { s with num_processed_frames := 0 }

end Stream

/-! ## Hypotheses container -/

/-- Modelled from the spec: the helpers of `runtime/core/math.h` used by the beam
search, which is not among the sources.  `LogSoftmax row k` is entry `k` of the
log-softmax of `row`, `TopkIndex p size topk` the selected flat indices, and
`LogAdd a b` the log-sum-exp `log(exp a + exp b)`. -/
structure MathOps (S : Type) where
  LogSoftmax : List S → Nat → S
  TopkIndex : List S → Nat → Nat → List Nat
  LogAdd : S → S → S

namespace Hypotheses

variable {S C : Type}

/-- Modelled from the spec: merging two paths with the same `ys`: the
log-probabilities are combined by log-sum-exp, `timestamps` and `context_state`
come from the contributor with the higher log-probability.  The spec does not
say which `num_trailing_blanks` is kept; the same contributor is used. -/
def merge [LT S] [DecidableRel (fun a b : S => a < b)] (ops : MathOps S)
    (old new : Hypothesis S C) : Hypothesis S C :=
  { (if old.log_prob < new.log_prob then new else old) with
    log_prob := ops.LogAdd old.log_prob new.log_prob }

/-- Modelled from the spec: insertion of a hypothesis into the entries, keyed by
`ys`: an entry with the same `ys` is merged, otherwise the hypothesis is appended. -/
def addEntry [LT S] [DecidableRel (fun a b : S => a < b)] (ops : MathOps S)
    (hyp : Hypothesis S C) : List (Hypothesis S C) → List (Hypothesis S C)
  | [] => [hyp]
  | e :: rest =>
    if e.ys = hyp.ys then merge ops e hyp :: rest else e :: addEntry ops hyp rest

/-- Modelled from the spec: `Hypotheses::Add`. -/
def Add [LT S] [DecidableRel (fun a b : S => a < b)] (ops : MathOps S)
    (self : Hypotheses S C) (hyp : Hypothesis S C) : Hypotheses S C :=
  ⟨addEntry ops hyp self.hyps_dict⟩

/-- Modelled from the spec: `Hypotheses::Clear`. -/
def Clear (_self : Hypotheses S C) : Hypotheses S C := ⟨[]⟩

/-- Modelled from the spec: insertion into a list ranked by `log_prob` descending,
after every entry that is not strictly smaller. -/
def insertRanked [LT S] [DecidableRel (fun a b : S => a < b)] (h : Hypothesis S C) :
    List (Hypothesis S C) → List (Hypothesis S C)
  | [] => [h]
  | e :: rest =>
    if e.log_prob < h.log_prob then h :: e :: rest else e :: insertRanked h rest

/-- Modelled from the spec: ranking by `log_prob` descending, ties in insertion
order. -/
def ranked [LT S] [DecidableRel (fun a b : S => a < b)]
    (l : List (Hypothesis S C)) : List (Hypothesis S C) :=
  l.foldl (fun acc h => insertRanked h acc) []

/-- Modelled from the spec: `Hypotheses::GetTopK(k, sorted)`: at most `k`
hypotheses ranked by `log_prob` descending, ties broken by insertion order.  The
spec gives the flag no further meaning. -/
def GetTopK [LT S] [DecidableRel (fun a b : S => a < b)] (self : Hypotheses S C)
    (k : Nat) (_sorted : Bool) : List (Hypothesis S C) :=
  (ranked self.hyps_dict).take k

/-- Modelled from the spec: `Hypotheses::GetMostProbable(sorted)`, the single entry
of `GetTopK(1, sorted)`; `none` for an empty container, where the C++ has no
hypothesis to return. -/
def GetMostProbable [LT S] [DecidableRel (fun a b : S => a < b)] (self : Hypotheses S C)
    (sorted : Bool) : Option (Hypothesis S C) :=
  (self.GetTopK 1 sorted).head?

end Hypotheses

/-! ## ModifiedBeamSearchDecoder -/

/-- The two runtimes.  Their beam-search `Decode` differs in one statement: the
MNN variant sets `result->decoder_out` to null after taking it over on the
fast path. -/
inductive Backend where
  | mnn
  | openvino
deriving DecidableEq

namespace ModifiedBeamSearchDecoder

variable {S C : Type}

/-- Embeds `ModifiedBeamSearchDecoder::GetEmptyResult`: one hypothesis holding the
pad with log-probability `0`, and the pad as `tokens`. -/
def GetEmptyResult [Zero S] (model : Model S) : DecoderResult S C :=
  let blanks : List Int := List.replicate model.ContextSize 0
  { hyps := ⟨[{ ys := blanks, log_prob := 0 }]⟩
    tokens := blanks }

/-- Embeds `ModifiedBeamSearchDecoder::StripLeadingBlanks`; `none` when `hyps` is
empty. -/
def StripLeadingBlanks [LT S] [DecidableRel (fun a b : S => a < b)] (model : Model S)
    (r : DecoderResult S C) : Option (DecoderResult S C) :=
  match r.hyps.GetMostProbable true with
  | none => none
  | some hyp =>
    some { r with
      tokens := hyp.ys.drop model.ContextSize
      timestamps := hyp.timestamps
      num_trailing_blanks := hyp.num_trailing_blanks }

/-- Embeds the static `LogSoftmax(TensorPtr)`: the log-softmax of each of the
first `h` rows, in place. -/
def LogSoftmax (ops : MathOps S) (in_out : Tensor S) : Tensor S :=
  let h := in_out.shape.getD 0 0
  let w := in_out.shape.getD 1 0
  { in_out with
    data := ((List.range h).flatMap fun y =>
        let row := slice in_out.data (y * w) w
        (List.range row.length).map (ops.LogSoftmax row))
      ++ in_out.data.drop (h * w) }

/-- Embeds the static `RunDecoder2D`: one `RunDecoder` call per row, the rows
stitched into one tensor whose width is that of the first row's output; null
(`none`) when there is no row. -/
def RunDecoder2D (model : Model S) (decoder_input : Tensor Int) : Option (Tensor S) :=
  let h := decoder_input.shape.getD 0 0
  let w := decoder_input.shape.getD 1 0
  let outs := (List.range h).map fun y =>
    model.RunDecoder { shape := [1, w], data := slice decoder_input.data (y * w) w }
  match outs with
  | [] => none
  | tmp :: _ =>
    some { shape := [h, tmp.shape.getD 1 0]
           data := outs.flatMap fun o => o.data.take (o.shape.getD 1 0) }

/-- Embeds `ModifiedBeamSearchDecoder::BuildDecoderInput`: one row per hypothesis
with its last `context_size` tokens. -/
def BuildDecoderInput (model : Model S) (hyps : List (Hypothesis S C)) : Tensor Int :=
  { shape := [hyps.length, model.ContextSize]
    data := hyps.flatMap fun hyp => lastN model.ContextSize hyp.ys }

/-- The loop that adds each parent's `log_prob` to its row of the joiner output;
`none` when the joiner output has more rows than there are parents. -/
def addPrevLogProb [Add S] (prev : List (Hypothesis S C)) (joiner_out : Tensor S) :
    Option (List S) :=
  let num_active_paths := joiner_out.shape.getD 0 0
  let vocab_size := joiner_out.shape.getD 1 0
  if num_active_paths ≤ prev.length then
    some (((prev.take num_active_paths).enum.flatMap fun ip =>
        (slice joiner_out.data (ip.1 * vocab_size) vocab_size).map fun x => x + ip.2.log_prob)
      ++ joiner_out.data.drop (num_active_paths * vocab_size))
  else none

/-- Body of `for (auto i : topk)`: the child hypothesis for the flat index `i`.
`none` when `vocab_size` is zero, or `prev[hyp_index]` or the score read is out
of range. -/
def child [Zero S] [Add S] (graph : Option (ContextGraph S C))
    (prev : List (Hypothesis S C)) (p_joiner_out : List S) (vocab_size : Nat)
    (t : Nat) (frame_offset : Int) (i : Nat) : Option (Hypothesis S C) :=
  if vocab_size = 0 then none
  else
    let hyp_index := i / vocab_size
    let new_token := i % vocab_size
    match prev[hyp_index]?, p_joiner_out[hyp_index * vocab_size + new_token]? with
    | some new_hyp, some score =>
      let context_state := new_hyp.context_state
      if new_token ≠ 0 ∧ new_token ≠ 2 then
        let emitted : Hypothesis S C :=
          { new_hyp with
            ys := new_hyp.ys ++ [(new_token : Int)]
            num_trailing_blanks := 0
            timestamps := new_hyp.timestamps ++ [(t : Int) + frame_offset] }
        match graph with
        | some g =>
          let context_res := g.ForwardOneStep context_state (new_token : Int) false
          some { emitted with
            context_state := context_res.2
            log_prob := score + context_res.1 }
        | none => some { emitted with log_prob := score + 0 }
      else
        some { new_hyp with
          num_trailing_blanks := new_hyp.num_trailing_blanks + 1
          log_prob := score + 0 }
    | _, _ => none

/-- The loop `for (auto i : topk)`: every child is added to `cur`. -/
def expand [Zero S] [Add S] [LT S] [DecidableRel (fun a b : S => a < b)]
    (ops : MathOps S) (graph : Option (ContextGraph S C))
    (prev : List (Hypothesis S C)) (p_joiner_out : List S) (vocab_size : Nat)
    (t : Nat) (frame_offset : Int) :
    List Nat → Hypotheses S C → Option (Hypotheses S C)
  | [], cur => some cur
  | i :: topk, cur =>
    match child graph prev p_joiner_out vocab_size t frame_offset i with
    | none => none
    | some new_hyp =>
      expand ops graph prev p_joiner_out vocab_size t frame_offset topk (cur.Add ops new_hyp)

/-- The condition of the fast path of `Decode` and the tensor it takes over:
frame `0`, exactly one previous hypothesis, whose `ys` has `context_size`
entries, and a non-null `result->decoder_out`. -/
def fastPath (model : Model S) (prev : List (Hypothesis S C)) (result : DecoderResult S C)
    (t : Nat) : Option (Tensor S) :=
  match prev, result.decoder_out with
  | [p], some d => if t = 0 ∧ p.ys.length = model.ContextSize then some d else none
  | _, _ => none

/-- `*result` after the fast-path test: only the MNN variant nulls
`result->decoder_out` when the cached tensor was taken over. -/
def resultAfterReuse (backend : Backend) (reuse : Option (Tensor S))
    (result : DecoderResult S C) : DecoderResult S C :=
  match reuse, backend with
  | some _, Backend.mnn => { result with decoder_out := none }
  | _, _ => result

/-- Body of the frame loop of `ModifiedBeamSearchDecoder::Decode`; the loop state is
`cur` and `*result`. -/
def DecodeFrame [Zero S] [Add S] [LT S] [DecidableRel (fun a b : S => a < b)]
    (backend : Backend) (ops : MathOps S) (model : Model S) (num_active_paths_ : Nat)
    (encoder_out : Tensor S) (graph : Option (ContextGraph S C))
    (st : Hypotheses S C × DecoderResult S C) (t : Nat) :
    Option (Hypotheses S C × DecoderResult S C) :=
  let encoder_out_dim := encoder_out.shape.getD 2 0
  let prev := st.1.GetTopK num_active_paths_ true
  let cur := st.1.Clear
  let decoder_input := BuildDecoderInput model prev
  let reuse : Option (Tensor S) := fastPath model prev st.2 t
  let decoder_out : Option (Tensor S) :=
    match reuse with
    | some d => some d
    | none => RunDecoder2D model decoder_input
  let result : DecoderResult S C := resultAfterReuse backend reuse st.2
  match decoder_out with
  | none => none
  | some decoder_out =>
    let encoder_out_t : Tensor S :=
      { shape := [1, encoder_out_dim]
        data := slice encoder_out.data (t * encoder_out_dim) encoder_out_dim }
    let joiner_out := LogSoftmax ops (model.RunJoiner encoder_out_t decoder_out)
    let num_active_paths := joiner_out.shape.getD 0 0
    let vocab_size := joiner_out.shape.getD 1 0
    match addPrevLogProb prev joiner_out with
    | none => none
    | some p_joiner_out =>
      let topk := ops.TopkIndex p_joiner_out (num_active_paths * vocab_size) num_active_paths_
      let frame_offset := result.frame_offset
      match expand ops graph prev p_joiner_out vocab_size t frame_offset topk cur with
      | none => none
      | some cur => some (cur, result)

/-- The frame loop of `ModifiedBeamSearchDecoder::Decode`. -/
def DecodeFrames [Zero S] [Add S] [LT S] [DecidableRel (fun a b : S => a < b)]
    (backend : Backend) (ops : MathOps S) (model : Model S) (num_active_paths_ : Nat)
    (encoder_out : Tensor S) (graph : Option (ContextGraph S C)) :
    List Nat → Hypotheses S C × DecoderResult S C →
      Option (Hypotheses S C × DecoderResult S C)
  | [], st => some st
  | t :: ts, st =>
    match DecodeFrame backend ops model num_active_paths_ encoder_out graph st t with
    | none => none
    | some st1 => DecodeFrames backend ops model num_active_paths_ encoder_out graph ts st1

/-- Embeds `ModifiedBeamSearchDecoder::Decode(encoder_out, s, result)`; `s` is null
(`none`) for the two-argument overload. -/
def Decode [Zero S] [Add S] [LT S] [DecidableRel (fun a b : S => a < b)]
    (backend : Backend) (ops : MathOps S) (model : Model S) (num_active_paths_ : Nat)
    (encoder_out : Tensor S) (s : Option (Stream S C)) (result : DecoderResult S C) :
    Option (DecoderResult S C) :=
  let num_frames := encoder_out.shape.getD 1 0
  let graph : Option (ContextGraph S C) := s.bind fun st => st.context_graph
  let cur := result.hyps
  match DecodeFrames backend ops model num_active_paths_ encoder_out graph
      (List.range num_frames) (cur, { result with hyps := ⟨[]⟩ }) with
  | none => none
  | some (cur, result) =>
    let result := { result with
      hyps := cur
      frame_offset := result.frame_offset + (num_frames : Int) }
    match result.hyps.GetMostProbable true with
    | none => none
    | some hyp =>
      let decoder_input := BuildDecoderInput model [hyp]
      some { result with
        decoder_out := some (model.RunDecoder decoder_input)
        tokens := hyp.ys
        num_trailing_blanks := hyp.num_trailing_blanks }

end ModifiedBeamSearchDecoder

/-! ## Recognizer -/

/-- The decoder selected by `decoder_config.method` in `Recognizer::Impl`. -/
inductive Decoder where
  | GreedySearch
  | ModifiedBeamSearch (num_active_paths_ : Nat)
deriving DecidableEq

/-- Modelled from the spec: `EndpointConfig` (`endpoint.h` is not among the
sources): three independent rules, each optional, with the thresholds in seconds
that `CreateRecognizer` fills in: `rule1.min_trailing_silence`,
`rule2.min_trailing_silence`, `rule3.min_utterance_length`.  A disabled rule is
`none`. -/
structure EndpointConfig (S : Type) where
  rule1_min_trailing_silence : Option S
  rule2_min_trailing_silence : Option S
  rule3_min_utterance_length : Option S

/-- Modelled from the spec: `class Endpoint`.  The detector is a pure function of
`(num_processed_frames, trailing_silence_frames, frame_shift_seconds)`; the spec
does not say how it reads `at least one symbol has been emitted` off these
inputs, so that test is the field `symbol_emitted`. -/
structure Endpoint (S : Type) where
  config_ : EndpointConfig S
  symbol_emitted : Int → Int → Bool

namespace Endpoint

variable {S : Type} [IntCast S] [Mul S] [LE S] [DecidableRel (fun a b : S => a ≤ b)]

/-- Modelled from the spec: rule 1 compares the trailing silence against its
threshold unconditionally. -/
def rule1Met (self : Endpoint S) (trailing_silence : S) : Bool :=
  match self.config_.rule1_min_trailing_silence with
  | some threshold => decide (threshold ≤ trailing_silence)
  | none => false

/-- Modelled from the spec: rule 2 compares the trailing silence against its
threshold, but only once at least one symbol has been emitted. -/
def rule2Met (self : Endpoint S) (emitted : Bool) (trailing_silence : S) : Bool :=
  match self.config_.rule2_min_trailing_silence with
  | some threshold => emitted && decide (threshold ≤ trailing_silence)
  | none => false

/-- Modelled from the spec: rule 3 compares the total elapsed utterance duration
against its threshold regardless of silence. -/
def rule3Met (self : Endpoint S) (utterance_length : S) : Bool :=
  match self.config_.rule3_min_utterance_length with
  | some threshold => decide (threshold ≤ utterance_length)
  | none => false

/-- Modelled from the spec: `Endpoint::IsEndpoint`: frame counts are converted to
seconds with the frame shift, and the result is true iff the threshold of an
enabled rule is met. -/
def IsEndpoint (self : Endpoint S) (num_processed_frames trailing_silence_frames : Int)
    (frame_shift_seconds : S) : Bool :=
  let utterance_length : S := (num_processed_frames : S) * frame_shift_seconds
  let trailing_silence : S := (trailing_silence_frames : S) * frame_shift_seconds
  self.rule1Met trailing_silence
    || self.rule2Met (self.symbol_emitted num_processed_frames trailing_silence_frames)
        trailing_silence
    || self.rule3Met utterance_length

end Endpoint

/-- A `std::string`: its bytes. -/
abbrev ByteString : Type := List Nat

/-- The fields of `ModelConfig` (`model.h`) that `Recognizer::Impl` reads. -/
structure ModelConfig where
  tokens : String
  modeling_unit : String := "bpe"
  bpe_vocab : String := ""

/-- Modelled from the spec: `DecoderConfig` (`recognizer.h` is not among the
sources): the decoding method and the beam width. -/
structure DecoderConfig where
  method : String
  num_active_paths : Nat

/-- Modelled from the spec: `RecognizerConfig` (`recognizer.h` is not among the
sources), with the fields that `recognizer.cc` and `CreateRecognizer` access. -/
structure RecognizerConfig (S : Type) where
  feature_dim : Nat
  model_config : ModelConfig
  decoder_config : DecoderConfig
  endpoint_config : EndpointConfig S
  enable_endpoint : Bool
  hotwords_file : String
  hotwords_score : S

/-- Members of `Recognizer::Impl` (`mnn/recognizer.cc`): the configuration, the
model, the selected decoder, the endpoint detector, the symbol table (token id to
string), the BPE encoder (null unless `bpe_vocab` is given), the encoded hotwords
with their boost scores, and the numeric helpers the beam search uses. -/
structure Recognizer (S : Type) where
  model_ : Model S
  decoder_ : Decoder
  math : MathOps S
  config_ : RecognizerConfig S
  endpoint_ : Endpoint S
  sym_ : Int → ByteString
  bpe_encoder_ : Option String
  hotwords_ : List (List Int)
  boost_scores_ : List S

namespace Decoder

variable {S C : Type}

/-- Virtual dispatch of `Decoder::GetEmptyResult`. -/
def GetEmptyResult [Zero S] (d : Decoder) (model : Model S) : DecoderResult S C :=
  match d with
  | GreedySearch => GreedySearchDecoder.GetEmptyResult model
  | ModifiedBeamSearch _ => ModifiedBeamSearchDecoder.GetEmptyResult model

/-- Virtual dispatch of `Decoder::Decode(encoder_out, result)`. -/
def Decode [Zero S] [Add S] [LT S] [DecidableRel (fun a b : S => a < b)]
    (d : Decoder) (ops : MathOps S) (model : Model S)
    (encoder_out : Tensor S) (result : DecoderResult S C) : Option (DecoderResult S C) :=
  match d with
  | GreedySearch => some (GreedySearchDecoder.Decode model encoder_out result)
  | ModifiedBeamSearch n =>
    ModifiedBeamSearchDecoder.Decode Backend.mnn ops model n encoder_out none result

/-- Modelled from the spec: virtual dispatch of
`Decoder::Decode(encoder_out, s, result)`, whose base-class body (`decoder.h`) is
not among the sources.  The beam search overrides it; the greedy decoder does
not, and the spec hands a stream to the decoder only when beam search is active,
so that call is a failure here. -/
def DecodeWithStream [Zero S] [Add S] [LT S] [DecidableRel (fun a b : S => a < b)]
    (d : Decoder) (ops : MathOps S) (model : Model S)
    (encoder_out : Tensor S) (s : Stream S C) (result : DecoderResult S C) :
    Option (DecoderResult S C) :=
  match d with
  | GreedySearch => none
  | ModifiedBeamSearch n =>
    ModifiedBeamSearchDecoder.Decode Backend.mnn ops model n encoder_out (some s) result

end Decoder

namespace Recognizer

variable {S C : Type}

/-- Embeds `Recognizer::Impl::IsReady`. -/
def IsReady (self : Recognizer S) (s : Stream S C) : Bool :=
  decide (s.num_processed_frames + self.model_.Segment < s.NumFramesReady)

/-- The feature tensor `DecodeStream` hands to the encoder: shape
`{segment, feature_dim}`, filled from the frames returned by `GetFrames`. -/
def encoderInput (self : Recognizer S) (s : Stream S C) : Tensor S :=
  let segment := self.model_.Segment
  let frames_out := s.GetFrames s.num_processed_frames segment
  let features_vec := frames_out.1
  let feature_dim := frames_out.2
  { shape := [segment, feature_dim]
    data := features_vec.take (segment * feature_dim) }

/-- Embeds `Recognizer::Impl::DecodeStream`; `none` when the decoder fails. -/
def DecodeStream [Zero S] [Add S] [LT S] [DecidableRel (fun a b : S => a < b)]
    (self : Recognizer S) (s : Stream S C) : Option (Stream S C) :=
  let offset := self.model_.Offset
  let features := self.encoderInput s
  let s := { s with num_processed_frames := s.num_processed_frames + offset }
  let pre_states := s.states
  let out := self.model_.RunEncoder features pre_states
  let encoder_out := out.1
  let cur_states := out.2
  let decoded :=
    if s.context_graph.isSome then
      self.decoder_.DecodeWithStream self.math self.model_ encoder_out s s.result
    else
      self.decoder_.Decode self.math self.model_ encoder_out s.result
  match decoded with
  | none => none
  | some r => some { s with result := r, states := cur_states }

/-- Embeds `Recognizer::Impl::Reset`. -/
def Reset [Zero S] (self : Recognizer S) (s : Stream S C) : Stream S C :=
  let r : DecoderResult S C := self.decoder_.GetEmptyResult self.model_
  let r : DecoderResult S C :=
    match s.context_graph with
    | some g =>
      { r with hyps := ⟨r.hyps.hyps_dict.map fun h => { h with context_state := some g.Root }⟩ }
    | none => r
  let decoder_out := s.result.decoder_out
  let s := { s with result := r }
  let s := { s with result := { s.result with decoder_out := decoder_out } }
  s.Reset

end Recognizer

/-! ## Chunk sequences and concrete instances -/

/-- The number of frames of a chunk: the second dimension of `encoder_out`. -/
def numFrames {S : Type} (encoder_out : Tensor S) : Nat := encoder_out.shape.getD 1 0

namespace GreedySearchDecoder

variable {S C : Type}

/-- Successive `Decode` calls, one per chunk. -/
def DecodeChunks [LT S] [DecidableRel (fun a b : S => a < b)] (model : Model S)
    (chunks : List (Tensor S)) (result : DecoderResult S C) : DecoderResult S C :=
  chunks.foldl (fun r encoder_out => Decode model encoder_out r) result

/-- The joiner argmax of every frame of the chunk, whatever prediction-network
output it is joined with: token `7` at frame `2`, blank elsewhere. -/
def TokenSevenAtFrameTwo [LT S] [DecidableRel (fun a b : S => a < b)] (model : Model S)
    (encoder_out : Tensor S) : Prop :=
  ∀ t : Nat, t < numFrames encoder_out → ∀ d : Tensor Int,
    newToken (model.RunJoiner (GetEncoderOutFrame encoder_out t) (model.RunDecoder d))
      = if t = 2 then 7 else 0

end GreedySearchDecoder

namespace Demo

/-- A small model over integer scores: the joiner puts score `1` on the token id
stored in the encoder frame and `0` on the seven other tokens, one row per row of
the prediction-network output. -/
def model : Model Int :=
  { ContextSize := 2
    Segment := 3
    Offset := 2
    GetEncoderInitStates := []
    RunEncoder := fun features states =>
      ({ shape := [1, features.shape.getD 0 0, 1], data := features.data }, states)
    RunDecoder := fun decoder_input => { shape := [1, 1], data := [decoder_input.data.sum] }
    RunJoiner := fun encoder_out decoder_out =>
      { shape := [decoder_out.shape.getD 0 0, 8]
        data := (List.range (decoder_out.shape.getD 0 0)).flatMap fun _ =>
          (List.range 8).map fun k => if (k : Int) = encoder_out.data.headD 0 then 1 else 0 } }

/-- A chunk of the given frames for `Demo.model`, one token id per frame. -/
def chunk (frames : List Int) : Tensor Int :=
  { shape := [1, frames.length, 1], data := frames }

/-- The greedy result after one chunk emitting `7` at frame `2` of four frames. -/
def greedyResult : DecoderResult Int Nat :=
  GreedySearchDecoder.Decode model (chunk [0, 0, 7, 0]) (GreedySearchDecoder.GetEmptyResult model)

end Demo

namespace GreedySearchDecoder

/-- Shape of a greedy result: every timestamp belongs to one token after the pad
of `c` entries, and no token after the pad is `0` or `2`. -/
def PadInv {S C : Type} (c : Nat) (r : DecoderResult S C) : Prop :=
  r.tokens.length = c + r.timestamps.length ∧ ∀ x ∈ r.tokens.drop c, x ≠ 0 ∧ x ≠ 2

end GreedySearchDecoder

namespace ModifiedBeamSearchDecoder

/-- Successive `Decode` calls, one per chunk, each with its stream argument;
`none` as soon as one call fails. -/
def DecodeChunks {S C : Type} [Zero S] [Add S] [LT S] [DecidableRel (fun a b : S => a < b)]
    (backend : Backend) (ops : MathOps S) (model : Model S) (num_active_paths_ : Nat) :
    List (Tensor S × Option (Stream S C)) → DecoderResult S C → Option (DecoderResult S C)
  | [], result => some result
  | chunk :: chunks, result =>
    match Decode backend ops model num_active_paths_ chunk.1 chunk.2 result with
    | none => none
    | some r => DecodeChunks backend ops model num_active_paths_ chunks r

end ModifiedBeamSearchDecoder

namespace Demo

/-- Numeric helpers over integer scores: the identity in place of the
log-softmax, the single best flat index as the selection, the maximum in place
of log-sum-exp. -/
def ops : MathOps Int :=
  { LogSoftmax := fun row k => row.getD k 0
    TopkIndex := fun p size _ => [maxElementIndex (p.take size)]
    LogAdd := fun a b => max a b }

/-- The beam-search result after one chunk emitting `7` at frame `2` of four
frames, beam width `2`, MNN runtime, no stream. -/
def beamResult : Option (DecoderResult Int Nat) :=
  ModifiedBeamSearchDecoder.Decode Backend.mnn ops model 2 (chunk [0, 0, 7, 0]) none
    (ModifiedBeamSearchDecoder.GetEmptyResult model)

end Demo

/-- No token after the pad of `c` entries is `0` or `2`. -/
def BlankFree (c : Nat) (ys : List Int) : Prop :=
  ∀ x ∈ ys.drop c, x ≠ 0 ∧ x ≠ 2

namespace ModifiedBeamSearchDecoder

/-- Results reachable from `GetEmptyResult` by a sequence of `Decode` calls that
return, each with any chunk and any stream argument. -/
inductive Reachable {S C : Type} [Zero S] [Add S] [LT S] [DecidableRel (fun a b : S => a < b)]
    (backend : Backend) (ops : MathOps S) (model : Model S) (num_active_paths_ : Nat) :
    DecoderResult S C → Prop
  | empty : Reachable backend ops model num_active_paths_ (GetEmptyResult model)
  | decode (encoder_out : Tensor S) (s : Option (Stream S C)) (r r' : DecoderResult S C) :
      Reachable backend ops model num_active_paths_ r →
      Decode backend ops model num_active_paths_ encoder_out s r = some r' →
      Reachable backend ops model num_active_paths_ r'

end ModifiedBeamSearchDecoder

namespace Demo

/-- The value of `Demo.beamResult`. -/
def beamExpected : DecoderResult Int Nat :=
  { frame_offset := 4
    tokens := [0, 0, 7]
    num_trailing_blanks := 1
    timestamps := []
    decoder_out := some { shape := [1, 1], data := [7] }
    hyps := ⟨[{ ys := [0, 0, 7], log_prob := 4, timestamps := [2], num_trailing_blanks := 1 }]⟩ }

/-- Two chunks for the beam search, without a stream. -/
def beamChunks : List (Tensor Int × Option (Stream Int Nat)) :=
  [(chunk [0, 0, 7, 0], none), (chunk [5, 0], none)]

/-- The beam-search result after `Demo.beamChunks`, from the empty result. -/
def beamAfterChunks : DecoderResult Int Nat :=
  { frame_offset := 6
    tokens := [0, 0, 7, 5]
    num_trailing_blanks := 1
    timestamps := []
    decoder_out := some { shape := [1, 1], data := [12] }
    hyps := ⟨[{ ys := [0, 0, 7, 5], log_prob := 6, timestamps := [2, 4],
                num_trailing_blanks := 1 }]⟩ }

end Demo

namespace Demo

/-- A configuration selecting the greedy search, endpointing disabled. -/
def config : RecognizerConfig Int :=
  { feature_dim := 1
    model_config := { tokens := "tokens.txt" }
    decoder_config := { method := "greedy_search", num_active_paths := 4 }
    endpoint_config :=
      { rule1_min_trailing_silence := none
        rule2_min_trailing_silence := none
        rule3_min_utterance_length := none }
    enable_endpoint := false
    hotwords_file := ""
    hotwords_score := 0 }

/-- A greedy-search recognizer over `Demo.model` (`Segment = 3`, `Offset = 2`);
token `i` is spelled as the single byte `97 + i`. -/
def recognizer : Recognizer Int :=
  { model_ := model
    decoder_ := Decoder.GreedySearch
    math := ops
    config_ := config
    endpoint_ := { config_ := config.endpoint_config, symbol_emitted := fun n t => decide (t < n) }
    sym_ := fun i => [(97 + i).toNat]
    bpe_encoder_ := none
    hotwords_ := []
    boost_scores_ := [] }

/-- A fresh stream holding the given one-dimensional feature frames. -/
def stream (frames : List Int) : Stream Int Nat :=
  { features := frames.map fun x => [x]
    feature_dim := 1
    num_processed_frames := 0
    result := GreedySearchDecoder.GetEmptyResult model
    states := []
    context_graph := none }

/-- The stream `Demo.stream [0, 0, 7, 0, 0]` after one `DecodeStream`. -/
def streamAfterDecode : Stream Int Nat :=
  { features := [[0], [0], [7], [0], [0]]
    feature_dim := 1
    num_processed_frames := 2
    result :=
      { frame_offset := 3
        tokens := [0, 0, 7]
        num_trailing_blanks := 0
        timestamps := [2]
        decoder_out := some { shape := [1, 1], data := [7] } }
    states := []
    context_graph := none }

end Demo

/-! ## Recognizer: endpoint test, result conversion, streams, construction -/

namespace Decoder

/-- Virtual dispatch of `Decoder::StripLeadingBlanks`. -/
def StripLeadingBlanks {S C : Type} [LT S] [DecidableRel (fun a b : S => a < b)]
    (d : Decoder) (model : Model S) (r : DecoderResult S C) : Option (DecoderResult S C) :=
  match d with
  | GreedySearch => some (GreedySearchDecoder.StripLeadingBlanks model r)
  | ModifiedBeamSearch _ => ModifiedBeamSearchDecoder.StripLeadingBlanks model r

end Decoder

/-- Modelled from the spec: `struct RecognitionResult` (`recognizer.h` is not among
the sources): the text, the token ids, the per-token strings and the per-token
timestamps in seconds. -/
structure RecognitionResult (S : Type) where
  text : ByteString
  tokens : List Int
  stokens : List ByteString
  timestamps : List S
deriving DecidableEq

/-- Loop `for (auto i : src.tokens)` of `Convert`: the symbol of each token is
appended to the text and pushed onto `stokens`. -/
def convertTokens (sym_table : Int → ByteString) (tokens : List Int) :
    ByteString × List ByteString :=
  tokens.foldl (fun acc i => (acc.1 ++ sym_table i, acc.2 ++ [sym_table i])) ([], [])

/-- Embeds the static `Convert` of `recognizer.cc`.  `S` is `float`, `D` is `double`:
the expression `frame_shift_ms / 1000. * subsampling_factor` has a `double` literal,
so it is evaluated in `double` and converted to `float` (`toFloat`) when it
initialises `frame_shift_s`; each `frame_shift_s * t` is a `float` product. -/
def Convert {S D C : Type} [IntCast D] [Div D] [Mul D] [OfScientific D] [IntCast S] [Mul S]
    (toFloat : D → S) (src : DecoderResult S C) (sym_table : Int → ByteString)
    (frame_shift_ms subsampling_factor : Int) : RecognitionResult S :=
  let converted := convertTokens sym_table src.tokens
  let frame_shift_s : S :=
    toFloat ((frame_shift_ms : D) / (1000.0 : D) * (subsampling_factor : D))
  { text := converted.1
    tokens := src.tokens
    stokens := converted.2
    timestamps := src.timestamps.map fun (t : Int) => frame_shift_s * (t : S) }

namespace Recognizer

variable {S C : Type}

/-- Embeds `Recognizer::Impl::IsEndpoint`. -/
def IsEndpoint [IntCast S] [Mul S] [LE S] [DecidableRel (fun a b : S => a ≤ b)]
    [OfScientific S] (self : Recognizer S) (s : Stream S C) : Bool :=
  if !self.config_.enable_endpoint then false
  else
    let num_processed_frames : Int := (s.num_processed_frames : Int)
    let frame_shift_in_seconds : S := 0.01
    let trailing_silence_frames : Int := s.result.num_trailing_blanks * 4
    self.endpoint_.IsEndpoint num_processed_frames trailing_silence_frames
      frame_shift_in_seconds

/-- Embeds `Recognizer::Impl::GetResult`: the result and the stream afterwards;
`none` when `StripLeadingBlanks` fails.  `Stream::Finalize` is not among the
sources and the spec names it only as a step of the stream's lifecycle, so what
it does to the stream is the parameter `Finalize`. -/
def GetResult {D : Type} [IntCast D] [Div D] [Mul D] [OfScientific D]
    [IntCast S] [Mul S] [LE S] [DecidableRel (fun a b : S => a ≤ b)]
    [LT S] [DecidableRel (fun a b : S => a < b)] [OfScientific S]
    (toFloat : D → S) (Finalize : Stream S C → Stream S C)
    (self : Recognizer S) (s : Stream S C) : Option (RecognitionResult S × Stream S C) :=
  let s := if self.IsEndpoint s then Finalize s else s
  let decoder_result := s.result
  match self.decoder_.StripLeadingBlanks self.model_ decoder_result with
  | none => none
  | some decoder_result =>
    let frame_shift_ms : Int := 10
    let subsampling_factor : Int := 4
    some (Convert toFloat decoder_result self.sym_ frame_shift_ms subsampling_factor, s)

/-- Embeds `Recognizer::Impl::CreateStream`.  The construction of the context
graph from the hotwords is external and passed as `graphOf`; a new stream has no
buffered frames. -/
def CreateStream [Zero S] (self : Recognizer S)
    (graphOf : List (List Int) → S → List S → ContextGraph S C) : Stream S C :=
  if self.hotwords_.isEmpty then
    { features := []
      feature_dim := self.config_.feature_dim
      num_processed_frames := 0
      result := self.decoder_.GetEmptyResult self.model_
      states := self.model_.GetEncoderInitStates
      context_graph := none }
  else
    let r : DecoderResult S C := self.decoder_.GetEmptyResult self.model_
    let context_graph := graphOf self.hotwords_ self.config_.hotwords_score self.boost_scores_
    let stream : Stream S C :=
      { features := []
        feature_dim := self.config_.feature_dim
        num_processed_frames := 0
        result := {}
        states := []
        context_graph := some context_graph }
    let r : DecoderResult S C :=
      match stream.context_graph with
      | some g =>
        { r with hyps := ⟨r.hyps.hyps_dict.map fun h => { h with context_state := some g.Root }⟩ }
      | none => r
    { stream with result := r, states := self.model_.GetEncoderInitStates }

end Recognizer

/-- What the constructor of `Recognizer::Impl` consults outside the decoding core:
the numeric helpers, `Model::Create`, the symbol table read from the tokens file,
the endpoint detector's emission test, whether a file opens (`std::ifstream`), and
`EncodeHotwords` (hotwords file, modeling unit, symbol table, BPE encoder), which
returns its success flag, the encoded hotwords and their boost scores. -/
structure Environment (S : Type) where
  math : MathOps S
  Create : ModelConfig → Model S
  SymbolTable : String → Int → ByteString
  symbol_emitted : Int → Int → Bool
  ifstream : String → Bool
  EncodeHotwords :
    String → String → (Int → ByteString) → String → Bool × List (List Int) × List S

namespace Recognizer

variable {S : Type}

/-- Embeds `Recognizer::Impl::InitHotwords`: `none` where the code calls
`exit(-1)`; a failure flag of `EncodeHotwords` is only reported. -/
def InitHotwords (env : Environment S) (config : RecognizerConfig S)
    (sym_ : Int → ByteString) (bpe_encoder_ : Option String) :
    Option (List (List Int) × List S) :=
  if !env.ifstream config.hotwords_file then none
  else
    match bpe_encoder_ with
    | none => none
    | some bpe =>
      some (env.EncodeHotwords config.hotwords_file config.model_config.modeling_unit
        sym_ bpe).2

/-- Embeds the constructor `Recognizer::Impl::Impl(const RecognizerConfig &)`: `none`
where the code calls `exit(-1)`. -/
def Impl (env : Environment S) (config : RecognizerConfig S) : Option (Recognizer S) :=
  let model_ := env.Create config.model_config
  let endpoint_ : Endpoint S :=
    { config_ := config.endpoint_config, symbol_emitted := env.symbol_emitted }
  let sym_ := env.SymbolTable config.model_config.tokens
  if config.decoder_config.method = "greedy_search" then
    some
      { model_ := model_
        decoder_ := Decoder.GreedySearch
        math := env.math
        config_ := config
        endpoint_ := endpoint_
        sym_ := sym_
        bpe_encoder_ := none
        hotwords_ := []
        boost_scores_ := [] }
  else if config.decoder_config.method = "modified_beam_search" then
    let decoder_ := Decoder.ModifiedBeamSearch config.decoder_config.num_active_paths
    let bpe_encoder_ : Option String :=
      if config.model_config.bpe_vocab ≠ "" then some config.model_config.bpe_vocab else none
    if config.hotwords_file ≠ "" then
      match InitHotwords env config sym_ bpe_encoder_ with
      | none => none
      | some encoded =>
        some
          { model_ := model_
            decoder_ := decoder_
            math := env.math
            config_ := config
            endpoint_ := endpoint_
            sym_ := sym_
            bpe_encoder_ := bpe_encoder_
            hotwords_ := encoded.1
            boost_scores_ := encoded.2 }
    else
      some
        { model_ := model_
          decoder_ := decoder_
          math := env.math
          config_ := config
          endpoint_ := endpoint_
          sym_ := sym_
          bpe_encoder_ := bpe_encoder_
          hotwords_ := []
          boost_scores_ := [] }
  else none

end Recognizer

/-! ## C API: `GetResult` -/

namespace CApi

/-- The struct `SherpaDeployMnnResult` (`SherpaOVResult` in the OpenVINO runtime):
`text` is the NUL-terminated text buffer, `tokens` and `timestamps` are the two
arrays (null is `none`), `count` their number of entries. -/
structure SherpaDeployMnnResult (S : Type) where
  text : ByteString
  tokens : Option ByteString
  timestamps : Option (List S)
  count : Nat
deriving DecidableEq

/-- The call `memcpy(dst + pos, src, n)` with `n` the size of `src`: `none` when the
written range `[pos, pos + n)` is not inside the buffer. -/
def memcpy (dst : ByteString) (pos : Nat) (src : ByteString) : Option ByteString :=
  if pos + src.length ≤ dst.length then
    some (dst.take pos ++ src ++ dst.drop (pos + src.length))
  else none

/-- Loop `for (int32_t i = 0; i < r->count; ++i)` of `GetResult`; the state is the
tokens buffer, the timestamps written so far and `pos`.  `none` when
`res.stokens[i]` or `res.timestamps[i]` does not exist or the copy leaves the
buffer. -/
def fillArrays {S : Type} (res : RecognitionResult S) :
    List Nat → ByteString × List S × Nat → Option (ByteString × List S × Nat)
  | [], st => some st
  | i :: rest, (tokens, timestamps, pos) =>
    match res.stokens[i]?, res.timestamps[i]? with
    | some stoken, some time =>
      match memcpy tokens pos stoken with
      | none => none
      | some tokens =>
        fillArrays res rest (tokens, timestamps ++ [time], pos + stoken.length + 1)
    | _, _ => none

/-- Embeds `GetResult` of `c-api.cc` (the same code in both runtimes): the struct
and the stream afterwards.  It calls the recognizer's `GetResult` twice, for the
text and for the arrays. -/
def GetResult {S D C : Type} [IntCast D] [Div D] [Mul D] [OfScientific D]
    [IntCast S] [Mul S] [LE S]
    [DecidableRel (fun a b : S => a ≤ b)] [LT S] [DecidableRel (fun a b : S => a < b)]
    [OfScientific S] (toFloat : D → S) (Finalize : Stream S C → Stream S C)
    (p : Recognizer S) (s : Stream S C) :
    Option (SherpaDeployMnnResult S × Stream S C) :=
  match p.GetResult toFloat Finalize s with
  | none => none
  | some first =>
    let text := first.1.text
    match p.GetResult toFloat Finalize first.2 with
    | none => none
    | some second =>
      let res := second.1
      let r_text := text ++ [0]
      let count := res.tokens.length
      if count > 0 then
        match fillArrays res (List.range count)
            (List.replicate (text.length + count) 0, [], 0) with
        | none => none
        | some filled =>
          some ({ text := r_text, tokens := some filled.1, timestamps := some filled.2.1,
                  count := count }, second.2)
      else
        some ({ text := r_text, tokens := none, timestamps := none, count := count },
          second.2)

end CApi

/-! ## OpenVINO runtime: the greedy decoder -/

namespace OpenVino

namespace GreedySearchDecoder

variable {S C : Type}

/-- Embeds `GreedySearchDecoder::GetEncoderOutFrame` of
`openvino/greedy-search-decoder.cc`. -/
def GetEncoderOutFrame (encoder_out : Tensor S) (t : Nat) : Tensor S :=
  let batch_size := encoder_out.shape.getD 0 0
  let num_frames := encoder_out.shape.getD 1 0
  let encoder_out_dim := encoder_out.shape.getD 2 0
  let offset := num_frames * encoder_out_dim
  { shape := [batch_size, encoder_out_dim]
    data := (List.range batch_size).flatMap fun i =>
      slice encoder_out.data (i * offset + t * encoder_out_dim) encoder_out_dim }

/-- The conversion `static_cast<int64_t>` of an `int32_t`. -/
def toInt64 (x : Int) : Int := x

/-- Embeds `GreedySearchDecoder::BuildDecoderInput` of the OpenVINO runtime: the
last `context_size` tokens, each converted to `int64_t`. -/
def BuildDecoderInput (model : Model S) (result : DecoderResult S C) : Tensor Int :=
  { shape := [1, model.ContextSize]
    data := (lastN model.ContextSize result.tokens).map toInt64 }

/-- Body of the frame loop of the OpenVINO `GreedySearchDecoder::Decode`. -/
def DecodeFrame [LT S] [DecidableRel (fun a b : S => a < b)] (model : Model S)
    (encoder_out : Tensor S) (frame_offset : Int)
    (st : DecoderResult S C × Tensor S) (t : Nat) : DecoderResult S C × Tensor S :=
  let encoder_out_t := GetEncoderOutFrame encoder_out t
  let joiner_out := model.RunJoiner encoder_out_t st.2
  let vocab_size := joiner_out.shape.getD 1 0
  let new_token := maxElementIndex (joiner_out.data.take vocab_size)
  if new_token ≠ 0 ∧ new_token ≠ 2 then
    let result := { st.1 with tokens := st.1.tokens ++ [(new_token : Int)] }
    let decoder_out := model.RunDecoder (BuildDecoderInput model result)
    ({ result with
        num_trailing_blanks := 0
        timestamps := result.timestamps ++ [(t : Int) + frame_offset] }, decoder_out)
  else
    ({ st.1 with num_trailing_blanks := st.1.num_trailing_blanks + 1 }, st.2)

/-- Embeds `GreedySearchDecoder::Decode` of `openvino/greedy-search-decoder.cc`. -/
def Decode [LT S] [DecidableRel (fun a b : S => a < b)] (model : Model S)
    (encoder_out : Tensor S) (result : DecoderResult S C) : DecoderResult S C :=
  let num_frames := encoder_out.shape.getD 1 0
  let decoder_out :=
    match result.decoder_out with
    | some d => d
    | none => model.RunDecoder (BuildDecoderInput model result)
  let frame_offset := result.frame_offset
  let st := (List.range num_frames).foldl (DecodeFrame model encoder_out frame_offset)
    (result, decoder_out)
  { st.1 with
    frame_offset := st.1.frame_offset + (num_frames : Int)
    decoder_out := some st.2 }

end GreedySearchDecoder

end OpenVino

/-! ## Greedy search: the per-frame argmax of one call -/

namespace GreedySearchDecoder

variable {S C : Type} [LT S] [DecidableRel (fun a b : S => a < b)]

/-- The pairs `(t, new_token)` of the frames `ts`, in frame order, as the loop of
`Decode` computes them from the state `st`. -/
def frameTokens (model : Model S) (encoder_out : Tensor S) (frame_offset : Int) :
    List Nat → DecoderResult S C × Tensor S → List (Nat × Nat)
  | [], _ => []
  | t :: ts, st =>
    (t, newToken (model.RunJoiner (GetEncoderOutFrame encoder_out t) st.2))
      :: frameTokens model encoder_out frame_offset ts
          (DecodeFrame model encoder_out frame_offset st t)

/-- The prediction-network output a `Decode` call starts with. -/
def initialDecoderOut (model : Model S) (result : DecoderResult S C) : Tensor S :=
  match result.decoder_out with
  | some d => d
  | none => model.RunDecoder (BuildDecoderInput model result)

/-- The frames of one `Decode` call that emit, with their tokens: the pairs
`(t, new_token)` whose token is neither `0` nor `2`. -/
def emissions (model : Model S) (encoder_out : Tensor S) (result : DecoderResult S C) :
    List (Nat × Nat) :=
  (frameTokens model encoder_out result.frame_offset (List.range (numFrames encoder_out))
    (result, initialDecoderOut model result)).filter fun p => decide (p.2 ≠ 0 ∧ p.2 ≠ 2)

end GreedySearchDecoder

namespace OpenVino

namespace GreedySearchDecoder

/-- Embeds `GreedySearchDecoder::GetEmptyResult` of
`openvino/greedy-search-decoder.cc`. -/
def GetEmptyResult {S C : Type} (model : Model S) : DecoderResult S C :=
  { tokens := List.replicate model.ContextSize 0 }

end GreedySearchDecoder

end OpenVino

namespace ModifiedBeamSearchDecoder

variable {S C : Type}

/-- The loop state of `Decode` with `result->decoder_out` nulled. -/
def forgetDecoderOut (st : Hypotheses S C × DecoderResult S C) :
    Hypotheses S C × DecoderResult S C :=
  (st.1, { st.2 with decoder_out := none })

/-- The statements of `Decode` after the frame loop: `hyps` and `frame_offset` are
stored and the most probable hypothesis is published. -/
def publish [LT S] [DecidableRel (fun a b : S => a < b)] (model : Model S) (num_frames : Nat)
    (st : Hypotheses S C × DecoderResult S C) : Option (DecoderResult S C) :=
  let result := { st.2 with
    hyps := st.1
    frame_offset := st.2.frame_offset + (num_frames : Int) }
  match result.hyps.GetMostProbable true with
  | none => none
  | some hyp =>
    let decoder_input := BuildDecoderInput model [hyp]
    some { result with
      decoder_out := some (model.RunDecoder decoder_input)
      tokens := hyp.ys
      num_trailing_blanks := hyp.num_trailing_blanks }

end ModifiedBeamSearchDecoder

namespace Hypotheses

/-- The keys of the container: the `ys` of its entries, in insertion order. -/
def keys {S C : Type} (self : Hypotheses S C) : List (List Int) :=
  self.hyps_dict.map fun h => h.ys

/-- A sequence of `Add` calls on a container. -/
def AddAll {S C : Type} [LT S] [DecidableRel (fun a b : S => a < b)] (ops : MathOps S)
    (self : Hypotheses S C) (hyps : List (Hypothesis S C)) : Hypotheses S C :=
  hyps.foldl (fun acc h => acc.Add ops h) self

end Hypotheses

namespace Demo

/-- Two paths with the same `ys` and a third with another one. -/
def pathA : Hypothesis Int Nat :=
  { ys := [0, 0, 7], log_prob := 3, timestamps := [1] }

/-- The second path reaching `[0, 0, 7]`, with the higher log-probability. -/
def pathB : Hypothesis Int Nat :=
  { ys := [0, 0, 7], log_prob := 5, timestamps := [2], num_trailing_blanks := 1 }

/-- A path with another token sequence. -/
def pathC : Hypothesis Int Nat :=
  { ys := [0, 0, 4], log_prob := 1, timestamps := [2] }

end Demo

namespace Demo

/-- Numeric helpers whose top-k selection never selects a pair. -/
def opsNoSurvivor : MathOps Int :=
  { LogSoftmax := fun row k => row.getD k 0
    TopkIndex := fun _ _ _ => []
    LogAdd := fun a b => max a b }

end Demo

namespace Demo

/-- A construction environment: every model path yields `Demo.model`, token `i` is
spelled as the byte `97 + i`, only `hotwords.txt` opens, and every hotword line
encodes (here to one hotword of two tokens). -/
def env : Environment Int :=
  { math := ops
    Create := fun _ => model
    SymbolTable := fun _ i => [(97 + i).toNat]
    symbol_emitted := fun n t => decide (t < n)
    ifstream := fun path => path == "hotwords.txt"
    EncodeHotwords := fun _ _ _ _ => (true, [[7, 5]], [2]) }

/-- `Demo.config` with the given method, BPE model and hotwords file. -/
def configWith (method bpe_vocab hotwords_file : String) : RecognizerConfig Int :=
  { config with
    decoder_config := { method := method, num_active_paths := 4 }
    model_config := { tokens := "tokens.txt", bpe_vocab := bpe_vocab }
    hotwords_file := hotwords_file }

end Demo

/-! ## Streams reachable through the recognizer -/

namespace CApi

/-- The token strings in order, each followed by one NUL byte. -/
def packed (stokens : List ByteString) : ByteString :=
  stokens.flatMap fun stoken => stoken ++ [0]

end CApi

namespace Recognizer

variable {S C : Type}

/-- Stream states reachable through the recognizer: `CreateStream`, then any
sequence of `DecodeStream` calls that return, `Reset`, and changes of the buffered
feature frames (`AcceptWaveform`). -/
inductive Reachable [Zero S] [Add S] [LT S] [DecidableRel (fun a b : S => a < b)]
    (self : Recognizer S)
    (graphOf : List (List Int) → S → List S → ContextGraph S C) : Stream S C → Prop
  | create : Reachable self graphOf (self.CreateStream graphOf)
  | accept (s : Stream S C) (features : List (List S)) :
      Reachable self graphOf s → Reachable self graphOf { s with features := features }
  | decode (s s' : Stream S C) :
      Reachable self graphOf s → self.DecodeStream s = some s' → Reachable self graphOf s'
  | reset (s : Stream S C) : Reachable self graphOf s → Reachable self graphOf (self.Reset s)

/-- What the selected decoder maintains in a stream's result: the greedy search one
timestamp per token after the pad, the beam search one timestamp per token after
the pad in every hypothesis, of which there is at least one. -/
def ResultInv (self : Recognizer S) (r : DecoderResult S C) : Prop :=
  match self.decoder_ with
  | Decoder.GreedySearch => GreedySearchDecoder.PadInv self.model_.ContextSize r
  | Decoder.ModifiedBeamSearch _ =>
    (∀ h ∈ r.hyps.hyps_dict, h.ys.length = self.model_.ContextSize + h.timestamps.length) ∧
      r.hyps.hyps_dict ≠ []

end Recognizer

/-! ## Greedy search: the calls to the model -/

namespace GreedySearchDecoder

/-- The calls of one `Decode` run to the model, in the order they are made: the
inputs handed to `RunDecoder` and the argument pairs handed to `RunJoiner`. -/
structure Calls (S : Type) where
  decoder : List (Tensor Int) := []
  joiner : List (Tensor S × Tensor S) := []
deriving DecidableEq

variable {S C : Type} [LT S] [DecidableRel (fun a b : S => a < b)]

/-- Body of the frame loop of `GreedySearchDecoder::Decode` with every call to
`RunJoiner` and `RunDecoder` recorded. -/
def DecodeFrameTraced (model : Model S) (encoder_out : Tensor S) (frame_offset : Int)
    (st : (DecoderResult S C × Tensor S) × Calls S) (t : Nat) :
    (DecoderResult S C × Tensor S) × Calls S :=
  let encoder_out_t := GetEncoderOutFrame encoder_out t
  let joiner_out := model.RunJoiner encoder_out_t st.1.2
  let calls : Calls S := { st.2 with joiner := st.2.joiner ++ [(encoder_out_t, st.1.2)] }
  let new_token := newToken joiner_out
  if new_token ≠ 0 ∧ new_token ≠ 2 then
    let result := { st.1.1 with tokens := st.1.1.tokens ++ [(new_token : Int)] }
    let decoder_input := BuildDecoderInput model result
    let decoder_out := model.RunDecoder decoder_input
    (({ result with
          num_trailing_blanks := 0
          timestamps := result.timestamps ++ [(t : Int) + frame_offset] }, decoder_out),
      { calls with decoder := calls.decoder ++ [decoder_input] })
  else
    (({ st.1.1 with num_trailing_blanks := st.1.1.num_trailing_blanks + 1 }, st.1.2), calls)

/-- Embeds `GreedySearchDecoder::Decode` with every call to the model recorded. -/
def DecodeTraced (model : Model S) (encoder_out : Tensor S) (result : DecoderResult S C) :
    DecoderResult S C × Calls S :=
  let num_frames := encoder_out.shape.getD 1 0
  let entry : Tensor S × Calls S :=
    match result.decoder_out with
    | some d => (d, {})
    | none =>
      let decoder_input := BuildDecoderInput model result
      (model.RunDecoder decoder_input, { decoder := [decoder_input] })
  let frame_offset := result.frame_offset
  let st := (List.range num_frames).foldl (DecodeFrameTraced model encoder_out frame_offset)
    ((result, entry.1), entry.2)
  ({ st.1.1 with
      frame_offset := st.1.1.frame_offset + (num_frames : Int)
      decoder_out := some st.1.2 }, st.2)

/-- The loop state of `Decode` before frame `t`: `*result` and the local
`decoder_out` after the frames `0, ..., t - 1`. -/
def running (model : Model S) (encoder_out : Tensor S) (result : DecoderResult S C) (t : Nat) :
    DecoderResult S C × Tensor S :=
  (List.range t).foldl (DecodeFrame model encoder_out result.frame_offset)
    (result, initialDecoderOut model result)

end GreedySearchDecoder

namespace GreedySearchDecoder

/-- Shape of the timestamps of a greedy result against a frame bound `b`: strictly
increasing, every entry in `[0, b)`, and a blank counter of at most `b`. -/
def TimeInv {S C : Type} (b : Int) (r : DecoderResult S C) : Prop :=
  r.timestamps.Pairwise (fun x y => x < y) ∧ (∀ x ∈ r.timestamps, 0 ≤ x ∧ x < b) ∧
    r.num_trailing_blanks ≤ b

end GreedySearchDecoder

/-- Index `i` holds the first largest element of `l`: no element is larger than
`l[i]` and every element before it is strictly smaller. -/
def IsFirstMax {S : Type} [LE S] [LT S] (l : List S) (i : Nat) (best : S) : Prop :=
  l[i]? = some best ∧ (∀ (j : Nat) (x : S), l[j]? = some x → x ≤ best) ∧
    (∀ (j : Nat) (x : S), j < i → l[j]? = some x → x < best)

/-- The encoder output whose frames are those of `a` followed by those of `b`: the
concatenation of two `{batch, frames, dim}` tensors along the frame axis, in
row-major layout. -/
def concatFrames {S : Type} (a b : Tensor S) : Tensor S :=
  let batch_size := a.shape.getD 0 0
  let frames_a := a.shape.getD 1 0
  let frames_b := b.shape.getD 1 0
  let dim := a.shape.getD 2 0
  { shape := [batch_size, frames_a + frames_b, dim]
    data := (List.range batch_size).flatMap fun i =>
      slice a.data (i * (frames_a * dim)) (frames_a * dim)
        ++ slice b.data (i * (frames_b * dim)) (frames_b * dim) }

namespace GreedySearchDecoder

/-- The loop state with `frame_offset` and `decoder_out` of `*result` replaced; the
frame loop does not read these two fields. -/
def rebase {S C : Type} (frame_offset : Int) (decoder_out : Option (Tensor S))
    (st : DecoderResult S C × Tensor S) : DecoderResult S C × Tensor S :=
  ({ st.1 with frame_offset := frame_offset, decoder_out := decoder_out }, st.2)

end GreedySearchDecoder

/-! ## Beam search: the parts of one frame -/

namespace ModifiedBeamSearchDecoder

variable {S C : Type}

/-- The tensor `encoder_out_t` of frame `t` in `ModifiedBeamSearchDecoder::Decode`:
the `encoder_out_dim` values at `p_src`, which has advanced by `encoder_out_dim`
per frame. -/
def frameSlice (encoder_out : Tensor S) (t : Nat) : Tensor S :=
  let encoder_out_dim := encoder_out.shape.getD 2 0
  { shape := [1, encoder_out_dim]
    data := slice encoder_out.data (t * encoder_out_dim) encoder_out_dim }

/-- The local `decoder_out` of a frame of `Decode`: the cached tensor on the fast
path, otherwise the output of `RunDecoder2D` on the windows of `prev`. -/
def predictionOut (model : Model S) (prev : List (Hypothesis S C))
    (result : DecoderResult S C) (t : Nat) : Option (Tensor S) :=
  match fastPath model prev result t with
  | some d => some d
  | none => RunDecoder2D model (BuildDecoderInput model prev)

/-- The joiner output of a frame of `Decode` after the in-place `LogSoftmax`. -/
def joinerScores (ops : MathOps S) (model : Model S) (encoder_out : Tensor S) (t : Nat)
    (decoder_out : Tensor S) : Tensor S :=
  LogSoftmax ops (model.RunJoiner (frameSlice encoder_out t) decoder_out)

/-- The selection `topk` of a frame of `Decode` on the scores `p_joiner_out`. -/
def selection (ops : MathOps S) (joiner_out : Tensor S) (p_joiner_out : List S)
    (num_active_paths_ : Nat) : List Nat :=
  ops.TopkIndex p_joiner_out (joiner_out.shape.getD 0 0 * joiner_out.shape.getD 1 0)
    num_active_paths_

end ModifiedBeamSearchDecoder

namespace Demo

/-- The loop state of the beam search at frame `0` of a first chunk: the container
of the empty result and `*result` after its `hyps` were moved out. -/
def frameState : Hypotheses Int Nat × DecoderResult Int Nat :=
  ((ModifiedBeamSearchDecoder.GetEmptyResult model : DecoderResult Int Nat).hyps,
    { (ModifiedBeamSearchDecoder.GetEmptyResult model : DecoderResult Int Nat) with hyps := ⟨[]⟩ })

/-- The prediction-network output of `Demo.model` for the pad window `[0, 0]`. -/
def padOut : Tensor Int := { shape := [1, 1], data := [0] }

/-- A context graph that gives every token the bias score `2` and moves to state
`1`. -/
def graph : ContextGraph Int Nat :=
  { Root := 0, ForwardOneStep := fun _ _ _ => (2, some 1) }

end Demo

namespace ModifiedBeamSearchDecoder

/-- The prediction-network output for one hypothesis: `RunDecoder` of its last
`context_size` tokens, as a `{1, context_size}` input. -/
def windowOut {S C : Type} (model : Model S) (hyp : Hypothesis S C) : Tensor S :=
  model.RunDecoder { shape := [1, model.ContextSize], data := lastN model.ContextSize hyp.ys }

end ModifiedBeamSearchDecoder

namespace Demo

/-- `Demo.model` with `context_size = 0`: the pad is empty. -/
def modelNoContext : Model Int :=
  { model with ContextSize := 0 }

/-- The hypothesis after token `5` was decoded at frame `0` with an empty pad. -/
def noContextHyp : Hypothesis Int Nat :=
  { ys := [5], log_prob := 1, timestamps := [0] }

/-- The beam-search result of `Demo.modelNoContext` after the one-frame chunk `[5]`
from the empty result. -/
def noContextResult : DecoderResult Int Nat :=
  { frame_offset := 1
    tokens := [5]
    num_trailing_blanks := 0
    timestamps := []
    decoder_out := some { shape := [1, 1], data := [0] }
    hyps := ⟨[noContextHyp]⟩ }

end Demo

/-! ## The microphone program of the OpenVINO runtime: its arguments -/

namespace OpenVino

/-- The fields of `SherpaOVRecognizerConfig` (`c-api.h`) that `main` of
`sherpa-openvino-microphone.cc` assigns.  `num_active_paths` is assigned only for
the beam search; `none` is the field left as it was. -/
structure SherpaOVRecognizerConfig (S : Type) where
  encoder_xml : String
  decoder_xml : String
  joiner_xml : String
  tokens : String
  device : String
  num_threads : Int
  decoding_method : String
  num_active_paths : Option Int
  hotwords_file : String
  hotwords_score : S
  enable_endpoint : Bool
  rule1_min_trailing_silence : S
  rule2_min_trailing_silence : S
  rule3_min_utterance_length : S
  sampling_rate : S
  feature_dim : Int

/-- How `main` leaves its argument handling: it prints the usage text and `argc`
and returns `0`, or it goes on to `CreateRecognizer` with the configuration. -/
inductive MainStage (S : Type) where
  | usage (argc : Nat)
  | proceeds (config : SherpaOVRecognizerConfig S)

namespace Microphone

/-- The entry `argv[i]`. -/
def arg (argv : List String) (i : Nat) : String := argv.getD i ""

/-- Embeds the argument handling of `main` in `sherpa-openvino-microphone.cc`, up to
the call of `CreateRecognizer`; `argv` holds the program name and the arguments,
`argc` is its length, and `atoi`, `atof` are the C library functions. -/
def main {S : Type} [Zero S] [OfScientific S] (atoi : String → Int) (atof : String → S)
    (argv : List String) : MainStage S :=
  let argc := argv.length
  if argc < 5 ∨ argc > 9 then MainStage.usage argc
  else
    let device := if argc ≥ 6 then arg argv 5 else "CPU"
    let num_threads : Int :=
      if argc ≥ 7 ∧ atoi (arg argv 6) > 0 then atoi (arg argv 6) else 4
    let expected_sampling_rate : S := 16000.0
    let beam : Bool := decide (argc ≥ 8) && (arg argv 7 == "modified_beam_search")
    let decoding_method := if beam then arg argv 7 else "greedy_search"
    let num_active_paths : Option Int := if beam then some 4 else none
    let hotwords_file := if argc ≥ 9 then arg argv 8 else ""
    let hotwords_score : S := if argc = 10 then atof (arg argv 9) else 0
    MainStage.proceeds
      { encoder_xml := arg argv 1
        decoder_xml := arg argv 2
        joiner_xml := arg argv 3
        tokens := arg argv 4
        device := device
        num_threads := num_threads
        decoding_method := decoding_method
        num_active_paths := num_active_paths
        hotwords_file := hotwords_file
        hotwords_score := hotwords_score
        enable_endpoint := true
        rule1_min_trailing_silence := 2.4
        rule2_min_trailing_silence := 1.2
        rule3_min_utterance_length := 300.0
        sampling_rate := expected_sampling_rate
        feature_dim := 80 }

/-- A command line with all nine arguments of the usage text. -/
def nineArguments : List String :=
  ["./bin/sherpa-openvino-microphone", "encoder.xml", "decoder.xml", "joiner.xml",
    "tokens.txt", "CPU", "4", "modified_beam_search", "hotwords.txt", "1.5"]

end Microphone

end OpenVino

/-! ## A model of `float` and `double` -/

namespace Binary

/-- The value `⌊log2 n⌋` for `n ≥ 1`, by repeated halving; the first argument bounds
the number of steps. -/
def floorLog2 : Nat → Nat → Nat
  | 0, _ => 0
  | fuel + 1, n => if n < 2 then 0 else floorLog2 fuel (n / 2) + 1

/-- The fraction `p / q` divided by `2 ^ s`, as a numerator and a denominator. -/
def scale (p q : Nat) (s : Int) : Nat × Nat :=
  if 0 ≤ s then (p, q * 2 ^ s.toNat) else (p * 2 ^ (-s).toNat, q)

/-- The binary exponent `⌊log2 (p / q)⌋` of a positive fraction. -/
def exponent (p q : Nat) : Int :=
  let k : Int := (floorLog2 p p : Int) - (floorLog2 q q : Int)
  let pq := scale p q k
  if pq.2 ≤ pq.1 then k else k - 1

/-- Rounding of the positive fraction `p / q` to a significand of `prec` bits, to the
nearest value, a tie going to the even significand. -/
def roundPos (prec p q : Nat) : ℚ :=
  let s : Int := exponent p q - ((prec : Int) - 1)
  let pq := scale p q s
  let n := pq.1 / pq.2
  let r := pq.1 % pq.2
  let n' := if 2 * r < pq.2 then n else if pq.2 < 2 * r then n + 1
    else if n % 2 = 0 then n else n + 1
  if 0 ≤ s then ((n' * 2 ^ s.toNat : Nat) : ℚ) else mkRat (n' : Int) (2 ^ (-s).toNat)

/-- Rounding of a rational to the binary format with `prec` significand bits
(round to nearest, ties to even), the exponent range being taken as unbounded. -/
def round (prec : Nat) (x : ℚ) : ℚ :=
  if x.num = 0 then 0
  else if x.num < 0 then -roundPos prec x.num.natAbs x.den
  else roundPos prec x.num.natAbs x.den

end Binary

/-- A finite value of the C++ type `float` on a platform with IEEE 754 arithmetic
(binary32, 24 significand bits), given by the rational number it stands for.
Every operation is the exact one followed by rounding to nearest, ties to even.
NaN, the infinities and the bounds of the exponent are not represented: the model
agrees with the hardware as long as no operation overflows, underflows or takes a
NaN, which holds for the values computed with it here. -/
structure Binary32 where
  val : ℚ
deriving DecidableEq

/-- A finite value of the C++ type `double` (binary64, 53 significand bits), with the
same conventions as `Binary32`. -/
structure Binary64 where
  val : ℚ
deriving DecidableEq

namespace Binary32

instance : Zero Binary32 := ⟨⟨0⟩⟩

instance : IntCast Binary32 := ⟨fun n => ⟨Binary.round 24 (n : ℚ)⟩⟩

instance : OfScientific Binary32 :=
  ⟨fun m s e => ⟨Binary.round 24 (OfScientific.ofScientific m s e : ℚ)⟩⟩

instance : Add Binary32 := ⟨fun a b => ⟨Binary.round 24 (a.val + b.val)⟩⟩

instance : Mul Binary32 := ⟨fun a b => ⟨Binary.round 24 (a.val * b.val)⟩⟩

instance : Div Binary32 := ⟨fun a b => ⟨Binary.round 24 (a.val / b.val)⟩⟩

instance : LT Binary32 := ⟨fun a b => a.val < b.val⟩

instance : LE Binary32 := ⟨fun a b => a.val ≤ b.val⟩

instance : DecidableRel (fun a b : Binary32 => a < b) :=
  fun a b => inferInstanceAs (Decidable (a.val < b.val))

instance : DecidableRel (fun a b : Binary32 => a ≤ b) :=
  fun a b => inferInstanceAs (Decidable (a.val ≤ b.val))

end Binary32

namespace Binary64

instance : IntCast Binary64 := ⟨fun n => ⟨Binary.round 53 (n : ℚ)⟩⟩

instance : OfScientific Binary64 :=
  ⟨fun m s e => ⟨Binary.round 53 (OfScientific.ofScientific m s e : ℚ)⟩⟩

instance : Mul Binary64 := ⟨fun a b => ⟨Binary.round 53 (a.val * b.val)⟩⟩

instance : Div Binary64 := ⟨fun a b => ⟨Binary.round 53 (a.val / b.val)⟩⟩

/-- The conversion of a `double` to `float`. -/
def toFloat (x : Binary64) : Binary32 := ⟨Binary.round 24 x.val⟩

end Binary64

/-! ## Fixtures over the model of `float` -/

namespace DemoF

/-- A small model over `float` scores; only its sizes matter here. -/
def model : Model Binary32 :=
  { ContextSize := 2
    Segment := 3
    Offset := 2
    GetEncoderInitStates := []
    RunEncoder := fun features states =>
      ({ shape := [1, features.shape.getD 0 0, 1], data := features.data }, states)
    RunDecoder := fun decoder_input =>
      { shape := [1, 1], data := [((decoder_input.data.sum : Int) : Binary32)] }
    RunJoiner := fun encoder_out decoder_out =>
      { shape := [decoder_out.shape.getD 0 0, 8]
        data := (List.range (decoder_out.shape.getD 0 0)).flatMap fun _ =>
          (List.range 8).map fun (k : Nat) =>
            if (((k : Int) : Binary32)) = encoder_out.data.headD 0 then ((1 : Int) : Binary32)
            else 0 } }

/-- The endpoint rules of `sherpa-openvino-microphone.cc`: `2.4` s, `1.2` s and
`300` s. -/
def endpointConfig : EndpointConfig Binary32 :=
  { rule1_min_trailing_silence := some 2.4
    rule2_min_trailing_silence := some 1.2
    rule3_min_utterance_length := some 300.0 }

/-- An endpoint detector with these rules that takes a symbol to have been emitted
when the trailing silence is shorter than the utterance. -/
def endpoint : Endpoint Binary32 :=
  { config_ := endpointConfig, symbol_emitted := fun n t => decide (t < n) }

/-- A configuration selecting the greedy search, endpointing enabled. -/
def config : RecognizerConfig Binary32 :=
  { feature_dim := 1
    model_config := { tokens := "tokens.txt" }
    decoder_config := { method := "greedy_search", num_active_paths := 4 }
    endpoint_config := endpointConfig
    enable_endpoint := true
    hotwords_file := ""
    hotwords_score := 0 }

/-- A greedy-search recognizer; token `i` is spelled as the single byte `97 + i`. -/
def recognizer : Recognizer Binary32 :=
  { model_ := model
    decoder_ := Decoder.GreedySearch
    math :=
      { LogSoftmax := fun row k => row.getD k 0
        TopkIndex := fun p size _ => [maxElementIndex (p.take size)]
        LogAdd := fun a b => if a < b then b else a }
    config_ := config
    endpoint_ := endpoint
    sym_ := fun i => [(97 + i).toNat]
    bpe_encoder_ := none
    hotwords_ := []
    boost_scores_ := [] }

/-- A stream that has decoded token `7` at frame `2` and `1` at frame `5`, with the
given cursor and trailing-blank counter. -/
def stream (num_processed_frames : Nat) (num_trailing_blanks : Int) : Stream Binary32 Nat :=
  { features := []
    feature_dim := 1
    num_processed_frames := num_processed_frames
    result :=
      { frame_offset := 25
        tokens := [0, 0, 7, 1]
        num_trailing_blanks := num_trailing_blanks
        timestamps := [2, 5] }
    states := []
    context_graph := none }

/-- One function that can stand for `Stream::Finalize` in an example: it drops the
buffered feature frames. -/
def dropFrames (s : Stream Binary32 Nat) : Stream Binary32 Nat := { s with features := [] }

/-- A context-graph builder with a single state. -/
def graphOf : List (List Int) → Binary32 → List Binary32 → ContextGraph Binary32 Nat :=
  fun _ _ _ => { Root := 0, ForwardOneStep := fun _ _ _ => (0, none) }

end DemoF

/-! ## Scores that may be NaN -/

namespace Demo

/-- A `float` score that is either NaN or a whole number. -/
inductive Score where
  | nan : Score
  | num (x : Int) : Score
deriving DecidableEq

/-- The comparison `a < b` of two scores: false whenever one of them is NaN, as for
`float`. -/
def Score.lt : Score → Score → Bool
  | Score.num x, Score.num y => decide (x < y)
  | _, _ => false

/-- The comparison `a <= b` of two scores: false whenever one of them is NaN. -/
def Score.le : Score → Score → Bool
  | Score.num x, Score.num y => decide (x ≤ y)
  | _, _ => false

instance : LT Score := ⟨fun a b => Score.lt a b = true⟩

instance : LE Score := ⟨fun a b => Score.le a b = true⟩

instance : DecidableRel (fun a b : Score => a < b) :=
  fun a b => inferInstanceAs (Decidable (Score.lt a b = true))

instance : DecidableRel (fun a b : Score => a ≤ b) :=
  fun a b => inferInstanceAs (Decidable (Score.le a b = true))

/-- A joiner output with one row of three scores, the first of them NaN. -/
def nanJoinerOut : Tensor Score :=
  { shape := [1, 3], data := [Score.nan, Score.num 1, Score.num 2] }

/-- A joiner output with one row of four `float` scores, the maximum `3` at the
indices `1` and `2`. -/
def tiedFloatJoinerOut : Tensor Binary32 :=
  { shape := [1, 4], data := [1.0, 3.0, 3.0, 2.0] }

end Demo

/-- The scores of a row compare like numbers: `<=` is total and transitive on them
and `x < y` is the negation of `y <= x`.  This holds for `float` scores exactly when
none of them is NaN. -/
def OrderedScores {S : Type} [LE S] [LT S] (row : List S) : Prop :=
  (∀ x ∈ row, ∀ y ∈ row, x ≤ y ∨ y ≤ x) ∧
  (∀ x ∈ row, ∀ y ∈ row, ∀ z ∈ row, x ≤ y → y ≤ z → x ≤ z) ∧
  (∀ x ∈ row, ∀ y ∈ row, (x < y ↔ ¬ y ≤ x))

namespace DemoF

/-- A new stream of `DemoF.recognizer` after the three frames `[0], [0], [7]` have
arrived and one `DecodeStream`: token `7` emitted at frame `2`. -/
def decoded : Stream Binary32 Nat :=
  { features := [[0], [0], [((7 : Int) : Binary32)]]
    feature_dim := 1
    num_processed_frames := 2
    result :=
      { frame_offset := 3
        tokens := [0, 0, 7]
        num_trailing_blanks := 0
        timestamps := [2]
        decoder_out := some { shape := [1, 1], data := [((7 : Int) : Binary32)] } }
    states := []
    context_graph := none }

end DemoF

/-! # Theorems -/

/-! ## Greedy search: invariants of reachable results -/

namespace GreedySearchDecoder

variable {S C : Type} [LT S] [DecidableRel (fun a b : S => a < b)]

theorem padInv_decodeFrame (model : Model S) (encoder_out : Tensor S) (frame_offset : Int)
    (c : Nat) (st : DecoderResult S C × Tensor S) (t : Nat) (h : PadInv c st.1) :
    PadInv c (DecodeFrame model encoder_out frame_offset st t).1 := by
  obtain ⟨hlen, hmem⟩ := h
  unfold DecodeFrame
  dsimp only
  split
  · rename_i hne
    refine ⟨?_, ?_⟩
    · simp only [List.length_append, List.length_singleton]
      omega
    · intro x hx
      rw [List.drop_append_of_le_length (by omega)] at hx
      rcases List.mem_append.mp hx with hx | hx
      · exact hmem x hx
      · rw [List.mem_singleton] at hx
        subst hx
        constructor <;> omega
  · exact ⟨hlen, hmem⟩

theorem padInv_frames (model : Model S) (encoder_out : Tensor S) (frame_offset : Int)
    (c : Nat) (ts : List Nat) :
    ∀ st : DecoderResult S C × Tensor S, PadInv c st.1 →
      PadInv c (ts.foldl (DecodeFrame model encoder_out frame_offset) st).1 := by
  induction ts with
  | nil => intro st h; exact h
  | cons t ts ih =>
    intro st h
    rw [List.foldl_cons]
    exact ih _ (padInv_decodeFrame model encoder_out frame_offset c st t h)

theorem padInv_decode (model : Model S) (encoder_out : Tensor S) (c : Nat)
    (r : DecoderResult S C) (h : PadInv c r) : PadInv c (Decode model encoder_out r) := by
  unfold Decode
  exact padInv_frames model encoder_out r.frame_offset c _ _ h

omit [LT S] [DecidableRel (fun a b : S => a < b)] in
theorem padInv_empty (model : Model S) :
    PadInv model.ContextSize (GetEmptyResult model : DecoderResult S C) := by
  refine ⟨?_, ?_⟩
  · simp [GetEmptyResult]
  · intro x hx
    simp [GetEmptyResult] at hx

theorem padInv_of_reachable (model : Model S) (r : DecoderResult S C)
    (h : Reachable model r) : PadInv model.ContextSize r := by
  induction h with
  | empty => exact padInv_empty model
  | decode encoder_out r _ ih => exact padInv_decode model encoder_out _ r ih

/-- C1. Blank invariant (greedy): in every result reachable from `GetEmptyResult`
by `Decode` calls, no entry of `tokens` at an index `>= context_size` is `0` or
`2`. -/
theorem greedy_blank_invariant (model : Model S) (r : DecoderResult S C)
    (h : Reachable model r) (i : Nat) (hi : model.ContextSize ≤ i) (x : Int)
    (hx : r.tokens[i]? = some x) : x ≠ 0 ∧ x ≠ 2 := by
  apply (padInv_of_reachable model r h).2
  rw [List.mem_iff_getElem?]
  refine ⟨i - model.ContextSize, ?_⟩
  rw [List.getElem?_drop, ← hx]
  congr 1
  omega

/-- Witness of C1 on `Demo.greedyResult`. -/
theorem greedy_blank_invariant_witness :
    Reachable Demo.model Demo.greedyResult ∧ Demo.model.ContextSize ≤ 2 ∧
      Demo.greedyResult.tokens[2]? = some 7 ∧ ((7 : Int) ≠ 0 ∧ (7 : Int) ≠ 2) :=
  ⟨Reachable.decode _ _ Reachable.empty, by decide, by decide,
    greedy_blank_invariant Demo.model Demo.greedyResult
      (Reachable.decode _ _ Reachable.empty) 2 (by decide) 7 (by decide)⟩

/-- C2. Pad invariant (greedy): on every reachable result `StripLeadingBlanks`
removes exactly the first `context_size` tokens, keeping the others in order, and
afterwards `tokens` and `timestamps` have the same length. -/
theorem greedy_pad_invariant (model : Model S) (r : DecoderResult S C)
    (h : Reachable model r) :
    (∃ pad : List Int, pad.length = model.ContextSize ∧
      r.tokens = pad ++ (StripLeadingBlanks model r).tokens) ∧
    (StripLeadingBlanks model r).tokens.length =
      (StripLeadingBlanks model r).timestamps.length := by
  obtain ⟨hlen, _⟩ := padInv_of_reachable model r h
  refine ⟨⟨r.tokens.take model.ContextSize, ?_, ?_⟩, ?_⟩
  · rw [List.length_take]
    omega
  · simp [StripLeadingBlanks]
  · simp only [StripLeadingBlanks, List.length_drop]
    omega

/-- Witness of C2 on `Demo.greedyResult`. -/
theorem greedy_pad_invariant_witness :
    Reachable Demo.model Demo.greedyResult ∧
    (∃ pad : List Int, pad.length = Demo.model.ContextSize ∧
      Demo.greedyResult.tokens = pad ++ (StripLeadingBlanks Demo.model Demo.greedyResult).tokens) ∧
    (StripLeadingBlanks Demo.model Demo.greedyResult).tokens.length =
      (StripLeadingBlanks Demo.model Demo.greedyResult).timestamps.length :=
  ⟨Reachable.decode _ _ Reachable.empty,
    greedy_pad_invariant Demo.model Demo.greedyResult (Reachable.decode _ _ Reachable.empty)⟩

/-! ## Greedy search: frame offset -/

theorem frameOffset_decodeFrame (model : Model S) (encoder_out : Tensor S) (frame_offset : Int)
    (st : DecoderResult S C × Tensor S) (t : Nat) :
    (DecodeFrame model encoder_out frame_offset st t).1.frame_offset = st.1.frame_offset := by
  unfold DecodeFrame
  dsimp only
  split <;> rfl

theorem frameOffset_frames (model : Model S) (encoder_out : Tensor S) (frame_offset : Int)
    (ts : List Nat) :
    ∀ st : DecoderResult S C × Tensor S,
      (ts.foldl (DecodeFrame model encoder_out frame_offset) st).1.frame_offset
        = st.1.frame_offset := by
  induction ts with
  | nil => intro st; rfl
  | cons t ts ih =>
    intro st
    rw [List.foldl_cons, ih, frameOffset_decodeFrame]

theorem frameOffset_decode (model : Model S) (encoder_out : Tensor S) (r : DecoderResult S C) :
    (Decode model encoder_out r).frame_offset = r.frame_offset + (numFrames encoder_out : Int) := by
  unfold Decode numFrames
  dsimp only
  rw [frameOffset_frames]

theorem frameOffset_decodeChunks (model : Model S) (chunks : List (Tensor S)) :
    ∀ r : DecoderResult S C,
      (DecodeChunks model chunks r).frame_offset
        = r.frame_offset + (((chunks.map numFrames).sum : Nat) : Int) := by
  induction chunks with
  | nil => intro r; simp [DecodeChunks]
  | cons e es ih =>
    intro r
    have h := ih (Decode model e r)
    unfold DecodeChunks at h ⊢
    rw [List.foldl_cons, h, frameOffset_decode, List.map_cons, List.sum_cons]
    push_cast
    ring

end GreedySearchDecoder

/-! ## Greedy search: the single-chunk scenario -/

namespace GreedySearchDecoder

variable {S C : Type} [LT S] [DecidableRel (fun a b : S => a < b)]

theorem decodeFrame_blank (model : Model S) (encoder_out : Tensor S) (frame_offset : Int)
    (st : DecoderResult S C × Tensor S) (t : Nat)
    (h : newToken (model.RunJoiner (GetEncoderOutFrame encoder_out t) st.2) = 0) :
    DecodeFrame model encoder_out frame_offset st t
      = ({ st.1 with num_trailing_blanks := st.1.num_trailing_blanks + 1 }, st.2) := by
  unfold DecodeFrame
  dsimp only
  rw [h]
  simp

theorem decodeFrame_emit (model : Model S) (encoder_out : Tensor S) (frame_offset : Int)
    (st : DecoderResult S C × Tensor S) (t k : Nat)
    (h : newToken (model.RunJoiner (GetEncoderOutFrame encoder_out t) st.2) = k)
    (h0 : k ≠ 0) (h2 : k ≠ 2) :
    DecodeFrame model encoder_out frame_offset st t
      = ({ st.1 with
            tokens := st.1.tokens ++ [(k : Int)]
            num_trailing_blanks := 0
            timestamps := st.1.timestamps ++ [(t : Int) + frame_offset] },
         model.RunDecoder
           (BuildDecoderInput model { st.1 with tokens := st.1.tokens ++ [(k : Int)] })) := by
  unfold DecodeFrame
  dsimp only
  rw [h, if_pos ⟨h0, h2⟩]

/-- A run of frames whose argmax is blank only advances the blank counter, as long
as the prediction-network output in use is an output of `RunDecoder`. -/
theorem frames_blank (model : Model S) (encoder_out : Tensor S) (frame_offset : Int)
    (ts : List Nat)
    (hts : ∀ t ∈ ts, ∀ d : Tensor Int,
      newToken (model.RunJoiner (GetEncoderOutFrame encoder_out t) (model.RunDecoder d)) = 0) :
    ∀ (r : DecoderResult S C) (d : Tensor Int),
      ts.foldl (DecodeFrame model encoder_out frame_offset) (r, model.RunDecoder d)
        = ({ r with num_trailing_blanks := r.num_trailing_blanks + (ts.length : Int) },
           model.RunDecoder d) := by
  induction ts with
  | nil => intro r d; simp
  | cons t ts ih =>
    intro r d
    rw [List.foldl_cons, decodeFrame_blank model encoder_out frame_offset _ t
      (hts t (List.mem_cons_self t ts) d)]
    rw [ih (fun u hu => hts u (List.mem_cons_of_mem t hu))]
    simp only [List.length_cons]
    congr 2
    push_cast
    ring

theorem mem_range'_three {k t : Nat} (h : t ∈ List.range' 3 k) : 3 ≤ t ∧ t < k + 3 := by
  rw [List.mem_range'_1] at h
  omega

/-- C4 (amended). End-to-end greedy scenario: with `context_size = 2`, from
`GetEmptyResult`, a single chunk of `num_frames >= 3` frames whose joiner argmax is
token `7` at frame `2` and blank at every other frame yields `tokens = [0,0,7]`,
`timestamps = [2]` and `num_trailing_blanks = num_frames - 3`. -/
theorem greedy_scenario (model : Model S) (encoder_out : Tensor S)
    (hc : model.ContextSize = 2) (hn : 3 ≤ numFrames encoder_out)
    (hs : TokenSevenAtFrameTwo model encoder_out) :
    (Decode model encoder_out (GetEmptyResult model : DecoderResult S C)).tokens = [0, 0, 7] ∧
    (Decode model encoder_out (GetEmptyResult model : DecoderResult S C)).timestamps = [2] ∧
    (Decode model encoder_out (GetEmptyResult model : DecoderResult S C)).num_trailing_blanks
      = (numFrames encoder_out : Int) - 3 := by
  obtain ⟨k, hk⟩ : ∃ k, numFrames encoder_out = k + 3 := ⟨numFrames encoder_out - 3, by omega⟩
  have hrange : List.range (k + 3) = [0, 1] ++ 2 :: List.range' 3 k := by
    rw [List.range_eq_range', List.range'_succ, List.range'_succ, List.range'_succ]
    rfl
  have hpre : ∀ t ∈ [0, 1], ∀ d : Tensor Int,
      newToken (model.RunJoiner (GetEncoderOutFrame encoder_out t) (model.RunDecoder d)) = 0 := by
    intro t ht d
    have ht2 : t < 2 := by simp at ht; omega
    rw [hs t (by omega) d, if_neg (by omega)]
  have hpost : ∀ t ∈ List.range' 3 k, ∀ d : Tensor Int,
      newToken (model.RunJoiner (GetEncoderOutFrame encoder_out t) (model.RunDecoder d)) = 0 := by
    intro t ht d
    have := mem_range'_three ht
    rw [hs t (by omega) d, if_neg (by omega)]
  have hmid : ∀ d : Tensor Int,
      newToken (model.RunJoiner (GetEncoderOutFrame encoder_out 2) (model.RunDecoder d)) = 7 := by
    intro d
    rw [hs 2 (by omega) d, if_pos rfl]
  have key : ∀ (r : DecoderResult S C) (d : Tensor Int),
      (List.range (k + 3)).foldl (DecodeFrame model encoder_out 0) (r, model.RunDecoder d)
        = ({ r with
              tokens := r.tokens ++ [7]
              num_trailing_blanks := (0 : Int) + (k : Int)
              timestamps := r.timestamps ++ [(2 : Int) + 0] },
           model.RunDecoder (BuildDecoderInput model
             { r with
               tokens := r.tokens ++ [7]
               num_trailing_blanks := r.num_trailing_blanks + 2 })) := by
    intro r d
    rw [hrange, List.foldl_append, frames_blank model encoder_out _ [0, 1] hpre,
      List.foldl_cons,
      decodeFrame_emit model encoder_out _ _ 2 7 (hmid _) (by decide) (by decide),
      frames_blank model encoder_out _ (List.range' 3 k) hpost]
    simp
  have hk' : encoder_out.shape.getD 1 0 = k + 3 := hk
  simp only [Decode, GetEmptyResult, hk', key, hc]
  refine ⟨by decide, by decide, ?_⟩
  omega

end GreedySearchDecoder

namespace GreedySearchDecoder

theorem demo_tokenSeven_three : TokenSevenAtFrameTwo Demo.model (Demo.chunk [0, 0, 7]) := by
  intro t ht d
  have ht3 : t < 3 := ht
  interval_cases t <;> rfl

theorem demo_tokenSeven_four : TokenSevenAtFrameTwo Demo.model (Demo.chunk [0, 0, 7, 0]) := by
  intro t ht d
  have ht4 : t < 4 := ht
  interval_cases t <;> rfl

/-- Witness of C4 (amended) on a chunk of four frames. -/
theorem greedy_scenario_witness :
    Demo.model.ContextSize = 2 ∧ 3 ≤ numFrames (Demo.chunk [0, 0, 7, 0]) ∧
    TokenSevenAtFrameTwo Demo.model (Demo.chunk [0, 0, 7, 0]) ∧
    (Decode Demo.model (Demo.chunk [0, 0, 7, 0])
      (GetEmptyResult Demo.model : DecoderResult Int Nat)).tokens = [0, 0, 7] ∧
    (Decode Demo.model (Demo.chunk [0, 0, 7, 0])
      (GetEmptyResult Demo.model : DecoderResult Int Nat)).timestamps = [2] ∧
    (Decode Demo.model (Demo.chunk [0, 0, 7, 0])
      (GetEmptyResult Demo.model : DecoderResult Int Nat)).num_trailing_blanks
      = (numFrames (Demo.chunk [0, 0, 7, 0]) : Int) - 3 :=
  ⟨rfl, by decide, demo_tokenSeven_four,
    greedy_scenario Demo.model (Demo.chunk [0, 0, 7, 0]) rfl (by decide) demo_tokenSeven_four⟩

/-- C4 as stated fails: in the scenario with three frames the code ends with
`num_trailing_blanks = 0`, not `num_frames - 1 = 2`, because the emission at
frame `2` resets the counter. -/
theorem greedy_scenario_counterexample :
    Demo.model.ContextSize = 2 ∧ 3 ≤ numFrames (Demo.chunk [0, 0, 7]) ∧
    TokenSevenAtFrameTwo Demo.model (Demo.chunk [0, 0, 7]) ∧
    (Decode Demo.model (Demo.chunk [0, 0, 7])
      (GetEmptyResult Demo.model : DecoderResult Int Nat)).num_trailing_blanks = 0 ∧
    (Decode Demo.model (Demo.chunk [0, 0, 7])
      (GetEmptyResult Demo.model : DecoderResult Int Nat)).num_trailing_blanks
      ≠ (numFrames (Demo.chunk [0, 0, 7]) : Int) - 1 :=
  ⟨rfl, by decide, demo_tokenSeven_three, by decide, by decide⟩

end GreedySearchDecoder

/-! ## Hypotheses container: membership -/

namespace Hypotheses

variable {S C : Type} [LT S] [DecidableRel (fun a b : S => a < b)]

theorem mem_insertRanked (h x : Hypothesis S C) (l : List (Hypothesis S C)) :
    x ∈ insertRanked h l ↔ x = h ∨ x ∈ l := by
  induction l with
  | nil => simp [insertRanked]
  | cons e rest ih =>
    unfold insertRanked
    split
    · simp
    · simp only [List.mem_cons, ih]
      tauto

theorem mem_foldl_insertRanked (l : List (Hypothesis S C)) :
    ∀ (acc : List (Hypothesis S C)) (x : Hypothesis S C),
      x ∈ l.foldl (fun acc h => insertRanked h acc) acc ↔ x ∈ acc ∨ x ∈ l := by
  induction l with
  | nil => intro acc x; simp
  | cons e rest ih =>
    intro acc x
    rw [List.foldl_cons, ih, mem_insertRanked, List.mem_cons]
    tauto

theorem mem_ranked (l : List (Hypothesis S C)) (x : Hypothesis S C) :
    x ∈ ranked l ↔ x ∈ l := by
  unfold ranked
  rw [mem_foldl_insertRanked]
  simp

theorem mem_of_mem_GetTopK (self : Hypotheses S C) (k : Nat) (b : Bool) (x : Hypothesis S C)
    (h : x ∈ self.GetTopK k b) : x ∈ self.hyps_dict :=
  (mem_ranked _ _).mp (List.mem_of_mem_take h)

theorem mem_of_GetMostProbable (self : Hypotheses S C) (b : Bool) (x : Hypothesis S C)
    (h : self.GetMostProbable b = some x) : x ∈ self.hyps_dict :=
  mem_of_mem_GetTopK self 1 b x (List.mem_of_mem_head? h)

theorem merge_ys_timestamps (ops : MathOps S) (a b : Hypothesis S C) :
    ((merge ops a b).ys = a.ys ∧ (merge ops a b).timestamps = a.timestamps) ∨
    ((merge ops a b).ys = b.ys ∧ (merge ops a b).timestamps = b.timestamps) := by
  unfold merge
  split
  · exact Or.inr ⟨rfl, rfl⟩
  · exact Or.inl ⟨rfl, rfl⟩

/-- A property of `ys` and `timestamps` that holds of every entry and of the added
hypothesis holds of every entry after `Add`. -/
theorem forall_addEntry (Q : List Int → List Int → Prop) (ops : MathOps S)
    (hyp : Hypothesis S C) (hq : Q hyp.ys hyp.timestamps) (l : List (Hypothesis S C))
    (hl : ∀ e ∈ l, Q e.ys e.timestamps) :
    ∀ e ∈ addEntry ops hyp l, Q e.ys e.timestamps := by
  induction l with
  | nil =>
    intro e he
    simp only [addEntry, List.mem_singleton] at he
    subst he
    exact hq
  | cons a rest ih =>
    intro e he
    unfold addEntry at he
    split at he
    · rcases List.mem_cons.mp he with he | he
      · subst he
        rcases merge_ys_timestamps ops a hyp with ⟨h1, h2⟩ | ⟨h1, h2⟩
        · rw [h1, h2]; exact hl a (List.mem_cons_self a rest)
        · rw [h1, h2]; exact hq
      · exact hl e (List.mem_cons_of_mem a he)
    · rcases List.mem_cons.mp he with he | he
      · subst he; exact hl _ (List.mem_cons_self _ rest)
      · exact ih (fun e he => hl e (List.mem_cons_of_mem a he)) e he

end Hypotheses

/-! ## Beam search: what one `Decode` call preserves -/

namespace ModifiedBeamSearchDecoder

variable {S C : Type} [Zero S] [Add S] [LT S] [DecidableRel (fun a b : S => a < b)]

omit [LT S] [DecidableRel (fun a b : S => a < b)] in
/-- A child keeps its parent's `ys` and `timestamps` or extends each by one entry,
the token being neither `0` nor `2`. -/
theorem child_inv (Q : List Int → List Int → Prop)
    (hemit : ∀ (ys ts : List Int) (k : Nat) (x : Int),
      k ≠ 0 → k ≠ 2 → Q ys ts → Q (ys ++ [(k : Int)]) (ts ++ [x]))
    (graph : Option (ContextGraph S C)) (prev : List (Hypothesis S C))
    (p_joiner_out : List S) (vocab_size t : Nat) (frame_offset : Int) (i : Nat)
    (hprev : ∀ p ∈ prev, Q p.ys p.timestamps) (hyp : Hypothesis S C)
    (h : child graph prev p_joiner_out vocab_size t frame_offset i = some hyp) :
    Q hyp.ys hyp.timestamps := by
  unfold child at h
  split at h
  · cases h
  · dsimp only at h
    split at h
    · rename_i new_hyp score hp _
      have hq := hprev new_hyp (List.getElem?_mem hp)
      split at h
      · rename_i hne
        split at h
        · injection h with h
          subst h
          exact hemit _ _ _ _ hne.1 hne.2 hq
        · injection h with h
          subst h
          exact hemit _ _ _ _ hne.1 hne.2 hq
      · injection h with h
        subst h
        exact hq
    · cases h

theorem expand_inv (Q : List Int → List Int → Prop)
    (hemit : ∀ (ys ts : List Int) (k : Nat) (x : Int),
      k ≠ 0 → k ≠ 2 → Q ys ts → Q (ys ++ [(k : Int)]) (ts ++ [x]))
    (ops : MathOps S) (graph : Option (ContextGraph S C)) (prev : List (Hypothesis S C))
    (p_joiner_out : List S) (vocab_size t : Nat) (frame_offset : Int)
    (hprev : ∀ p ∈ prev, Q p.ys p.timestamps) (topk : List Nat) :
    ∀ (cur cur' : Hypotheses S C), (∀ e ∈ cur.hyps_dict, Q e.ys e.timestamps) →
      expand ops graph prev p_joiner_out vocab_size t frame_offset topk cur = some cur' →
      ∀ e ∈ cur'.hyps_dict, Q e.ys e.timestamps := by
  induction topk with
  | nil =>
    intro cur cur' hcur h
    simp only [expand, Option.some.injEq] at h
    subst h
    exact hcur
  | cons i topk ih =>
    intro cur cur' hcur h
    unfold expand at h
    split at h
    · cases h
    · rename_i new_hyp hc
      refine ih _ cur' ?_ h
      exact Hypotheses.forall_addEntry Q ops new_hyp
        (child_inv Q hemit graph prev p_joiner_out vocab_size t frame_offset i hprev new_hyp hc)
        cur.hyps_dict hcur

end ModifiedBeamSearchDecoder

namespace ModifiedBeamSearchDecoder

variable {S C : Type} [Zero S] [Add S] [LT S] [DecidableRel (fun a b : S => a < b)]

omit [Zero S] [Add S] [LT S] [DecidableRel (fun a b : S => a < b)] in
theorem resultAfterReuse_eq (backend : Backend) (reuse : Option (Tensor S))
    (result : DecoderResult S C) :
    resultAfterReuse backend reuse result
      = { result with decoder_out := (resultAfterReuse backend reuse result).decoder_out } := by
  unfold resultAfterReuse
  split <;> rfl

/-- One frame: the new container is the expansion of the top paths of the old one,
and `*result` changes at most in `decoder_out`. -/
theorem decodeFrame_spec (backend : Backend) (ops : MathOps S) (model : Model S)
    (num_active_paths_ : Nat) (encoder_out : Tensor S) (graph : Option (ContextGraph S C))
    (st st' : Hypotheses S C × DecoderResult S C) (t : Nat)
    (h : DecodeFrame backend ops model num_active_paths_ encoder_out graph st t = some st') :
    (∃ (p_joiner_out : List S) (vocab_size : Nat) (topk : List Nat),
      expand ops graph (st.1.GetTopK num_active_paths_ true) p_joiner_out vocab_size t
        st.2.frame_offset topk st.1.Clear = some st'.1) ∧
    st'.2 = { st.2 with decoder_out := st'.2.decoder_out } := by
  unfold DecodeFrame at h
  dsimp only at h
  split at h
  · cases h
  · split at h
    · cases h
    · split at h
      · cases h
      · rename_i cur hexp
        injection h with h
        subst h
        rw [resultAfterReuse_eq] at hexp
        exact ⟨⟨_, _, _, hexp⟩, resultAfterReuse_eq _ _ _⟩

theorem decodeFrames_spec (Q : List Int → List Int → Prop)
    (hemit : ∀ (ys ts : List Int) (k : Nat) (x : Int),
      k ≠ 0 → k ≠ 2 → Q ys ts → Q (ys ++ [(k : Int)]) (ts ++ [x]))
    (backend : Backend) (ops : MathOps S) (model : Model S)
    (num_active_paths_ : Nat) (encoder_out : Tensor S) (graph : Option (ContextGraph S C))
    (ts : List Nat) :
    ∀ (st st' : Hypotheses S C × DecoderResult S C),
      DecodeFrames backend ops model num_active_paths_ encoder_out graph ts st = some st' →
      (∀ e ∈ st.1.hyps_dict, Q e.ys e.timestamps) →
      (∀ e ∈ st'.1.hyps_dict, Q e.ys e.timestamps) ∧
        st'.2 = { st.2 with decoder_out := st'.2.decoder_out } := by
  induction ts with
  | nil =>
    intro st st' h hst
    simp only [DecodeFrames, Option.some.injEq] at h
    subst h
    exact ⟨hst, rfl⟩
  | cons t ts ih =>
    intro st st' h hst
    unfold DecodeFrames at h
    split at h
    · cases h
    · rename_i st1 h1
      obtain ⟨⟨pj, v, topk, hexp⟩, hres⟩ :=
        decodeFrame_spec backend ops model num_active_paths_ encoder_out graph st st1 t h1
      have hq1 : ∀ e ∈ st1.1.hyps_dict, Q e.ys e.timestamps :=
        expand_inv Q hemit ops graph _ pj v t _
          (fun p hp => hst p (Hypotheses.mem_of_mem_GetTopK _ _ _ p hp)) topk _ _
          (by intro e he; simp [Hypotheses.Clear] at he) hexp
      obtain ⟨hq, hres'⟩ := ih st1 st' h hq1
      refine ⟨hq, ?_⟩
      rw [hres', hres]

end ModifiedBeamSearchDecoder

namespace ModifiedBeamSearchDecoder

variable {S C : Type} [Zero S] [Add S] [LT S] [DecidableRel (fun a b : S => a < b)]

/-- What a returning `Decode` call establishes. -/
theorem decode_spec (Q : List Int → List Int → Prop)
    (hemit : ∀ (ys ts : List Int) (k : Nat) (x : Int),
      k ≠ 0 → k ≠ 2 → Q ys ts → Q (ys ++ [(k : Int)]) (ts ++ [x]))
    (backend : Backend) (ops : MathOps S) (model : Model S)
    (num_active_paths_ : Nat) (encoder_out : Tensor S) (s : Option (Stream S C))
    (r r' : DecoderResult S C)
    (h : Decode backend ops model num_active_paths_ encoder_out s r = some r')
    (hr : ∀ e ∈ r.hyps.hyps_dict, Q e.ys e.timestamps) :
    (∀ e ∈ r'.hyps.hyps_dict, Q e.ys e.timestamps) ∧
    r'.frame_offset = r.frame_offset + (numFrames encoder_out : Int) ∧
    r'.timestamps = r.timestamps ∧
    ∃ hyp : Hypothesis S C, r'.hyps.GetMostProbable true = some hyp ∧
      r'.tokens = hyp.ys ∧ r'.num_trailing_blanks = hyp.num_trailing_blanks ∧
      r'.decoder_out = some (model.RunDecoder (BuildDecoderInput model [hyp])) := by
  unfold Decode at h
  dsimp only at h
  split at h
  · cases h
  · rename_i cur result hframes
    obtain ⟨hq, hres⟩ := decodeFrames_spec Q hemit backend ops model num_active_paths_
      encoder_out _ _ _ _ hframes hr
    dsimp only at hq hres
    split at h
    · cases h
    · rename_i hyp hbest
      injection h with h
      subst h
      refine ⟨hq, ?_, ?_, hyp, hbest, rfl, rfl, rfl⟩
      · dsimp only
        rw [hres]
        rfl
      · dsimp only
        rw [hres]

theorem beam_frameOffset_decodeChunks (backend : Backend) (ops : MathOps S) (model : Model S)
    (num_active_paths_ : Nat) (chunks : List (Tensor S × Option (Stream S C))) :
    ∀ (r r' : DecoderResult S C),
      DecodeChunks backend ops model num_active_paths_ chunks r = some r' →
      r'.frame_offset
        = r.frame_offset + (((chunks.map fun c => numFrames c.1).sum : Nat) : Int) := by
  induction chunks with
  | nil =>
    intro r r' h
    simp only [DecodeChunks, Option.some.injEq] at h
    subst h
    simp
  | cons c cs ih =>
    intro r r' h
    unfold DecodeChunks at h
    split at h
    · cases h
    · rename_i r1 h1
      have hstep := (decode_spec (fun _ _ => True) (fun _ _ _ _ _ _ _ => trivial) backend ops
        model num_active_paths_ c.1 c.2 r r1 h1 (fun _ _ => trivial)).2.1
      rw [ih r1 r' h, hstep, List.map_cons, List.sum_cons]
      push_cast
      ring

end ModifiedBeamSearchDecoder

/-! ## Monotonic frame offset -/

section FrameOffset

variable {S C : Type} [Zero S] [Add S] [LT S] [DecidableRel (fun a b : S => a < b)]

/-- C3. Monotonic frame offset: for the greedy and for the beam-search decoder one
`Decode` call on a chunk adds the chunk's frame count to `frame_offset`; after a
sequence of chunks `frame_offset` has grown by the sum of the frame counts (from an
empty result it equals that sum), and it never decreases. -/
theorem frame_offset_monotonic (backend : Backend) (ops : MathOps S) (model : Model S)
    (num_active_paths_ : Nat) (gchunks : List (Tensor S)) (g : DecoderResult S C)
    (bchunks : List (Tensor S × Option (Stream S C))) (b b' : DecoderResult S C)
    (hb : ModifiedBeamSearchDecoder.DecodeChunks backend ops model num_active_paths_ bchunks b
      = some b') :
    (∀ encoder_out : Tensor S,
      (GreedySearchDecoder.Decode model encoder_out g).frame_offset
        = g.frame_offset + (numFrames encoder_out : Int)) ∧
    (∀ (encoder_out : Tensor S) (s : Option (Stream S C)) (r' : DecoderResult S C),
      ModifiedBeamSearchDecoder.Decode backend ops model num_active_paths_ encoder_out s b
        = some r' →
      r'.frame_offset = b.frame_offset + (numFrames encoder_out : Int)) ∧
    (GreedySearchDecoder.DecodeChunks model gchunks g).frame_offset
      = g.frame_offset + (((gchunks.map numFrames).sum : Nat) : Int) ∧
    g.frame_offset ≤ (GreedySearchDecoder.DecodeChunks model gchunks g).frame_offset ∧
    (GreedySearchDecoder.DecodeChunks model gchunks
        (GreedySearchDecoder.GetEmptyResult model : DecoderResult S C)).frame_offset
      = (((gchunks.map numFrames).sum : Nat) : Int) ∧
    b'.frame_offset
      = b.frame_offset + (((bchunks.map fun c => numFrames c.1).sum : Nat) : Int) ∧
    b.frame_offset ≤ b'.frame_offset ∧
    (b = ModifiedBeamSearchDecoder.GetEmptyResult model →
      b'.frame_offset = (((bchunks.map fun c => numFrames c.1).sum : Nat) : Int)) := by
  have hg := GreedySearchDecoder.frameOffset_decodeChunks model gchunks g
  have hg0 := GreedySearchDecoder.frameOffset_decodeChunks model gchunks
    (GreedySearchDecoder.GetEmptyResult model : DecoderResult S C)
  have hbb := ModifiedBeamSearchDecoder.beam_frameOffset_decodeChunks backend ops model
    num_active_paths_ bchunks b b' hb
  refine ⟨fun e => GreedySearchDecoder.frameOffset_decode model e g, ?_, hg, ?_, ?_, hbb, ?_, ?_⟩
  · intro encoder_out s r' h
    exact (ModifiedBeamSearchDecoder.decode_spec (fun _ _ => True)
      (fun _ _ _ _ _ _ _ => trivial) backend ops model num_active_paths_ encoder_out s b r' h
      (fun _ _ => trivial)).2.1
  · rw [hg]
    omega
  · rw [hg0]
    simp [GreedySearchDecoder.GetEmptyResult]
  · rw [hbb]
    omega
  · intro hb0
    rw [hbb, hb0]
    simp [ModifiedBeamSearchDecoder.GetEmptyResult]

theorem demo_beamResult : Demo.beamResult = some Demo.beamExpected := by decide

theorem demo_beamChunks :
    ModifiedBeamSearchDecoder.DecodeChunks Backend.mnn Demo.ops Demo.model 2 Demo.beamChunks
      (ModifiedBeamSearchDecoder.GetEmptyResult Demo.model) = some Demo.beamAfterChunks := by
  decide

/-- Witness of C3: two greedy chunks and two beam-search chunks on `Demo.model`,
of four and two frames. -/
theorem frame_offset_monotonic_witness :
    ModifiedBeamSearchDecoder.DecodeChunks Backend.mnn Demo.ops Demo.model 2 Demo.beamChunks
      (ModifiedBeamSearchDecoder.GetEmptyResult Demo.model) = some Demo.beamAfterChunks ∧
    (GreedySearchDecoder.DecodeChunks Demo.model [Demo.chunk [0, 0, 7, 0], Demo.chunk [5, 0]]
        (GreedySearchDecoder.GetEmptyResult Demo.model : DecoderResult Int Nat)).frame_offset
      = ((([Demo.chunk [0, 0, 7, 0], Demo.chunk [5, 0]].map numFrames).sum : Nat) : Int) ∧
    Demo.beamAfterChunks.frame_offset
      = (ModifiedBeamSearchDecoder.GetEmptyResult Demo.model : DecoderResult Int Nat).frame_offset
        + (((Demo.beamChunks.map fun c => numFrames c.1).sum : Nat) : Int) :=
  ⟨by decide,
    (frame_offset_monotonic Backend.mnn Demo.ops Demo.model 2
      [Demo.chunk [0, 0, 7, 0], Demo.chunk [5, 0]]
      (GreedySearchDecoder.GetEmptyResult Demo.model) Demo.beamChunks
      (ModifiedBeamSearchDecoder.GetEmptyResult Demo.model) Demo.beamAfterChunks
      (by decide)).2.2.2.2.1,
    (frame_offset_monotonic Backend.mnn Demo.ops Demo.model 2
      [Demo.chunk [0, 0, 7, 0], Demo.chunk [5, 0]]
      (GreedySearchDecoder.GetEmptyResult Demo.model) Demo.beamChunks
      (ModifiedBeamSearchDecoder.GetEmptyResult Demo.model) Demo.beamAfterChunks
      (by decide)).2.2.2.2.2.1⟩

end FrameOffset

/-! ## Beam search: blank invariant, publication of the best hypothesis, pad invariant -/

theorem blankFree_append (c : Nat) (ys : List Int) (k : Nat) (h0 : k ≠ 0) (h2 : k ≠ 2)
    (h : BlankFree c ys) : BlankFree c (ys ++ [(k : Int)]) := by
  intro x hx
  rw [List.drop_append_eq_append_drop] at hx
  rcases List.mem_append.mp hx with hx | hx
  · exact h x hx
  · have hx' := List.mem_of_mem_drop hx
    rw [List.mem_singleton] at hx'
    subst hx'
    constructor <;> omega

namespace ModifiedBeamSearchDecoder

variable {S C : Type} [Zero S] [Add S] [LT S] [DecidableRel (fun a b : S => a < b)]

theorem blankFree_decode (backend : Backend) (ops : MathOps S) (model : Model S)
    (num_active_paths_ : Nat) (encoder_out : Tensor S) (s : Option (Stream S C))
    (r r' : DecoderResult S C)
    (h0 : ∀ h ∈ r.hyps.hyps_dict, BlankFree model.ContextSize h.ys)
    (hdec : Decode backend ops model num_active_paths_ encoder_out s r = some r') :
    ∀ h ∈ r'.hyps.hyps_dict, BlankFree model.ContextSize h.ys :=
  (decode_spec (fun ys _ => BlankFree model.ContextSize ys)
    (fun ys _ k _ k0 k2 hq => blankFree_append model.ContextSize ys k k0 k2 hq)
    backend ops model num_active_paths_ encoder_out s r r' hdec h0).1

omit [Add S] [LT S] [DecidableRel (fun a b : S => a < b)] in
theorem blankFree_empty (model : Model S) :
    ∀ h ∈ (GetEmptyResult model : DecoderResult S C).hyps.hyps_dict,
      BlankFree model.ContextSize h.ys := by
  intro h hh x hx
  simp only [GetEmptyResult, List.mem_singleton] at hh
  subst hh
  simp at hx

/-- C5. Blank invariant (beam): if no hypothesis of `result.hyps` has a `0` or `2`
in its `ys` beyond the first `context_size` entries before `Decode`, the same holds
after `Decode`, for any chunk, scores, top-k selection and context graph; hence it
holds of every result reachable from `GetEmptyResult`. -/
theorem beam_blank_invariant (backend : Backend) (ops : MathOps S) (model : Model S)
    (num_active_paths_ : Nat) (encoder_out : Tensor S) (s : Option (Stream S C))
    (r r' : DecoderResult S C)
    (h0 : ∀ h ∈ r.hyps.hyps_dict, BlankFree model.ContextSize h.ys)
    (hdec : Decode backend ops model num_active_paths_ encoder_out s r = some r') :
    (∀ h ∈ r'.hyps.hyps_dict, BlankFree model.ContextSize h.ys) ∧
    (∀ q : DecoderResult S C, Reachable backend ops model num_active_paths_ q →
      ∀ h ∈ q.hyps.hyps_dict, BlankFree model.ContextSize h.ys) := by
  refine ⟨blankFree_decode backend ops model num_active_paths_ encoder_out s r r' h0 hdec, ?_⟩
  intro q hq
  induction hq with
  | empty => exact blankFree_empty model
  | decode e s1 q1 q2 _ hd ih =>
    exact blankFree_decode backend ops model num_active_paths_ e s1 q1 q2 ih hd

/-- Witness of C5 on the second chunk of `Demo.beamChunks`, decoded from
`Demo.beamExpected`. -/
theorem beam_blank_invariant_witness :
    (∀ h ∈ Demo.beamExpected.hyps.hyps_dict, BlankFree Demo.model.ContextSize h.ys) ∧
    Decode Backend.mnn Demo.ops Demo.model 2 (Demo.chunk [5, 0]) none Demo.beamExpected
      = some Demo.beamAfterChunks ∧
    (∀ h ∈ Demo.beamAfterChunks.hyps.hyps_dict, BlankFree Demo.model.ContextSize h.ys) :=
  have h0 : ∀ h ∈ Demo.beamExpected.hyps.hyps_dict, BlankFree Demo.model.ContextSize h.ys := by
    intro h hh x hx
    simp only [Demo.beamExpected, List.mem_singleton] at hh
    subst hh
    simp [Demo.model] at hx
    subst hx
    decide
  ⟨h0, by decide,
    (beam_blank_invariant Backend.mnn Demo.ops Demo.model 2 (Demo.chunk [5, 0]) none
      Demo.beamExpected Demo.beamAfterChunks h0 (by decide)).1⟩

end ModifiedBeamSearchDecoder

namespace ModifiedBeamSearchDecoder

variable {S C : Type} [Zero S] [Add S] [LT S] [DecidableRel (fun a b : S => a < b)]

/-- C6 (amended). Beam result publication: after `Decode` returns, `tokens` and
`num_trailing_blanks` are the `ys` and the `num_trailing_blanks` of the most
probable hypothesis of `result.hyps`, and `decoder_out` is `RunDecoder` applied to
that hypothesis's last `context_size` tokens; `result.timestamps` is left as it was
before the call. -/
theorem beam_publication (backend : Backend) (ops : MathOps S) (model : Model S)
    (num_active_paths_ : Nat) (encoder_out : Tensor S) (s : Option (Stream S C))
    (r r' : DecoderResult S C)
    (hdec : Decode backend ops model num_active_paths_ encoder_out s r = some r') :
    ∃ hyp : Hypothesis S C, r'.hyps.GetMostProbable true = some hyp ∧
      r'.tokens = hyp.ys ∧
      r'.num_trailing_blanks = hyp.num_trailing_blanks ∧
      r'.decoder_out = some (model.RunDecoder
        { shape := [1, model.ContextSize], data := lastN model.ContextSize hyp.ys }) ∧
      r'.timestamps = r.timestamps := by
  obtain ⟨_, _, hts, hyp, hbest, htok, hntb, hout⟩ :=
    decode_spec (fun _ _ => True) (fun _ _ _ _ _ _ _ => trivial) backend ops model
      num_active_paths_ encoder_out s r r' hdec (fun _ _ => trivial)
  refine ⟨hyp, hbest, htok, hntb, ?_, hts⟩
  rw [hout]
  simp [BuildDecoderInput]

/-- Witness of C6 (amended) on `Demo.beamResult`. -/
theorem beam_publication_witness :
    Decode Backend.mnn Demo.ops Demo.model 2 (Demo.chunk [0, 0, 7, 0]) none
      (GetEmptyResult Demo.model) = some Demo.beamExpected ∧
    ∃ hyp : Hypothesis Int Nat, Demo.beamExpected.hyps.GetMostProbable true = some hyp ∧
      Demo.beamExpected.tokens = hyp.ys ∧
      Demo.beamExpected.num_trailing_blanks = hyp.num_trailing_blanks ∧
      Demo.beamExpected.decoder_out = some (Demo.model.RunDecoder
        { shape := [1, Demo.model.ContextSize], data := lastN Demo.model.ContextSize hyp.ys }) ∧
      Demo.beamExpected.timestamps
        = (GetEmptyResult Demo.model : DecoderResult Int Nat).timestamps :=
  ⟨by decide,
    beam_publication Backend.mnn Demo.ops Demo.model 2 (Demo.chunk [0, 0, 7, 0]) none
      (GetEmptyResult Demo.model) Demo.beamExpected (by decide)⟩

/-- C6 as stated fails: after `Decode` on a chunk that emits token `7` at frame `2`
the most probable hypothesis has timestamps `[2]`, while `result.timestamps` is
still empty. -/
theorem beam_publication_counterexample :
    Decode Backend.mnn Demo.ops Demo.model 2 (Demo.chunk [0, 0, 7, 0]) none
      (GetEmptyResult Demo.model) = some Demo.beamExpected ∧
    Demo.beamExpected.hyps.GetMostProbable true
      = some { ys := [0, 0, 7], log_prob := 4, timestamps := [2], num_trailing_blanks := 1 } ∧
    Demo.beamExpected.timestamps = [] ∧
    Demo.beamExpected.timestamps
      ≠ ({ ys := [0, 0, 7], log_prob := 4, timestamps := [2], num_trailing_blanks := 1 } :
          Hypothesis Int Nat).timestamps :=
  ⟨by decide, by decide, by decide, by decide⟩

/-- Every hypothesis carries one timestamp per token after the pad. -/
theorem padLength_of_reachable (backend : Backend) (ops : MathOps S) (model : Model S)
    (num_active_paths_ : Nat) (r : DecoderResult S C)
    (h : Reachable backend ops model num_active_paths_ r) :
    (∀ hyp ∈ r.hyps.hyps_dict, hyp.ys.length = model.ContextSize + hyp.timestamps.length) ∧
    ∃ hyp : Hypothesis S C, r.hyps.GetMostProbable true = some hyp := by
  induction h with
  | empty =>
    refine ⟨?_, ?_⟩
    · intro hyp hh
      simp only [GetEmptyResult, List.mem_singleton] at hh
      subst hh
      simp
    · exact ⟨_, rfl⟩
  | decode e s1 q1 q2 _ hd ih =>
    obtain ⟨hq, _, _, hyp, hbest, _⟩ :=
      decode_spec (fun ys ts => ys.length = model.ContextSize + ts.length)
        (fun ys ts k x _ _ hq => by simp only [List.length_append, List.length_singleton]; omega)
        backend ops model num_active_paths_ e s1 q1 q2 hd ih.1
    exact ⟨hq, hyp, hbest⟩

/-- C7. Pad invariant (beam): in every result reachable from `GetEmptyResult` by
`Decode` calls each hypothesis has `len(timestamps) = len(ys) - context_size`, and
`StripLeadingBlanks` sets `tokens` to the most probable hypothesis's `ys` without
its first `context_size` entries and `timestamps` to that hypothesis's timestamps,
so that both have the same length afterwards. -/
theorem beam_pad_invariant (backend : Backend) (ops : MathOps S) (model : Model S)
    (num_active_paths_ : Nat) (r : DecoderResult S C)
    (h : Reachable backend ops model num_active_paths_ r) :
    (∀ hyp ∈ r.hyps.hyps_dict, model.ContextSize ≤ hyp.ys.length ∧
      hyp.timestamps.length = hyp.ys.length - model.ContextSize) ∧
    ∃ (hyp : Hypothesis S C) (r' : DecoderResult S C),
      r.hyps.GetMostProbable true = some hyp ∧
      StripLeadingBlanks model r = some r' ∧
      r'.tokens = hyp.ys.drop model.ContextSize ∧
      r'.timestamps = hyp.timestamps ∧
      r'.tokens.length = r'.timestamps.length := by
  obtain ⟨hlen, hyp, hbest⟩ := padLength_of_reachable backend ops model num_active_paths_ r h
  refine ⟨fun e he => ⟨by have := hlen e he; omega, by have := hlen e he; omega⟩, hyp, ?_⟩
  have hmem := Hypotheses.mem_of_GetMostProbable r.hyps true hyp hbest
  have hl := hlen hyp hmem
  refine ⟨{ r with
    tokens := hyp.ys.drop model.ContextSize
    timestamps := hyp.timestamps
    num_trailing_blanks := hyp.num_trailing_blanks }, hbest, ?_, rfl, rfl, ?_⟩
  · unfold StripLeadingBlanks
    rw [hbest]
  · simp only [List.length_drop]
    omega

/-- Witness of C7 on `Demo.beamExpected`. -/
theorem beam_pad_invariant_witness :
    Reachable Backend.mnn Demo.ops Demo.model 2 Demo.beamExpected ∧
    (∀ hyp ∈ Demo.beamExpected.hyps.hyps_dict, Demo.model.ContextSize ≤ hyp.ys.length ∧
      hyp.timestamps.length = hyp.ys.length - Demo.model.ContextSize) ∧
    ∃ (hyp : Hypothesis Int Nat) (r' : DecoderResult Int Nat),
      Demo.beamExpected.hyps.GetMostProbable true = some hyp ∧
      StripLeadingBlanks Demo.model Demo.beamExpected = some r' ∧
      r'.tokens = hyp.ys.drop Demo.model.ContextSize ∧
      r'.timestamps = hyp.timestamps ∧
      r'.tokens.length = r'.timestamps.length :=
  ⟨Reachable.decode (Demo.chunk [0, 0, 7, 0]) none _ _ Reachable.empty (by decide),
    beam_pad_invariant Backend.mnn Demo.ops Demo.model 2 Demo.beamExpected
      (Reachable.decode (Demo.chunk [0, 0, 7, 0]) none _ _ Reachable.empty (by decide))⟩

end ModifiedBeamSearchDecoder

/-! ## Recognizer: Reset, IsReady, DecodeStream -/

namespace Recognizer

variable {S C : Type}

/-- C8. Reset carry-over: after `Recognizer.Reset` the stream's result has the
`decoder_out` it had just before the call, while `tokens`, `timestamps`,
`frame_offset`, `num_trailing_blanks` and `hyps` are those of
`decoder.GetEmptyResult()`, every hypothesis's `context_state` being set to the
graph root when the stream has a context graph; the encoder states are unchanged. -/
theorem reset_carry_over [Zero S] (self : Recognizer S) (s : Stream S C) :
    (self.Reset s).result.decoder_out = s.result.decoder_out ∧
    (self.Reset s).result.tokens
      = (self.decoder_.GetEmptyResult self.model_ : DecoderResult S C).tokens ∧
    (self.Reset s).result.timestamps
      = (self.decoder_.GetEmptyResult self.model_ : DecoderResult S C).timestamps ∧
    (self.Reset s).result.frame_offset
      = (self.decoder_.GetEmptyResult self.model_ : DecoderResult S C).frame_offset ∧
    (self.Reset s).result.num_trailing_blanks
      = (self.decoder_.GetEmptyResult self.model_ : DecoderResult S C).num_trailing_blanks ∧
    (self.Reset s).result.hyps.hyps_dict
      = (match s.context_graph with
        | some g =>
          (self.decoder_.GetEmptyResult self.model_ : DecoderResult S C).hyps.hyps_dict.map
            fun h => { h with context_state := some g.Root }
        | none => (self.decoder_.GetEmptyResult self.model_ : DecoderResult S C).hyps.hyps_dict) ∧
    (self.Reset s).states = s.states := by
  unfold Recognizer.Reset Stream.Reset
  cases s.context_graph <;> exact ⟨rfl, rfl, rfl, rfl, rfl, rfl, rfl⟩

/-- C9 (amended). `IsReady` is true iff
`processed_frames + Segment() < NumFramesReady()`, that is iff at least
`Segment() + 1` buffered frames start at `processed_frames`; whenever it is true
the `Segment()` frames of one full encoder chunk are buffered. -/
theorem isReady_iff (self : Recognizer S) (s : Stream S C) :
    (self.IsReady s = true ↔
      s.num_processed_frames + self.model_.Segment < s.NumFramesReady) ∧
    (self.IsReady s = true ↔
      s.num_processed_frames + (self.model_.Segment + 1) ≤ s.NumFramesReady) ∧
    (self.IsReady s = true →
      s.num_processed_frames + self.model_.Segment ≤ s.NumFramesReady) := by
  have key : self.IsReady s = true ↔
      s.num_processed_frames + self.model_.Segment < s.NumFramesReady := by
    unfold Recognizer.IsReady
    exact decide_eq_true_iff
  exact ⟨key, key.trans ⟨fun h => by omega, fun h => by omega⟩,
    fun h => by have := key.mp h; omega⟩

/-- C9 as stated fails: with exactly `Segment() = 3` buffered frames after the
cursor, every frame of one full chunk is buffered, yet `IsReady` is false. -/
theorem isReady_counterexample :
    Demo.recognizer.model_.Segment = 3 ∧
    (Demo.stream [0, 0, 7]).num_processed_frames + Demo.recognizer.model_.Segment
      ≤ (Demo.stream [0, 0, 7]).NumFramesReady ∧
    (∀ i ∈ Stream.requestedFrames (Demo.stream [0, 0, 7]).num_processed_frames
        Demo.recognizer.model_.Segment, i < (Demo.stream [0, 0, 7]).NumFramesReady) ∧
    Demo.recognizer.IsReady (Demo.stream [0, 0, 7]) = false :=
  ⟨rfl, by decide, by decide, by decide⟩

/-- C10. `DecodeStream` requests exactly `Segment()` feature frames starting at
`processed_frames`, advances `processed_frames` by `Offset()`, runs the encoder on
those frames with the stream's encoder state on entry and stores the returned
next-state list, the result being the decoder's on the encoder output; under
`IsReady` every requested frame index is below `NumFramesReady()`. -/
theorem decodeStream_spec [Zero S] [Add S] [LT S] [DecidableRel (fun a b : S => a < b)]
    (self : Recognizer S) (s s' : Stream S C) (h : self.DecodeStream s = some s') :
    self.encoderInput s
      = { shape := [self.model_.Segment, s.feature_dim]
          data := (s.GetFrames s.num_processed_frames self.model_.Segment).1.take
            (self.model_.Segment * s.feature_dim) } ∧
    (Stream.requestedFrames s.num_processed_frames self.model_.Segment).length
      = self.model_.Segment ∧
    (∀ i : Nat, i ∈ Stream.requestedFrames s.num_processed_frames self.model_.Segment ↔
      s.num_processed_frames ≤ i ∧ i < s.num_processed_frames + self.model_.Segment) ∧
    s'.num_processed_frames = s.num_processed_frames + self.model_.Offset ∧
    s'.states = (self.model_.RunEncoder (self.encoderInput s) s.states).2 ∧
    (if s.context_graph.isSome then
        self.decoder_.DecodeWithStream self.math self.model_
          (self.model_.RunEncoder (self.encoderInput s) s.states).1
          { s with num_processed_frames := s.num_processed_frames + self.model_.Offset }
          s.result
      else
        self.decoder_.Decode self.math self.model_
          (self.model_.RunEncoder (self.encoderInput s) s.states).1 s.result)
      = some s'.result ∧
    s'.features = s.features ∧
    (self.IsReady s = true →
      ∀ i ∈ Stream.requestedFrames s.num_processed_frames self.model_.Segment,
        i < s.NumFramesReady) := by
  refine ⟨rfl, by simp [Stream.requestedFrames], ?_, ?_⟩
  · intro i
    simp [Stream.requestedFrames]
  · unfold Recognizer.DecodeStream at h
    dsimp only at h
    split at h
    · cases h
    · rename_i r hr
      injection h with h
      subst h
      refine ⟨rfl, rfl, hr, rfl, ?_⟩
      intro hready i hi
      simp only [Stream.requestedFrames, List.mem_range'_1] at hi
      simp only [Recognizer.IsReady, decide_eq_true_eq] at hready
      omega

/-- Witness of C10: one `DecodeStream` on a stream of five frames, `Segment = 3`,
`Offset = 2`. -/
theorem decodeStream_spec_witness :
    Demo.recognizer.DecodeStream (Demo.stream [0, 0, 7, 0, 0]) = some Demo.streamAfterDecode ∧
    Demo.recognizer.IsReady (Demo.stream [0, 0, 7, 0, 0]) = true ∧
    Demo.recognizer.encoderInput (Demo.stream [0, 0, 7, 0, 0])
      = { shape := [3, 1], data := [0, 0, 7] } ∧
    Demo.streamAfterDecode.num_processed_frames
      = (Demo.stream [0, 0, 7, 0, 0]).num_processed_frames + Demo.recognizer.model_.Offset ∧
    Demo.streamAfterDecode.states
      = (Demo.recognizer.model_.RunEncoder
          (Demo.recognizer.encoderInput (Demo.stream [0, 0, 7, 0, 0]))
          (Demo.stream [0, 0, 7, 0, 0]).states).2 :=
  ⟨rfl, by decide, by decide,
    (decodeStream_spec Demo.recognizer (Demo.stream [0, 0, 7, 0, 0]) Demo.streamAfterDecode
      rfl).2.2.2.1,
    (decodeStream_spec Demo.recognizer (Demo.stream [0, 0, 7, 0, 0]) Demo.streamAfterDecode
      rfl).2.2.2.2.1⟩

end Recognizer

namespace Recognizer

/-- With the greedy decoder and no context graph `DecodeStream` always returns. -/
theorem decodeStream_greedy_isSome {S C : Type} [Zero S] [Add S] [LT S]
    [DecidableRel (fun a b : S => a < b)] (self : Recognizer S) (s : Stream S C)
    (hd : self.decoder_ = Decoder.GreedySearch) (hg : s.context_graph = none) :
    (self.DecodeStream s).isSome = true := by
  unfold Recognizer.DecodeStream
  simp [hd, hg, Decoder.Decode]

end Recognizer

/-! ## Greedy search: the empty result and the emissions of one call -/

namespace GreedySearchDecoder

variable {S C : Type}

/-- C13. `GreedySearchDecoder.GetEmptyResult()`, in the MNN and in the OpenVINO
runtime, returns a result whose `tokens` is exactly `context_size` copies of the
blank id `0`, with empty `timestamps`, `num_trailing_blanks = 0`,
`frame_offset = 0` and a null `decoder_out`. -/
theorem greedy_empty_result (model : Model S) :
    (GetEmptyResult model : DecoderResult S C).tokens = List.replicate model.ContextSize 0 ∧
    (GetEmptyResult model : DecoderResult S C).tokens.length = model.ContextSize ∧
    (∀ x ∈ (GetEmptyResult model : DecoderResult S C).tokens, x = 0) ∧
    (GetEmptyResult model : DecoderResult S C).timestamps = [] ∧
    (GetEmptyResult model : DecoderResult S C).num_trailing_blanks = 0 ∧
    (GetEmptyResult model : DecoderResult S C).frame_offset = 0 ∧
    (GetEmptyResult model : DecoderResult S C).decoder_out = none ∧
    (OpenVino.GreedySearchDecoder.GetEmptyResult model : DecoderResult S C)
      = GetEmptyResult model := by
  refine ⟨rfl, ?_, ?_, rfl, rfl, rfl, rfl, rfl⟩
  · simp [GetEmptyResult]
  · intro x hx
    simp only [GetEmptyResult] at hx
    exact List.eq_of_mem_replicate hx

variable [LT S] [DecidableRel (fun a b : S => a < b)]

theorem frameTokens_fst (model : Model S) (encoder_out : Tensor S) (frame_offset : Int)
    (ts : List Nat) :
    ∀ st : DecoderResult S C × Tensor S,
      (frameTokens model encoder_out frame_offset ts st).map Prod.fst = ts := by
  induction ts with
  | nil => intro st; rfl
  | cons t ts ih =>
    intro st
    simp only [frameTokens, List.map_cons, ih]

/-- The loop appends to `tokens` and `timestamps` exactly at the frames whose
argmax is neither `0` nor `2`. -/
theorem frames_emissions (model : Model S) (encoder_out : Tensor S) (frame_offset : Int)
    (ts : List Nat) :
    ∀ st : DecoderResult S C × Tensor S,
      (ts.foldl (DecodeFrame model encoder_out frame_offset) st).1.tokens
        = st.1.tokens ++
          ((frameTokens model encoder_out frame_offset ts st).filter
            fun p => decide (p.2 ≠ 0 ∧ p.2 ≠ 2)).map (fun p => (p.2 : Int)) ∧
      (ts.foldl (DecodeFrame model encoder_out frame_offset) st).1.timestamps
        = st.1.timestamps ++
          ((frameTokens model encoder_out frame_offset ts st).filter
            fun p => decide (p.2 ≠ 0 ∧ p.2 ≠ 2)).map (fun p => (p.1 : Int) + frame_offset) := by
  induction ts with
  | nil => intro st; simp [frameTokens]
  | cons t ts ih =>
    intro st
    obtain ⟨ih1, ih2⟩ := ih (DecodeFrame model encoder_out frame_offset st t)
    rw [List.foldl_cons, ih1, ih2]
    simp only [frameTokens]
    by_cases hk : newToken (model.RunJoiner (GetEncoderOutFrame encoder_out t) st.2) ≠ 0 ∧
        newToken (model.RunJoiner (GetEncoderOutFrame encoder_out t) st.2) ≠ 2
    · rw [List.filter_cons_of_pos (by simpa using hk)]
      rw [decodeFrame_emit model encoder_out frame_offset st t _ rfl hk.1 hk.2]
      simp
    · rw [List.filter_cons_of_neg (by simpa using hk)]
      have hstep : (DecodeFrame model encoder_out frame_offset st t).1.tokens = st.1.tokens ∧
          (DecodeFrame model encoder_out frame_offset st t).1.timestamps = st.1.timestamps := by
        unfold DecodeFrame
        dsimp only
        rw [if_neg hk]
        exact ⟨rfl, rfl⟩
      rw [hstep.1, hstep.2]
      exact ⟨rfl, rfl⟩

/-- C20. Greedy emission step: one `Decode` call with `frame_offset = f` on entry
appends to `tokens`, in increasing frame order, exactly the per-frame argmax tokens
that are neither `0` nor `2`, and to `timestamps` exactly `f + t` for those frames
`t`; as many tokens as timestamps are appended and what was there is kept as a
prefix. -/
theorem greedy_emission_step (model : Model S) (encoder_out : Tensor S)
    (r : DecoderResult S C) :
    (Decode model encoder_out r).tokens
      = r.tokens ++ (emissions model encoder_out r).map (fun p => (p.2 : Int)) ∧
    (Decode model encoder_out r).timestamps
      = r.timestamps ++
        (emissions model encoder_out r).map (fun p => r.frame_offset + (p.1 : Int)) ∧
    (frameTokens model encoder_out r.frame_offset (List.range (numFrames encoder_out))
        (r, initialDecoderOut model r)).map Prod.fst = List.range (numFrames encoder_out) ∧
    (∀ p ∈ emissions model encoder_out r,
      p.1 < numFrames encoder_out ∧ p.2 ≠ 0 ∧ p.2 ≠ 2) ∧
    ((emissions model encoder_out r).map Prod.fst).Pairwise (fun a b => a < b) ∧
    (Decode model encoder_out r).tokens.length - r.tokens.length
      = (Decode model encoder_out r).timestamps.length - r.timestamps.length := by
  have hrun := frames_emissions model encoder_out r.frame_offset
    (List.range (numFrames encoder_out)) (r, initialDecoderOut model r)
  have hfst := frameTokens_fst model encoder_out r.frame_offset
    (List.range (numFrames encoder_out)) (r, initialDecoderOut model r)
  have htok : (Decode model encoder_out r).tokens
      = r.tokens ++ (emissions model encoder_out r).map (fun p => (p.2 : Int)) := hrun.1
  have hts : (Decode model encoder_out r).timestamps
      = r.timestamps ++
        (emissions model encoder_out r).map (fun p => r.frame_offset + (p.1 : Int)) := by
    have h2 := hrun.2
    have hcomm : (fun p : Nat × Nat => (p.1 : Int) + r.frame_offset)
        = fun p => r.frame_offset + (p.1 : Int) := by
      funext p
      exact Int.add_comm _ _
    rw [hcomm] at h2
    exact h2
  have hsub : List.Sublist ((emissions model encoder_out r).map Prod.fst)
      (List.range (numFrames encoder_out)) := by
    rw [← hfst]
    exact List.Sublist.map _ (List.filter_sublist _)
  refine ⟨htok, hts, hfst, ?_, ?_, ?_⟩
  · intro p hp
    have hmem : p.1 ∈ List.range (numFrames encoder_out) :=
      hsub.subset (List.mem_map_of_mem Prod.fst hp)
    have hfilter := (List.mem_filter.mp hp).2
    exact ⟨List.mem_range.mp hmem, by simpa using hfilter⟩
  · exact List.Pairwise.sublist hsub (List.pairwise_lt_range _)
  · rw [htok, hts]
    simp

end GreedySearchDecoder

/-! ## Recognizer: the endpoint test -/

namespace Recognizer

variable {S C : Type} [IntCast S] [Mul S] [LE S] [DecidableRel (fun a b : S => a ≤ b)]
  [OfScientific S]

/-- C11. `Recognizer.IsEndpoint(stream)` is false for every stream when
`enable_endpoint` is false; otherwise it is
`Endpoint.IsEndpoint(processed_frames, 4 * result.num_trailing_blanks, 0.01)`. -/
theorem recognizer_isEndpoint (self : Recognizer S) (s : Stream S C) :
    (self.config_.enable_endpoint = false → self.IsEndpoint s = false) ∧
    (self.config_.enable_endpoint = true →
      self.IsEndpoint s
        = self.endpoint_.IsEndpoint (s.num_processed_frames : Int)
            (4 * s.result.num_trailing_blanks) (0.01 : S)) := by
  unfold Recognizer.IsEndpoint
  constructor
  · intro h
    simp [h]
  · intro h
    simp only [h, Bool.not_true, Bool.false_eq_true, if_false]
    rw [Int.mul_comm]

end Recognizer

/-! ## Recognizer: `GetResult` -/

theorem convertTokens_foldl (sym_table : Int → ByteString) (tokens : List Int) :
    ∀ acc : ByteString × List ByteString,
      tokens.foldl (fun acc i => (acc.1 ++ sym_table i, acc.2 ++ [sym_table i])) acc
        = (acc.1 ++ (tokens.map sym_table).flatten, acc.2 ++ tokens.map sym_table) := by
  induction tokens with
  | nil => intro acc; simp
  | cons i rest ih =>
    intro acc
    rw [List.foldl_cons, ih]
    simp

theorem convertTokens_eq (sym_table : Int → ByteString) (tokens : List Int) :
    convertTokens sym_table tokens = ((tokens.map sym_table).flatten, tokens.map sym_table) := by
  unfold convertTokens
  rw [convertTokens_foldl]
  simp

/-! ## Backend independence -/

namespace OpenVino

namespace GreedySearchDecoder

variable {S C : Type} [LT S] [DecidableRel (fun a b : S => a < b)]

omit [LT S] [DecidableRel (fun a b : S => a < b)] in
theorem buildDecoderInput_eq (model : Model S) (result : DecoderResult S C) :
    BuildDecoderInput model result = SherpaDeploy.GreedySearchDecoder.BuildDecoderInput model result := by
  unfold BuildDecoderInput SherpaDeploy.GreedySearchDecoder.BuildDecoderInput
  have hid : (toInt64 : Int → Int) = id := rfl
  rw [hid, List.map_id]

theorem decodeFrame_eq (model : Model S) (encoder_out : Tensor S) (frame_offset : Int) :
    (DecodeFrame model encoder_out frame_offset :
        DecoderResult S C × Tensor S → Nat → DecoderResult S C × Tensor S)
      = SherpaDeploy.GreedySearchDecoder.DecodeFrame model encoder_out frame_offset := by
  funext st t
  unfold DecodeFrame SherpaDeploy.GreedySearchDecoder.DecodeFrame
  simp only [buildDecoderInput_eq]
  rfl

theorem decode_eq (model : Model S) (encoder_out : Tensor S) (result : DecoderResult S C) :
    Decode model encoder_out result
      = SherpaDeploy.GreedySearchDecoder.Decode model encoder_out result := by
  unfold Decode SherpaDeploy.GreedySearchDecoder.Decode
  simp only [buildDecoderInput_eq, decodeFrame_eq]

end GreedySearchDecoder

end OpenVino

namespace ModifiedBeamSearchDecoder

variable {S C : Type} [Zero S] [Add S] [LT S] [DecidableRel (fun a b : S => a < b)]

omit [Zero S] [Add S] [LT S] [DecidableRel (fun a b : S => a < b)] in
theorem fastPath_later (model : Model S) (prev : List (Hypothesis S C))
    (result : DecoderResult S C) (t : Nat) (ht : t ≠ 0) :
    fastPath model prev result t = none := by
  unfold fastPath
  split
  · rw [if_neg (fun h => ht h.1)]
  · rfl

omit [Zero S] [Add S] [LT S] [DecidableRel (fun a b : S => a < b)] in
theorem forget_resultAfterReuse (backend : Backend) (reuse : Option (Tensor S))
    (result : DecoderResult S C) (cur : Hypotheses S C) :
    forgetDecoderOut (cur, resultAfterReuse backend reuse result)
      = forgetDecoderOut (cur, result) := by
  unfold resultAfterReuse forgetDecoderOut
  split <;> rfl

omit [Zero S] [Add S] [LT S] [DecidableRel (fun a b : S => a < b)] in
theorem frameOffset_resultAfterReuse (backend : Backend) (reuse : Option (Tensor S))
    (result : DecoderResult S C) :
    (resultAfterReuse backend reuse result).frame_offset = result.frame_offset := by
  unfold resultAfterReuse
  split <;> rfl

/-- On one state the two runtimes compute the same frame, up to the nulled
`result->decoder_out`. -/
theorem decodeFrame_backend (b b' : Backend) (ops : MathOps S) (model : Model S)
    (num_active_paths_ : Nat) (encoder_out : Tensor S) (graph : Option (ContextGraph S C))
    (st : Hypotheses S C × DecoderResult S C) (t : Nat) :
    (DecodeFrame b ops model num_active_paths_ encoder_out graph st t).map forgetDecoderOut
      = (DecodeFrame b' ops model num_active_paths_ encoder_out graph st t).map
          forgetDecoderOut := by
  unfold DecodeFrame
  dsimp only
  simp only [frameOffset_resultAfterReuse]
  split
  · rfl
  · split
    · rfl
    · split
      · rfl
      · simp only [Option.map_some', forget_resultAfterReuse]

/-- After frame `0` a frame depends on `*result` only through `frame_offset`. -/
theorem decodeFrame_later (b : Backend) (ops : MathOps S) (model : Model S)
    (num_active_paths_ : Nat) (encoder_out : Tensor S) (graph : Option (ContextGraph S C))
    (st st' : Hypotheses S C × DecoderResult S C) (t : Nat) (ht : t ≠ 0)
    (h : forgetDecoderOut st = forgetDecoderOut st') :
    (DecodeFrame b ops model num_active_paths_ encoder_out graph st t).map forgetDecoderOut
      = (DecodeFrame b ops model num_active_paths_ encoder_out graph st' t).map
          forgetDecoderOut := by
  obtain ⟨cur, r⟩ := st
  obtain ⟨cur', r'⟩ := st'
  have hcur : cur = cur' := congrArg Prod.fst h
  have hfo : r.frame_offset = r'.frame_offset :=
    congrArg (fun x : Hypotheses S C × DecoderResult S C => x.2.frame_offset) h
  subst hcur
  unfold DecodeFrame
  dsimp only
  simp only [fastPath_later model _ _ t ht, frameOffset_resultAfterReuse, hfo]
  split
  · rfl
  · split
    · rfl
    · split
      · rfl
      · simp only [Option.map_some', forget_resultAfterReuse]
        exact congrArg some (by
          have h2 := congrArg Prod.snd h
          simp only [forgetDecoderOut] at h2 ⊢
          rw [h2])

end ModifiedBeamSearchDecoder

namespace ModifiedBeamSearchDecoder

variable {S C : Type} [Zero S] [Add S] [LT S] [DecidableRel (fun a b : S => a < b)]

theorem decodeFrames_later (b b' : Backend) (ops : MathOps S) (model : Model S)
    (num_active_paths_ : Nat) (encoder_out : Tensor S) (graph : Option (ContextGraph S C))
    (ts : List Nat) (hts : ∀ t ∈ ts, t ≠ 0) :
    ∀ st st' : Hypotheses S C × DecoderResult S C,
      forgetDecoderOut st = forgetDecoderOut st' →
      (DecodeFrames b ops model num_active_paths_ encoder_out graph ts st).map forgetDecoderOut
        = (DecodeFrames b' ops model num_active_paths_ encoder_out graph ts st').map
            forgetDecoderOut := by
  induction ts with
  | nil =>
    intro st st' h
    simp only [DecodeFrames, Option.map_some', h]
  | cons t ts ih =>
    intro st st' h
    have hstep :
        (DecodeFrame b ops model num_active_paths_ encoder_out graph st t).map forgetDecoderOut
          = (DecodeFrame b' ops model num_active_paths_ encoder_out graph st' t).map
              forgetDecoderOut :=
      (decodeFrame_later b ops model num_active_paths_ encoder_out graph st st' t
        (hts t (List.mem_cons_self t ts)) h).trans
        (decodeFrame_backend b b' ops model num_active_paths_ encoder_out graph st' t)
    unfold DecodeFrames
    cases h1 : DecodeFrame b ops model num_active_paths_ encoder_out graph st t with
    | none =>
      cases h2 : DecodeFrame b' ops model num_active_paths_ encoder_out graph st' t with
      | none => rfl
      | some x => rw [h1, h2] at hstep; cases hstep
    | some x =>
      cases h2 : DecodeFrame b' ops model num_active_paths_ encoder_out graph st' t with
      | none => rw [h1, h2] at hstep; cases hstep
      | some y =>
        rw [h1, h2] at hstep
        simp only [Option.map_some', Option.some.injEq] at hstep
        exact ih (fun u hu => hts u (List.mem_cons_of_mem t hu)) x y hstep

theorem decodeFrames_backend (b b' : Backend) (ops : MathOps S) (model : Model S)
    (num_active_paths_ : Nat) (encoder_out : Tensor S) (graph : Option (ContextGraph S C))
    (n : Nat) (st : Hypotheses S C × DecoderResult S C) :
    (DecodeFrames b ops model num_active_paths_ encoder_out graph (List.range n) st).map
        forgetDecoderOut
      = (DecodeFrames b' ops model num_active_paths_ encoder_out graph (List.range n) st).map
          forgetDecoderOut := by
  cases n with
  | zero => rfl
  | succ k =>
    have hrange : List.range (k + 1) = 0 :: List.range' 1 k := by
      rw [List.range_eq_range', List.range'_succ]
    have htail : ∀ t ∈ List.range' 1 k, t ≠ 0 := by
      intro t ht
      rw [List.mem_range'_1] at ht
      omega
    have hstep := decodeFrame_backend b b' ops model num_active_paths_ encoder_out graph st 0
    rw [hrange]
    unfold DecodeFrames
    cases h1 : DecodeFrame b ops model num_active_paths_ encoder_out graph st 0 with
    | none =>
      cases h2 : DecodeFrame b' ops model num_active_paths_ encoder_out graph st 0 with
      | none => rfl
      | some x => rw [h1, h2] at hstep; cases hstep
    | some x =>
      cases h2 : DecodeFrame b' ops model num_active_paths_ encoder_out graph st 0 with
      | none => rw [h1, h2] at hstep; cases hstep
      | some y =>
        rw [h1, h2] at hstep
        simp only [Option.map_some', Option.some.injEq] at hstep
        exact decodeFrames_later b b' ops model num_active_paths_ encoder_out graph _ htail
          x y hstep

theorem decode_eq_publish (b : Backend) (ops : MathOps S) (model : Model S)
    (num_active_paths_ : Nat) (encoder_out : Tensor S) (s : Option (Stream S C))
    (r : DecoderResult S C) :
    Decode b ops model num_active_paths_ encoder_out s r
      = (DecodeFrames b ops model num_active_paths_ encoder_out
          (s.bind fun st => st.context_graph) (List.range (numFrames encoder_out))
          (r.hyps, { r with hyps := ⟨[]⟩ })).bind (publish model (numFrames encoder_out)) := by
  unfold Decode numFrames
  dsimp only
  cases DecodeFrames b ops model num_active_paths_ encoder_out
      (s.bind fun st => st.context_graph) (List.range (encoder_out.shape.getD 1 0))
      (r.hyps, { r with hyps := ⟨[]⟩ }) with
  | none => rfl
  | some st => rfl

omit [Zero S] [Add S] in
theorem publish_forget (model : Model S) (k : Nat) (st : Hypotheses S C × DecoderResult S C) :
    publish model k (forgetDecoderOut st) = publish model k st := by
  unfold publish forgetDecoderOut
  rfl

theorem decode_backend (b b' : Backend) (ops : MathOps S) (model : Model S)
    (num_active_paths_ : Nat) (encoder_out : Tensor S) (s : Option (Stream S C))
    (r : DecoderResult S C) :
    Decode b ops model num_active_paths_ encoder_out s r
      = Decode b' ops model num_active_paths_ encoder_out s r := by
  rw [decode_eq_publish, decode_eq_publish]
  have h := decodeFrames_backend b b' ops model num_active_paths_ encoder_out
    (s.bind fun st => st.context_graph) (numFrames encoder_out) (r.hyps, { r with hyps := ⟨[]⟩ })
  have hbind : ∀ x : Option (Hypotheses S C × DecoderResult S C),
      x.bind (publish model (numFrames encoder_out))
        = (x.map forgetDecoderOut).bind (publish model (numFrames encoder_out)) := by
    intro x
    cases x with
    | none => rfl
    | some st => simp only [Option.map_some', Option.some_bind, publish_forget]
  rw [hbind, h, ← hbind]

end ModifiedBeamSearchDecoder

/-- C14. Backend independence: with the same model functions, encoder output and
initial result, the MNN and the OpenVINO `Decode` return the same result (tokens,
timestamps, num_trailing_blanks, frame_offset, hyps and decoder_out), for the
greedy decoder and for the beam search, whose MNN variant alone nulls
`result.decoder_out` on the fast path before overwriting it. -/
theorem backend_independence {S C : Type} [Zero S] [Add S] [LT S]
    [DecidableRel (fun a b : S => a < b)] (ops : MathOps S) (model : Model S)
    (num_active_paths_ : Nat) (encoder_out : Tensor S) (s : Option (Stream S C))
    (r : DecoderResult S C) :
    OpenVino.GreedySearchDecoder.Decode model encoder_out r
      = GreedySearchDecoder.Decode model encoder_out r ∧
    ModifiedBeamSearchDecoder.Decode Backend.openvino ops model num_active_paths_ encoder_out s r
      = ModifiedBeamSearchDecoder.Decode Backend.mnn ops model num_active_paths_ encoder_out s r :=
  ⟨OpenVino.GreedySearchDecoder.decode_eq model encoder_out r,
    ModifiedBeamSearchDecoder.decode_backend Backend.openvino Backend.mnn ops model
      num_active_paths_ encoder_out s r⟩

/-! ## Hypotheses container: one entry per `ys` -/

namespace Hypotheses

variable {S C : Type} [LT S] [DecidableRel (fun a b : S => a < b)]

theorem merge_ys (ops : MathOps S) (a b : Hypothesis S C) (h : a.ys = b.ys) :
    (merge ops a b).ys = b.ys := by
  unfold merge
  split
  · rfl
  · exact h

theorem merge_log_prob (ops : MathOps S) (a b : Hypothesis S C) :
    (merge ops a b).log_prob = ops.LogAdd a.log_prob b.log_prob := rfl

theorem addEntry_keys (ops : MathOps S) (hyp : Hypothesis S C) (l : List (Hypothesis S C)) :
    (addEntry ops hyp l).map (fun h => h.ys)
      = if hyp.ys ∈ l.map (fun h => h.ys) then l.map (fun h => h.ys)
        else l.map (fun h => h.ys) ++ [hyp.ys] := by
  induction l with
  | nil => simp [addEntry]
  | cons e rest ih =>
    unfold addEntry
    by_cases he : e.ys = hyp.ys
    · rw [if_pos he]
      simp [merge_ys ops e hyp he, he]
    · rw [if_neg he, List.map_cons, ih]
      have hne : ¬ hyp.ys = e.ys := fun h => he h.symm
      by_cases hm : hyp.ys ∈ rest.map (fun h => h.ys)
      · simp [hm]
      · simp only [List.map_cons, List.mem_cons, hne, hm, or_self, if_false, List.cons_append]

theorem nodup_addEntry (ops : MathOps S) (hyp : Hypothesis S C) (l : List (Hypothesis S C))
    (h : (l.map fun h => h.ys).Nodup) : ((addEntry ops hyp l).map fun h => h.ys).Nodup := by
  rw [addEntry_keys]
  split
  · exact h
  · rename_i hm
    rw [List.nodup_append]
    refine ⟨h, List.nodup_singleton _, ?_⟩
    intro x hx hx'
    rw [List.mem_singleton] at hx'
    subst hx'
    exact hm hx

theorem nodup_Add (ops : MathOps S) (self : Hypotheses S C) (hyp : Hypothesis S C)
    (h : self.keys.Nodup) : (self.Add ops hyp).keys.Nodup :=
  nodup_addEntry ops hyp self.hyps_dict h

theorem nodup_AddAll (ops : MathOps S) (hyps : List (Hypothesis S C)) :
    ∀ self : Hypotheses S C, self.keys.Nodup → (self.AddAll ops hyps).keys.Nodup := by
  induction hyps with
  | nil => intro self h; exact h
  | cons x xs ih =>
    intro self h
    unfold AddAll
    rw [List.foldl_cons]
    exact ih _ (nodup_Add ops self x h)

/-- With one entry per key, adding a hypothesis whose `ys` is the key of the entry
`e` stores the merge of `e` and the hypothesis under that key, and nothing else. -/
theorem addEntry_merged (ops : MathOps S) (hyp e : Hypothesis S C) (l : List (Hypothesis S C))
    (hnd : (l.map fun h => h.ys).Nodup) (he : e ∈ l) (hys : e.ys = hyp.ys) :
    ∀ m ∈ addEntry ops hyp l, m.ys = hyp.ys → m = merge ops e hyp := by
  induction l with
  | nil => cases he
  | cons a rest ih =>
    intro m hm hmys
    rw [List.map_cons, List.nodup_cons] at hnd
    unfold addEntry at hm
    by_cases ha : a.ys = hyp.ys
    · rw [if_pos ha] at hm
      have hea : e = a := by
        rcases List.mem_cons.mp he with h | h
        · exact h
        · exact absurd (List.mem_map_of_mem (fun h => h.ys) h) (by
            have : e.ys = a.ys := hys.trans ha.symm
            simpa [this] using hnd.1)
      subst hea
      rcases List.mem_cons.mp hm with h | h
      · exact h
      · exact absurd (List.mem_map_of_mem (fun h => h.ys) h) (by
          have : m.ys = e.ys := hmys.trans ha.symm
          simpa [this] using hnd.1)
    · rw [if_neg ha] at hm
      have her : e ∈ rest := by
        rcases List.mem_cons.mp he with h | h
        · subst h; exact absurd hys ha
        · exact h
      rcases List.mem_cons.mp hm with h | h
      · subst h; exact absurd hmys ha
      · exact ih hnd.2 her m h hmys

theorem mem_addEntry_key (ops : MathOps S) (hyp : Hypothesis S C) (l : List (Hypothesis S C)) :
    ∃ m ∈ addEntry ops hyp l, m.ys = hyp.ys := by
  have h : hyp.ys ∈ (addEntry ops hyp l).map (fun h => h.ys) := by
    rw [addEntry_keys]
    split
    · assumption
    · simp
  obtain ⟨m, hm, hmys⟩ := List.mem_map.mp h
  exact ⟨m, hm, hmys⟩

end Hypotheses

namespace ModifiedBeamSearchDecoder

variable {S C : Type} [Zero S] [Add S] [LT S] [DecidableRel (fun a b : S => a < b)]

/-- The loop over the selected indices is a sequence of `Add` calls on `cur`. -/
theorem expand_eq_AddAll (ops : MathOps S) (graph : Option (ContextGraph S C))
    (prev : List (Hypothesis S C)) (p_joiner_out : List S) (vocab_size t : Nat)
    (frame_offset : Int) (topk : List Nat) :
    ∀ cur cur' : Hypotheses S C,
      expand ops graph prev p_joiner_out vocab_size t frame_offset topk cur = some cur' →
      ∃ children : List (Hypothesis S C),
        children.length = topk.length ∧ cur' = cur.AddAll ops children := by
  induction topk with
  | nil =>
    intro cur cur' h
    simp only [expand, Option.some.injEq] at h
    exact ⟨[], rfl, h.symm⟩
  | cons i topk ih =>
    intro cur cur' h
    unfold expand at h
    split at h
    · cases h
    · rename_i new_hyp _
      obtain ⟨children, hlen, hc⟩ := ih _ cur' h
      exact ⟨new_hyp :: children, by simp [hlen], hc⟩

/-- After every frame the container holds one hypothesis per `ys`. -/
theorem nodup_decodeFrame (backend : Backend) (ops : MathOps S) (model : Model S)
    (num_active_paths_ : Nat) (encoder_out : Tensor S) (graph : Option (ContextGraph S C))
    (st st' : Hypotheses S C × DecoderResult S C) (t : Nat)
    (h : DecodeFrame backend ops model num_active_paths_ encoder_out graph st t = some st') :
    st'.1.keys.Nodup := by
  obtain ⟨⟨pj, v, topk, hexp⟩, _⟩ :=
    decodeFrame_spec backend ops model num_active_paths_ encoder_out graph st st' t h
  obtain ⟨children, _, hc⟩ := expand_eq_AddAll ops graph _ pj v t _ topk _ _ hexp
  rw [hc]
  exact Hypotheses.nodup_AddAll ops children _ List.nodup_nil

end ModifiedBeamSearchDecoder

namespace ModifiedBeamSearchDecoder

variable {S C : Type} [LT S] [DecidableRel (fun a b : S => a < b)]

/-- The container after any sequence of `Add` calls on an empty container, as every
frame of the beam search issues them, holds at most one hypothesis per distinct
`ys`; adding a hypothesis whose `ys` is already stored with log-probability `a`
leaves one entry for that `ys`, whose `log_prob` is `LogAdd a b`, whatever function
of the two contributions `LogAdd` is, and whose timestamps and context state come
from the contributor with the higher log-probability. -/
theorem hypotheses_merge_invariant [Zero S] [Add S] (ops : MathOps S)
    (hyps : List (Hypothesis S C)) (e hyp : Hypothesis S C)
    (he : e ∈ ((⟨[]⟩ : Hypotheses S C).AddAll ops hyps).hyps_dict) (hys : e.ys = hyp.ys) :
    ((⟨[]⟩ : Hypotheses S C).AddAll ops hyps).keys.Nodup ∧
    (((⟨[]⟩ : Hypotheses S C).AddAll ops hyps).Add ops hyp).keys.Nodup ∧
    (((⟨[]⟩ : Hypotheses S C).AddAll ops hyps).Add ops hyp).keys
      = ((⟨[]⟩ : Hypotheses S C).AddAll ops hyps).keys ∧
    (∃ m ∈ (((⟨[]⟩ : Hypotheses S C).AddAll ops hyps).Add ops hyp).hyps_dict, m.ys = hyp.ys) ∧
    (∀ m ∈ (((⟨[]⟩ : Hypotheses S C).AddAll ops hyps).Add ops hyp).hyps_dict, m.ys = hyp.ys →
      m.log_prob = ops.LogAdd e.log_prob hyp.log_prob ∧
      m.timestamps = (if e.log_prob < hyp.log_prob then hyp else e).timestamps ∧
      m.context_state = (if e.log_prob < hyp.log_prob then hyp else e).context_state) ∧
    (∀ (backend : Backend) (model : Model S) (num_active_paths_ : Nat) (encoder_out : Tensor S)
        (graph : Option (ContextGraph S C)) (st st' : Hypotheses S C × DecoderResult S C)
        (t : Nat),
      DecodeFrame backend ops model num_active_paths_ encoder_out
        graph st t = some st' → st'.1.keys.Nodup) := by
  have hnd : ((⟨[]⟩ : Hypotheses S C).AddAll ops hyps).keys.Nodup :=
    Hypotheses.nodup_AddAll ops hyps _ List.nodup_nil
  refine ⟨hnd, Hypotheses.nodup_Add ops _ hyp hnd, ?_, Hypotheses.mem_addEntry_key ops hyp _, ?_,
    fun backend model n enc graph st st' t h =>
      nodup_decodeFrame backend ops model n enc graph st st' t h⟩
  · unfold Hypotheses.keys Hypotheses.Add
    rw [Hypotheses.addEntry_keys, if_pos]
    rw [← hys]
    exact List.mem_map_of_mem (fun h => h.ys) he
  · intro m hm hmys
    have hmerge := Hypotheses.addEntry_merged ops hyp e _ hnd he hys m hm hmys
    subst hmerge
    refine ⟨rfl, ?_, ?_⟩ <;> (unfold Hypotheses.merge; split <;> rfl)

/-- An instance of the merge: `pathA` and `pathC` are stored, then `pathB`, whose
`ys` is that of `pathA`, is added. -/
theorem hypotheses_merge_invariant_witness :
    Demo.pathA ∈ ((⟨[]⟩ : Hypotheses Int Nat).AddAll Demo.ops [Demo.pathA, Demo.pathC]).hyps_dict ∧
    Demo.pathA.ys = Demo.pathB.ys ∧
    (((⟨[]⟩ : Hypotheses Int Nat).AddAll Demo.ops [Demo.pathA, Demo.pathC]).Add Demo.ops
        Demo.pathB).hyps_dict
      = [{ ys := [0, 0, 7], log_prob := 5, timestamps := [2], num_trailing_blanks := 1 },
         Demo.pathC] ∧
    (((⟨[]⟩ : Hypotheses Int Nat).AddAll Demo.ops [Demo.pathA, Demo.pathC]).Add Demo.ops
        Demo.pathB).keys.Nodup :=
  ⟨by decide, by decide, by decide,
    (hypotheses_merge_invariant Demo.ops [Demo.pathA, Demo.pathC] Demo.pathA Demo.pathB
      (by decide) (by decide)).2.1⟩

end ModifiedBeamSearchDecoder

/-! ## Beam search: no survivors and empty chunks -/

namespace ModifiedBeamSearchDecoder

variable {S C : Type} [Zero S] [Add S] [LT S] [DecidableRel (fun a b : S => a < b)]

/-- With zero active hypotheses a frame fails: `RunDecoder2D` has no row and hands
no tensor to the joiner. -/
theorem decodeFrame_empty (backend : Backend) (ops : MathOps S) (model : Model S)
    (num_active_paths_ : Nat) (encoder_out : Tensor S) (graph : Option (ContextGraph S C))
    (st : Hypotheses S C × DecoderResult S C) (t : Nat) (h : st.1.hyps_dict = []) :
    DecodeFrame backend ops model num_active_paths_ encoder_out graph st t = none := by
  have hprev : st.1.GetTopK num_active_paths_ true = [] := by
    simp [Hypotheses.GetTopK, Hypotheses.ranked, h]
  unfold DecodeFrame
  simp [hprev, fastPath, RunDecoder2D, BuildDecoderInput]

theorem decodeFrames_empty (backend : Backend) (ops : MathOps S) (model : Model S)
    (num_active_paths_ : Nat) (encoder_out : Tensor S) (graph : Option (ContextGraph S C))
    (st : Hypotheses S C × DecoderResult S C) (ts : List Nat) (hts : ts ≠ [])
    (h : st.1.hyps_dict = []) :
    DecodeFrames backend ops model num_active_paths_ encoder_out graph ts st = none := by
  cases ts with
  | nil => exact absurd rfl hts
  | cons t rest =>
    unfold DecodeFrames
    rw [decodeFrame_empty backend ops model num_active_paths_ encoder_out graph st t h]

omit [Zero S] [Add S] in
theorem publish_empty (model : Model S) (k : Nat) (st : Hypotheses S C × DecoderResult S C)
    (h : st.1.hyps_dict = []) : publish model k st = none := by
  have hbest : st.1.GetMostProbable true = none := by
    simp [Hypotheses.GetMostProbable, Hypotheses.GetTopK, Hypotheses.ranked, h]
  unfold publish
  simp [hbest]

theorem decodeFrames_cons (backend : Backend) (ops : MathOps S) (model : Model S)
    (num_active_paths_ : Nat) (encoder_out : Tensor S) (graph : Option (ContextGraph S C))
    (t : Nat) (ts : List Nat) (st : Hypotheses S C × DecoderResult S C) :
    DecodeFrames backend ops model num_active_paths_ encoder_out graph (t :: ts) st
      = (DecodeFrame backend ops model num_active_paths_ encoder_out graph st t).bind
          (DecodeFrames backend ops model num_active_paths_ encoder_out graph ts) := by
  rw [DecodeFrames]
  cases DecodeFrame backend ops model num_active_paths_ encoder_out graph st t <;> rfl

theorem decodeFrames_append (backend : Backend) (ops : MathOps S) (model : Model S)
    (num_active_paths_ : Nat) (encoder_out : Tensor S) (graph : Option (ContextGraph S C))
    (ts us : List Nat) :
    ∀ st : Hypotheses S C × DecoderResult S C,
      DecodeFrames backend ops model num_active_paths_ encoder_out graph (ts ++ us) st
        = (DecodeFrames backend ops model num_active_paths_ encoder_out graph ts st).bind
            (DecodeFrames backend ops model num_active_paths_ encoder_out graph us) := by
  induction ts with
  | nil => intro st; rfl
  | cons t ts ih =>
    intro st
    rw [List.cons_append, decodeFrames_cons, decodeFrames_cons]
    cases DecodeFrame backend ops model num_active_paths_ encoder_out graph st t with
    | none => rfl
    | some st1 => exact ih st1

/-- A frame whose selection is empty leaves an empty container. -/
theorem decodeFrame_no_selection (backend : Backend) (ops : MathOps S) (model : Model S)
    (num_active_paths_ : Nat) (encoder_out : Tensor S) (graph : Option (ContextGraph S C))
    (st st' : Hypotheses S C × DecoderResult S C) (t : Nat)
    (hsel : ∀ (p : List S) (size k : Nat), ops.TopkIndex p size k = [])
    (h : DecodeFrame backend ops model num_active_paths_ encoder_out graph st t = some st') :
    st'.1.hyps_dict = [] := by
  unfold DecodeFrame at h
  dsimp only at h
  split at h
  · cases h
  · split at h
    · cases h
    · rw [hsel] at h
      simp only [expand, Option.some.injEq] at h
      rw [← h]
      rfl

/-- If the container is empty after frame `t`, `Decode` fails. -/
theorem decode_no_survivors (backend : Backend) (ops : MathOps S) (model : Model S)
    (num_active_paths_ : Nat) (encoder_out : Tensor S) (s : Option (Stream S C))
    (r : DecoderResult S C) (t : Nat) (st st' : Hypotheses S C × DecoderResult S C)
    (ht : t < numFrames encoder_out)
    (hreach : DecodeFrames backend ops model num_active_paths_ encoder_out
      (s.bind fun x => x.context_graph) (List.range t) (r.hyps, { r with hyps := ⟨[]⟩ })
        = some st)
    (hstep : DecodeFrame backend ops model num_active_paths_ encoder_out
      (s.bind fun x => x.context_graph) st t = some st')
    (hempty : st'.1.hyps_dict = []) :
    Decode backend ops model num_active_paths_ encoder_out s r = none := by
  obtain ⟨k, hk⟩ : ∃ k, numFrames encoder_out = t + (k + 1) :=
    ⟨numFrames encoder_out - t - 1, by omega⟩
  have hrange : List.range (numFrames encoder_out)
      = List.range t ++ (t :: List.range' (t + 1) k) := by
    rw [hk, List.range_eq_range', List.range_eq_range', ← List.range'_succ]
    have happ := List.range'_append_1 0 t (k + 1)
    rw [Nat.zero_add] at happ
    rw [happ, Nat.add_comm]
  rw [decode_eq_publish, hrange, decodeFrames_append, hreach, Option.some_bind,
    decodeFrames_cons, hstep, Option.some_bind]
  cases k with
  | zero =>
    simp only [List.range'_zero, DecodeFrames, Option.some_bind]
    exact publish_empty model _ st' hempty
  | succ j =>
    rw [decodeFrames_empty backend ops model num_active_paths_ encoder_out _ st' _
      (by simp [List.range'_succ]) hempty]
    rfl

/-- In a reachable result `tokens` and `num_trailing_blanks` are those of the most
probable hypothesis. -/
theorem published_of_reachable (backend : Backend) (ops : MathOps S) (model : Model S)
    (num_active_paths_ : Nat) (r : DecoderResult S C)
    (h : Reachable backend ops model num_active_paths_ r) :
    ∃ hyp : Hypothesis S C, r.hyps.GetMostProbable true = some hyp ∧
      r.tokens = hyp.ys ∧ r.num_trailing_blanks = hyp.num_trailing_blanks := by
  cases h with
  | empty => exact ⟨_, rfl, rfl, rfl⟩
  | decode e s1 q1 _ _ hd =>
    obtain ⟨_, _, _, hyp, hbest, htok, hntb, _⟩ :=
      decode_spec (fun _ _ => True) (fun _ _ _ _ _ _ _ => trivial) backend ops model
        num_active_paths_ e s1 q1 r hd (fun _ _ => trivial)
    exact ⟨hyp, hbest, htok, hntb⟩

end ModifiedBeamSearchDecoder

namespace ModifiedBeamSearchDecoder

variable {S C : Type} [Zero S] [Add S] [LT S] [DecidableRel (fun a b : S => a < b)]

/-- C17 (amended). Beam search with no survivors has no fallback: with zero active
hypotheses, or when at some frame the top-k selection leaves no hypothesis,
`Decode` does not return a result; on a chunk with zero frames `Decode`, applied to
a result reachable from `GetEmptyResult`, returns and leaves `tokens`,
`timestamps`, `num_trailing_blanks`, `hyps` and `frame_offset` unchanged. -/
theorem beam_no_survivors (backend : Backend) (ops : MathOps S) (model : Model S)
    (num_active_paths_ : Nat) (encoder_out : Tensor S) (s : Option (Stream S C))
    (r : DecoderResult S C) :
    (r.hyps.hyps_dict = [] →
      Decode backend ops model num_active_paths_ encoder_out s r = none) ∧
    (∀ (t : Nat) (st st' : Hypotheses S C × DecoderResult S C),
      t < numFrames encoder_out →
      DecodeFrames backend ops model num_active_paths_ encoder_out
        (s.bind fun x => x.context_graph) (List.range t) (r.hyps, { r with hyps := ⟨[]⟩ })
          = some st →
      DecodeFrame backend ops model num_active_paths_ encoder_out
        (s.bind fun x => x.context_graph) st t = some st' →
      st'.1.hyps_dict = [] →
      Decode backend ops model num_active_paths_ encoder_out s r = none) ∧
    ((∀ (p : List S) (size k : Nat), ops.TopkIndex p size k = []) →
      0 < numFrames encoder_out →
      Decode backend ops model num_active_paths_ encoder_out s r = none) ∧
    (numFrames encoder_out = 0 → Reachable backend ops model num_active_paths_ r →
      ∃ r' : DecoderResult S C,
        Decode backend ops model num_active_paths_ encoder_out s r = some r' ∧
        r'.tokens = r.tokens ∧ r'.timestamps = r.timestamps ∧
        r'.num_trailing_blanks = r.num_trailing_blanks ∧ r'.hyps = r.hyps ∧
        r'.frame_offset = r.frame_offset) := by
  refine ⟨?_, ?_, ?_, ?_⟩
  · intro hr
    rw [decode_eq_publish]
    by_cases hn : List.range (numFrames encoder_out) = []
    · rw [hn]
      exact publish_empty model _ _ hr
    · rw [decodeFrames_empty backend ops model num_active_paths_ encoder_out _ _ _ hn hr]
      rfl
  · intro t st st' ht hreach hstep hempty
    exact decode_no_survivors backend ops model num_active_paths_ encoder_out s r t st st' ht
      hreach hstep hempty
  · intro hsel hn
    cases hstep : DecodeFrame backend ops model num_active_paths_ encoder_out
        (s.bind fun x => x.context_graph) (r.hyps, { r with hyps := ⟨[]⟩ }) 0 with
    | none =>
      obtain ⟨k, hk⟩ : ∃ k, numFrames encoder_out = k + 1 :=
        ⟨numFrames encoder_out - 1, by omega⟩
      rw [decode_eq_publish, hk, List.range_eq_range', List.range'_succ, decodeFrames_cons,
        hstep]
      rfl
    | some st' =>
      exact decode_no_survivors backend ops model num_active_paths_ encoder_out s r 0
        (r.hyps, { r with hyps := ⟨[]⟩ }) st' hn rfl hstep
        (decodeFrame_no_selection backend ops model num_active_paths_ encoder_out _ _ st' 0
          hsel hstep)
  · intro hn hreach
    obtain ⟨hyp, hbest, htok, hntb⟩ :=
      published_of_reachable backend ops model num_active_paths_ r hreach
    rw [decode_eq_publish, hn]
    simp only [List.range_zero, DecodeFrames, Option.some_bind, publish, hbest]
    refine ⟨_, rfl, htok.symm, rfl, hntb.symm, rfl, ?_⟩
    simp

/-- Witness of C17 (amended): `Decode` on a chunk without frames, from
`Demo.beamExpected`. -/
theorem beam_no_survivors_witness :
    numFrames (Demo.chunk []) = 0 ∧
    Reachable Backend.mnn Demo.ops Demo.model 2 Demo.beamExpected ∧
    ∃ r' : DecoderResult Int Nat,
      Decode Backend.mnn Demo.ops Demo.model 2 (Demo.chunk []) none Demo.beamExpected = some r' ∧
      r'.tokens = Demo.beamExpected.tokens ∧ r'.timestamps = Demo.beamExpected.timestamps ∧
      r'.num_trailing_blanks = Demo.beamExpected.num_trailing_blanks ∧
      r'.hyps = Demo.beamExpected.hyps ∧ r'.frame_offset = Demo.beamExpected.frame_offset :=
  ⟨rfl, Reachable.decode (Demo.chunk [0, 0, 7, 0]) none _ _ Reachable.empty (by decide),
    (beam_no_survivors Backend.mnn Demo.ops Demo.model 2 (Demo.chunk []) none
      Demo.beamExpected).2.2.2 rfl
      (Reachable.decode (Demo.chunk [0, 0, 7, 0]) none _ _ Reachable.empty (by decide))⟩

/-- C17 as stated fails: when the top-k selection yields no pair at the single frame
of a chunk, the frame loop ends with an empty container, so the previous best
hypothesis is not retained, and `Decode` does not return a result. -/
theorem beam_no_survivors_counterexample :
    (∀ (p : List Int) (size k : Nat), Demo.opsNoSurvivor.TopkIndex p size k = []) ∧
    (GetEmptyResult Demo.model : DecoderResult Int Nat).hyps.hyps_dict
      = [{ ys := [0, 0], log_prob := 0 }] ∧
    (DecodeFrames Backend.mnn Demo.opsNoSurvivor Demo.model 2 (Demo.chunk [0]) none
        (List.range (numFrames (Demo.chunk [0])))
        ((GetEmptyResult Demo.model : DecoderResult Int Nat).hyps,
          { (GetEmptyResult Demo.model : DecoderResult Int Nat) with hyps := ⟨[]⟩ })).map
      (fun st => st.1.hyps_dict) = some [] ∧
    Decode Backend.mnn Demo.opsNoSurvivor Demo.model 2 (Demo.chunk [0]) none
      (GetEmptyResult Demo.model : DecoderResult Int Nat) = none :=
  ⟨fun _ _ _ => rfl, by decide, by decide, by decide⟩

end ModifiedBeamSearchDecoder

/-! ## Recognizer: construction -/

namespace Recognizer

variable {S : Type}

/-- C18. Construction fails fatally, producing no recognizer, whenever
`decoder_config.method` is neither `greedy_search` nor `modified_beam_search`; with
`greedy_search` it selects the greedy decoder, with `modified_beam_search` the beam
decoder with the configured `num_active_paths`; and with `modified_beam_search`, a
non-empty hotwords file and no BPE model it fails fatally as well. -/
theorem construction_spec (env : Environment S) (config : RecognizerConfig S) :
    (config.decoder_config.method ≠ "greedy_search" →
      config.decoder_config.method ≠ "modified_beam_search" → Impl env config = none) ∧
    (config.decoder_config.method = "greedy_search" →
      ∃ r : Recognizer S, Impl env config = some r ∧ r.decoder_ = Decoder.GreedySearch ∧
        r.config_ = config ∧ r.model_ = env.Create config.model_config) ∧
    (config.decoder_config.method = "modified_beam_search" →
      ∀ r : Recognizer S, Impl env config = some r →
        r.decoder_ = Decoder.ModifiedBeamSearch config.decoder_config.num_active_paths) ∧
    (config.decoder_config.method = "modified_beam_search" → config.hotwords_file = "" →
      ∃ r : Recognizer S, Impl env config = some r ∧
        r.decoder_ = Decoder.ModifiedBeamSearch config.decoder_config.num_active_paths) ∧
    (config.decoder_config.method = "modified_beam_search" →
      config.hotwords_file ≠ "" → config.model_config.bpe_vocab ≠ "" →
      env.ifstream config.hotwords_file = true →
      ∃ r : Recognizer S, Impl env config = some r ∧
        r.decoder_ = Decoder.ModifiedBeamSearch config.decoder_config.num_active_paths) ∧
    (config.decoder_config.method = "modified_beam_search" →
      config.hotwords_file ≠ "" → config.model_config.bpe_vocab = "" →
      Impl env config = none) := by
  have hne : ("modified_beam_search" : String) ≠ "greedy_search" := by decide
  refine ⟨?_, ?_, ?_, ?_, ?_, ?_⟩
  · intro h1 h2
    unfold Impl
    simp [h1, h2]
  · intro h
    unfold Impl
    simp [h]
  · intro h r hr
    unfold Impl at hr
    simp only [h, hne, if_false, if_true] at hr
    split at hr
    · split at hr
      · cases hr
      · injection hr with hr
        subst hr
        rfl
    · injection hr with hr
      subst hr
      rfl
  · intro h hh
    unfold Impl
    simp [h, hne, hh]
  · intro h hh hb hf
    unfold Impl InitHotwords
    simp [h, hne, hh, hb, hf]
  · intro h hh hb
    unfold Impl InitHotwords
    simp only [h, hne, if_false, if_true, hh, hb, ne_eq, not_true_eq_false, not_false_eq_true]
    split
    · rfl
    · rename_i heq
      split at heq <;> cases heq

/-- Witness of C18 on `Demo.env`: the four outcomes of construction. -/
theorem construction_spec_witness :
    (Impl Demo.env (Demo.configWith "beam" "" "")).isSome = false ∧
    (Impl Demo.env (Demo.configWith "greedy_search" "" "")).map (fun r => r.decoder_)
      = some Decoder.GreedySearch ∧
    (Impl Demo.env (Demo.configWith "modified_beam_search" "bpe.vocab" "hotwords.txt")).map
        (fun r => (r.decoder_, r.hotwords_))
      = some (Decoder.ModifiedBeamSearch 4, [[7, 5]]) ∧
    Impl Demo.env (Demo.configWith "modified_beam_search" "" "hotwords.txt") = none :=
  ⟨by decide, by decide, by decide,
    (construction_spec Demo.env (Demo.configWith "modified_beam_search" "" "hotwords.txt")).2.2.2.2.2
      rfl (by decide) rfl⟩

end Recognizer

/-! ## C API: the arrays of `GetResult` -/

namespace CApi

theorem packed_cons (x : ByteString) (rest : List ByteString) :
    packed (x :: rest) = x ++ [0] ++ packed rest := by
  simp [packed]

theorem length_packed (stokens : List ByteString) :
    (packed stokens).length = stokens.flatten.length + stokens.length := by
  induction stokens with
  | nil => rfl
  | cons x rest ih =>
    rw [packed_cons]
    simp only [List.length_append, List.length_cons, List.length_nil, List.flatten_cons, ih]
    omega

theorem memcpy_fresh (done src : ByteString) (rest : Nat) :
    memcpy (done ++ List.replicate (src.length + 1 + rest) 0) done.length src
      = some ((done ++ src ++ [0]) ++ List.replicate rest 0) := by
  unfold memcpy
  rw [if_pos (by simp only [List.length_append, List.length_replicate]; omega)]
  congr 1
  rw [List.take_left' rfl, List.drop_append_eq_append_drop, List.drop_of_length_le (by omega)]
  simp only [List.nil_append, List.drop_replicate]
  have h2 : src.length + 1 + rest - (done.length + src.length - done.length) = 1 + rest := by
    omega
  rw [h2, List.replicate_add]
  simp

/-- The loop copies the remaining token strings, each with its NUL, behind what is
already written, and reads one timestamp per token; no copy leaves the buffer. -/
theorem fillArrays_spec {S : Type} (res : RecognitionResult S) :
    ∀ (m k : Nat) (done : ByteString) (acc : List S),
      k + m = res.stokens.length → k + m ≤ res.timestamps.length →
      fillArrays res (List.range' k m)
          (done ++ List.replicate (packed (res.stokens.drop k)).length 0, acc, done.length)
        = some (done ++ packed (res.stokens.drop k), acc ++ (res.timestamps.drop k).take m,
            done.length + (packed (res.stokens.drop k)).length) := by
  intro m
  induction m with
  | zero =>
    intro k done acc hk _
    have hdrop : res.stokens.drop k = [] := List.drop_of_length_le (by omega)
    simp [hdrop, packed, fillArrays]
  | succ m ih =>
    intro k done acc hk ht
    have hklt : k < res.stokens.length := by omega
    have hktl : k < res.timestamps.length := by omega
    have hdrop : res.stokens.drop k = res.stokens[k] :: res.stokens.drop (k + 1) :=
      List.drop_eq_getElem_cons hklt
    have hdropt : res.timestamps.drop k = res.timestamps[k] :: res.timestamps.drop (k + 1) :=
      List.drop_eq_getElem_cons hktl
    rw [List.range'_succ, hdrop, hdropt, packed_cons]
    simp only [fillArrays, List.getElem?_eq_getElem hklt, List.getElem?_eq_getElem hktl]
    have hlen : (res.stokens[k] ++ [0] ++ packed (res.stokens.drop (k + 1))).length
        = res.stokens[k].length + 1 + (packed (res.stokens.drop (k + 1))).length := by
      simp only [List.length_append, List.length_cons, List.length_nil]
    rw [hlen, memcpy_fresh]
    dsimp only
    have hpos : done.length + res.stokens[k].length + 1
        = (done ++ res.stokens[k] ++ [0]).length := by
      simp only [List.length_append, List.length_cons, List.length_nil]
    rw [hpos, ih (k + 1) (done ++ res.stokens[k] ++ [0]) (acc ++ [res.timestamps[k]])
      (by omega) (by omega)]
    simp only [List.append_assoc, List.take_succ_cons, List.singleton_append, List.length_append,
      List.length_cons, List.length_nil]
    congr 3
    omega

end CApi

/-! ## Greedy search: the trailing-blank counter -/

namespace GreedySearchDecoder

variable {S C : Type} [LT S] [DecidableRel (fun a b : S => a < b)]

/-- The counter after the frames `a, a + 1, ..., a + m - 1`: advanced by `m` when no
frame emits, otherwise the number of frames after the last emitting one. -/
theorem trailingBlanks_frames (model : Model S) (encoder_out : Tensor S) (frame_offset : Int)
    (m : Nat) :
    ∀ (a : Nat) (st : DecoderResult S C × Tensor S),
      ((List.range' a m).foldl (DecodeFrame model encoder_out frame_offset) st).1.num_trailing_blanks
        = match ((frameTokens model encoder_out frame_offset (List.range' a m) st).filter
            fun p => decide (p.2 ≠ 0 ∧ p.2 ≠ 2)).getLast? with
          | none => st.1.num_trailing_blanks + (m : Int)
          | some p => ((a + m : Nat) : Int) - 1 - (p.1 : Int) := by
  induction m with
  | zero => intro a st; simp [frameTokens]
  | succ m ih =>
    intro a st
    have hih := ih (a + 1) (DecodeFrame model encoder_out frame_offset st a)
    rw [List.range'_succ, List.foldl_cons, hih]
    simp only [frameTokens]
    by_cases hk : newToken (model.RunJoiner (GetEncoderOutFrame encoder_out a) st.2) ≠ 0 ∧
        newToken (model.RunJoiner (GetEncoderOutFrame encoder_out a) st.2) ≠ 2
    · rw [List.filter_cons_of_pos (by simpa using hk)]
      rw [decodeFrame_emit model encoder_out frame_offset st a _ rfl hk.1 hk.2]
      cases hl : ((frameTokens model encoder_out frame_offset (List.range' (a + 1) m)
          ({ st.1 with
              tokens := st.1.tokens ++
                [(newToken (model.RunJoiner (GetEncoderOutFrame encoder_out a) st.2) : Int)]
              num_trailing_blanks := 0
              timestamps := st.1.timestamps ++ [(a : Int) + frame_offset] },
            model.RunDecoder (BuildDecoderInput model
              { st.1 with
                tokens := st.1.tokens ++
                  [(newToken (model.RunJoiner (GetEncoderOutFrame encoder_out a) st.2) : Int)]
              }))).filter fun p => decide (p.2 ≠ 0 ∧ p.2 ≠ 2)).getLast? with
      | none =>
        rw [List.getLast?_eq_none_iff] at hl
        rw [hl]
        simp only [List.getLast?_singleton]
        push_cast
        ring
      | some p =>
        rw [List.getLast?_cons, hl]
        simp only [Option.getD_some]
        push_cast
        ring
    · rw [List.filter_cons_of_neg (by simpa using hk)]
      have hstep : (DecodeFrame model encoder_out frame_offset st a).1.num_trailing_blanks
          = st.1.num_trailing_blanks + 1 := by
        unfold DecodeFrame
        dsimp only
        rw [if_neg hk]
      cases hl : ((frameTokens model encoder_out frame_offset (List.range' (a + 1) m)
          (DecodeFrame model encoder_out frame_offset st a)).filter
            fun p => decide (p.2 ≠ 0 ∧ p.2 ≠ 2)).getLast? with
      | none =>
        simp only [hstep]
        push_cast
        ring
      | some p =>
        simp only
        push_cast
        ring

/-- C21. Greedy trailing-blank counter: after `Decode` on a chunk of `n` frames,
`num_trailing_blanks` is its value on entry plus `n` if no frame of the chunk had
an argmax other than `0` and `2`, and otherwise `n - 1 - t_last`, `t_last` being
the last frame of the chunk whose argmax was neither `0` nor `2`. -/
theorem greedy_trailing_blanks (model : Model S) (encoder_out : Tensor S)
    (r : DecoderResult S C) :
    ((Decode model encoder_out r).num_trailing_blanks
      = match (emissions model encoder_out r).getLast? with
        | none => r.num_trailing_blanks + (numFrames encoder_out : Int)
        | some p => (numFrames encoder_out : Int) - 1 - (p.1 : Int)) ∧
    ((emissions model encoder_out r).getLast? = none ↔
      ∀ p ∈ frameTokens model encoder_out r.frame_offset (List.range (numFrames encoder_out))
        (r, initialDecoderOut model r), p.2 = 0 ∨ p.2 = 2) := by
  have h := trailingBlanks_frames model encoder_out r.frame_offset (numFrames encoder_out) 0
    (r, initialDecoderOut model r)
  rw [← List.range_eq_range', Nat.zero_add] at h
  refine ⟨h, ?_⟩
  rw [List.getLast?_eq_none_iff]
  unfold emissions
  rw [List.filter_eq_nil_iff]
  constructor
  · intro hall p hp
    have := hall p hp
    simp only [decide_eq_true_eq] at this
    omega
  · intro hall p hp
    have := hall p hp
    simp only [decide_eq_true_eq]
    omega

/-- The chunk `[0, 0, 7, 0]` of `Demo.greedyResult`: frame `2` emits token `7` and
one blank frame follows. -/
theorem demo_trailing_blanks :
    emissions Demo.model (Demo.chunk [0, 0, 7, 0])
      (GetEmptyResult Demo.model : DecoderResult Int Nat) = [(2, 7)] ∧
    Demo.greedyResult.num_trailing_blanks = 1 := by
  decide

end GreedySearchDecoder

/-! ## Greedy search: the prediction-network cache -/

namespace GreedySearchDecoder

variable {S C : Type} [LT S] [DecidableRel (fun a b : S => a < b)]

/-- Recording the calls does not change what the frame computes. -/
theorem decodeFrameTraced_fst (model : Model S) (encoder_out : Tensor S) (frame_offset : Int)
    (st : (DecoderResult S C × Tensor S) × Calls S) (t : Nat) :
    (DecodeFrameTraced model encoder_out frame_offset st t).1
      = DecodeFrame model encoder_out frame_offset st.1 t := by
  unfold DecodeFrameTraced DecodeFrame
  dsimp only
  split <;> rfl

theorem framesTraced_fst (model : Model S) (encoder_out : Tensor S) (frame_offset : Int)
    (ts : List Nat) :
    ∀ st : (DecoderResult S C × Tensor S) × Calls S,
      (ts.foldl (DecodeFrameTraced model encoder_out frame_offset) st).1
        = ts.foldl (DecodeFrame model encoder_out frame_offset) st.1 := by
  induction ts with
  | nil => intro st; rfl
  | cons t ts ih =>
    intro st
    rw [List.foldl_cons, List.foldl_cons, ih, decodeFrameTraced_fst]

theorem decodeTraced_fst (model : Model S) (encoder_out : Tensor S) (r : DecoderResult S C) :
    (DecodeTraced model encoder_out r).1 = Decode model encoder_out r := by
  unfold DecodeTraced Decode
  dsimp only
  rw [framesTraced_fst]
  cases r.decoder_out <;> rfl

/-- The recorded `RunDecoder` calls of a run of frames: one more per emitting
frame. -/
theorem framesTraced_decoder (model : Model S) (encoder_out : Tensor S) (frame_offset : Int)
    (ts : List Nat) :
    ∀ st : (DecoderResult S C × Tensor S) × Calls S,
      (ts.foldl (DecodeFrameTraced model encoder_out frame_offset) st).2.decoder.length
        = st.2.decoder.length +
          ((frameTokens model encoder_out frame_offset ts st.1).filter
            fun p => decide (p.2 ≠ 0 ∧ p.2 ≠ 2)).length := by
  induction ts with
  | nil => intro st; simp [frameTokens]
  | cons t ts ih =>
    intro st
    rw [List.foldl_cons, ih, decodeFrameTraced_fst]
    simp only [frameTokens]
    by_cases hk : newToken (model.RunJoiner (GetEncoderOutFrame encoder_out t) st.1.2) ≠ 0 ∧
        newToken (model.RunJoiner (GetEncoderOutFrame encoder_out t) st.1.2) ≠ 2
    · rw [List.filter_cons_of_pos (by simpa using hk)]
      have hcalls : (DecodeFrameTraced model encoder_out frame_offset st t).2.decoder.length
          = st.2.decoder.length + 1 := by
        unfold DecodeFrameTraced
        dsimp only
        rw [if_pos hk]
        simp
      rw [hcalls, List.length_cons]
      omega
    · rw [List.filter_cons_of_neg (by simpa using hk)]
      have hcalls : (DecodeFrameTraced model encoder_out frame_offset st t).2.decoder
          = st.2.decoder := by
        unfold DecodeFrameTraced
        dsimp only
        rw [if_neg hk]
      rw [hcalls]

/-- The recorded `RunJoiner` calls of the frames `0, ..., n - 1`: frame `t` is joined
with the local `decoder_out` before frame `t`. -/
theorem framesTraced_joiner (model : Model S) (encoder_out : Tensor S) (frame_offset : Int)
    (st : (DecoderResult S C × Tensor S) × Calls S) (n : Nat) :
    ((List.range n).foldl (DecodeFrameTraced model encoder_out frame_offset) st).2.joiner
      = st.2.joiner ++ (List.range n).map fun t =>
          (GetEncoderOutFrame encoder_out t,
            ((List.range t).foldl (DecodeFrame model encoder_out frame_offset) st.1).2) := by
  induction n with
  | zero => simp
  | succ n ih =>
    rw [List.range_succ, List.foldl_append, List.foldl_cons, List.foldl_nil, List.map_append,
      ← List.append_assoc, ← ih]
    have hstep : ∀ x : (DecoderResult S C × Tensor S) × Calls S,
        (DecodeFrameTraced model encoder_out frame_offset x n).2.joiner
          = x.2.joiner ++ [(GetEncoderOutFrame encoder_out n, x.1.2)] := by
      intro x
      unfold DecodeFrameTraced
      dsimp only
      split <;> rfl
    rw [hstep, framesTraced_fst]
    rfl

/-- The cache invariant of the loop: the local `decoder_out` is `RunDecoder` of the
last `context_size` tokens of the running token sequence. -/
theorem cache_decodeFrame (model : Model S) (encoder_out : Tensor S) (frame_offset : Int)
    (st : DecoderResult S C × Tensor S) (t : Nat)
    (h : st.2 = model.RunDecoder (BuildDecoderInput model st.1)) :
    (DecodeFrame model encoder_out frame_offset st t).2
      = model.RunDecoder
          (BuildDecoderInput model (DecodeFrame model encoder_out frame_offset st t).1) := by
  unfold DecodeFrame
  dsimp only
  split
  · rfl
  · exact h

theorem cache_frames (model : Model S) (encoder_out : Tensor S) (frame_offset : Int)
    (ts : List Nat) :
    ∀ st : DecoderResult S C × Tensor S,
      st.2 = model.RunDecoder (BuildDecoderInput model st.1) →
      (ts.foldl (DecodeFrame model encoder_out frame_offset) st).2
        = model.RunDecoder (BuildDecoderInput model
            (ts.foldl (DecodeFrame model encoder_out frame_offset) st).1) := by
  induction ts with
  | nil => intro st h; exact h
  | cons t ts ih =>
    intro st h
    rw [List.foldl_cons]
    exact ih _ (cache_decodeFrame model encoder_out frame_offset st t h)

/-- C22. Greedy prediction-network cache: if on entry `result.decoder_out` is null
or is `RunDecoder` of the last `context_size` tokens of `result.tokens`, then the
joiner call of every frame `t` gets `RunDecoder` of the last `context_size` tokens
of the running token sequence at that frame, `RunDecoder` is invoked once per
emitting frame plus once at entry exactly when `decoder_out` was null, and on
return `result.decoder_out` is `RunDecoder` of the last `context_size` tokens of
`result.tokens`. -/
theorem greedy_decoder_cache (model : Model S) (encoder_out : Tensor S)
    (r : DecoderResult S C)
    (h : r.decoder_out = none ∨
      r.decoder_out = some (model.RunDecoder (BuildDecoderInput model r))) :
    (DecodeTraced model encoder_out r).1 = Decode model encoder_out r ∧
    (DecodeTraced model encoder_out r).2.joiner
      = (List.range (numFrames encoder_out)).map (fun t =>
          (GetEncoderOutFrame encoder_out t,
            model.RunDecoder
              { shape := [1, model.ContextSize]
                data := lastN model.ContextSize (running model encoder_out r t).1.tokens })) ∧
    (DecodeTraced model encoder_out r).2.decoder.length
      = (emissions model encoder_out r).length + (if r.decoder_out.isNone then 1 else 0) ∧
    (Decode model encoder_out r).decoder_out
      = some (model.RunDecoder
          { shape := [1, model.ContextSize]
            data := lastN model.ContextSize (Decode model encoder_out r).tokens }) := by
  have hentry : initialDecoderOut model r = model.RunDecoder (BuildDecoderInput model r) := by
    unfold initialDecoderOut
    rcases h with h | h <;> rw [h]
  have hinv : ∀ ts : List Nat,
      (ts.foldl (DecodeFrame model encoder_out r.frame_offset) (r, initialDecoderOut model r)).2
        = model.RunDecoder (BuildDecoderInput model
            (ts.foldl (DecodeFrame model encoder_out r.frame_offset)
              (r, initialDecoderOut model r)).1) :=
    fun ts => cache_frames model encoder_out r.frame_offset ts _ hentry
  refine ⟨decodeTraced_fst model encoder_out r, ?_, ?_, ?_⟩
  · unfold DecodeTraced
    dsimp only
    rw [framesTraced_joiner]
    have hstart : ((match r.decoder_out with
        | some d => ((d, {}) : Tensor S × Calls S)
        | none => (model.RunDecoder (BuildDecoderInput model r),
            { decoder := [BuildDecoderInput model r] })).1)
          = initialDecoderOut model r := by
      unfold initialDecoderOut
      cases r.decoder_out <;> rfl
    have hjoin : ((match r.decoder_out with
        | some d => ((d, {}) : Tensor S × Calls S)
        | none => (model.RunDecoder (BuildDecoderInput model r),
            { decoder := [BuildDecoderInput model r] })).2).joiner = [] := by
      cases r.decoder_out <;> rfl
    dsimp only
    rw [hstart, hjoin, List.nil_append]
    apply List.map_congr_left
    intro t _
    rw [hinv]
    rfl
  · unfold DecodeTraced
    dsimp only
    rw [framesTraced_decoder]
    dsimp only
    unfold emissions numFrames initialDecoderOut
    cases r.decoder_out with
    | none => simp; omega
    | some d => simp
  · unfold Decode
    dsimp only
    have := hinv (List.range (encoder_out.shape.getD 1 0))
    unfold initialDecoderOut at this
    rw [this]
    rfl

/-- Witness of C22: `Demo.model` on the chunk `[0, 0, 7, 0]` from the empty result,
whose `decoder_out` is null: four joiner calls and two `RunDecoder` calls, one at
entry and one for the token emitted at frame `2`. -/
theorem greedy_decoder_cache_witness :
    (GetEmptyResult Demo.model : DecoderResult Int Nat).decoder_out = none ∧
    (DecodeTraced Demo.model (Demo.chunk [0, 0, 7, 0])
        (GetEmptyResult Demo.model : DecoderResult Int Nat)).2
      = { decoder := [{ shape := [1, 2], data := [0, 0] }, { shape := [1, 2], data := [0, 7] }]
          joiner :=
            [({ shape := [1, 1], data := [0] }, { shape := [1, 1], data := [0] }),
             ({ shape := [1, 1], data := [0] }, { shape := [1, 1], data := [0] }),
             ({ shape := [1, 1], data := [7] }, { shape := [1, 1], data := [0] }),
             ({ shape := [1, 1], data := [0] }, { shape := [1, 1], data := [7] })] } ∧
    (DecodeTraced Demo.model (Demo.chunk [0, 0, 7, 0])
        (GetEmptyResult Demo.model : DecoderResult Int Nat)).2.decoder.length
      = (emissions Demo.model (Demo.chunk [0, 0, 7, 0])
          (GetEmptyResult Demo.model : DecoderResult Int Nat)).length + 1 ∧
    Demo.greedyResult.decoder_out
      = some (Demo.model.RunDecoder { shape := [1, 2], data := [0, 7] }) :=
  ⟨rfl, by decide,
    (greedy_decoder_cache Demo.model (Demo.chunk [0, 0, 7, 0])
      (GetEmptyResult Demo.model : DecoderResult Int Nat) (Or.inl rfl)).2.2.1,
    by decide⟩

end GreedySearchDecoder

/-! ## Greedy search: timestamps -/

namespace GreedySearchDecoder

variable {S C : Type} [LT S] [DecidableRel (fun a b : S => a < b)]

theorem timeInv_decodeFrame (model : Model S) (encoder_out : Tensor S) (frame_offset : Int)
    (st : DecoderResult S C × Tensor S) (t : Nat) (hf : 0 ≤ frame_offset)
    (h : TimeInv (frame_offset + (t : Int)) st.1) :
    TimeInv (frame_offset + ((t + 1 : Nat) : Int))
      (DecodeFrame model encoder_out frame_offset st t).1 := by
  obtain ⟨hsorted, hrange, hblank⟩ := h
  unfold DecodeFrame
  dsimp only
  split
  · refine ⟨?_, ?_, ?_⟩
    · rw [List.pairwise_append]
      refine ⟨hsorted, List.pairwise_singleton _ _, ?_⟩
      intro x hx y hy
      rw [List.mem_singleton] at hy
      have := (hrange x hx).2
      omega
    · intro x hx
      rcases List.mem_append.mp hx with hx | hx
      · have := hrange x hx
        constructor <;> omega
      · rw [List.mem_singleton] at hx
        constructor <;> omega
    · show (0 : Int) ≤ _
      omega
  · refine ⟨hsorted, ?_, ?_⟩
    · intro x hx
      have := hrange x hx
      constructor <;> omega
    · show st.1.num_trailing_blanks + 1 ≤ _
      omega

theorem timeInv_frames (model : Model S) (encoder_out : Tensor S) (frame_offset : Int)
    (hf : 0 ≤ frame_offset) (m : Nat) :
    ∀ (a : Nat) (st : DecoderResult S C × Tensor S),
      TimeInv (frame_offset + (a : Int)) st.1 →
      TimeInv (frame_offset + ((a + m : Nat) : Int))
        ((List.range' a m).foldl (DecodeFrame model encoder_out frame_offset) st).1 := by
  induction m with
  | zero => intro a st h; exact h
  | succ m ih =>
    intro a st h
    rw [List.range'_succ, List.foldl_cons]
    have := ih (a + 1) _ (timeInv_decodeFrame model encoder_out frame_offset st a hf h)
    rw [show a + 1 + m = a + (m + 1) by omega] at this
    exact this

theorem timeInv_decode (model : Model S) (encoder_out : Tensor S) (r : DecoderResult S C)
    (hf : 0 ≤ r.frame_offset) (h : TimeInv r.frame_offset r) :
    0 ≤ (Decode model encoder_out r).frame_offset ∧
      TimeInv (Decode model encoder_out r).frame_offset (Decode model encoder_out r) := by
  have hfo := frameOffset_decode model encoder_out r
  have hrun := timeInv_frames model encoder_out r.frame_offset hf (numFrames encoder_out) 0
    (r, initialDecoderOut model r) (by simpa using h)
  rw [← List.range_eq_range', Nat.zero_add] at hrun
  refine ⟨by omega, ?_⟩
  rw [hfo]
  exact hrun

/-- C30. Greedy timestamps are strictly increasing: in every result reachable from
`GetEmptyResult` by `Decode` calls, `timestamps` is strictly increasing, every
entry is `>= 0` and `< frame_offset`, and `num_trailing_blanks <= frame_offset`. -/
theorem greedy_timestamps_increasing (model : Model S) (r : DecoderResult S C)
    (h : Reachable model r) :
    r.timestamps.Pairwise (fun x y => x < y) ∧
    (∀ x ∈ r.timestamps, 0 ≤ x ∧ x < r.frame_offset) ∧
    r.num_trailing_blanks ≤ r.frame_offset := by
  have key : 0 ≤ r.frame_offset ∧ TimeInv r.frame_offset r := by
    induction h with
    | empty =>
      refine ⟨le_refl _, ?_, ?_, le_refl _⟩
      · exact List.Pairwise.nil
      · intro x hx
        cases hx
    | decode encoder_out r _ ih => exact timeInv_decode model encoder_out r ih.1 ih.2
  exact key.2

/-- Witness of C30 on the result of the two chunks `[0, 0, 7, 0]` and `[5, 0]`:
timestamps `[2, 4]`, frame offset `6`, one trailing blank. -/
theorem greedy_timestamps_increasing_witness :
    Reachable Demo.model
      (Decode Demo.model (Demo.chunk [5, 0]) Demo.greedyResult) ∧
    (Decode Demo.model (Demo.chunk [5, 0]) Demo.greedyResult).timestamps = [2, 4] ∧
    (Decode Demo.model (Demo.chunk [5, 0]) Demo.greedyResult).frame_offset = 6 ∧
    (Decode Demo.model (Demo.chunk [5, 0]) Demo.greedyResult).num_trailing_blanks = 1 ∧
    (Decode Demo.model (Demo.chunk [5, 0]) Demo.greedyResult).timestamps.Pairwise
      (fun x y => x < y) :=
  ⟨Reachable.decode _ _ (Reachable.decode _ _ Reachable.empty), by decide, by decide, by decide,
    (greedy_timestamps_increasing Demo.model
      (Decode Demo.model (Demo.chunk [5, 0]) Demo.greedyResult)
      (Reachable.decode _ _ (Reachable.decode _ _ Reachable.empty))).1⟩

end GreedySearchDecoder

/-! ## Token sequences keep the pad -/

theorem length_lastN {α : Type} (n : Nat) (l : List α) (h : n ≤ l.length) :
    (lastN n l).length = n := by
  unfold lastN
  rw [List.length_drop]
  omega

/-- C29. Token sequences never shrink below the pad: every greedy result reachable
from `GetEmptyResult` by `Decode` calls has `len(tokens) >= context_size`, also at
every frame inside a further `Decode` call, and every hypothesis of a reachable
beam result has `len(ys) >= context_size`, also at every frame inside a further
`Decode` call; so `BuildDecoderInput` reads exactly `context_size` tokens that
exist and the offset `begin() + context_size` of `StripLeadingBlanks` lies inside
the sequence. -/
theorem tokens_keep_pad {S C : Type} [Zero S] [Add S] [LT S]
    [DecidableRel (fun a b : S => a < b)] (backend : Backend) (ops : MathOps S)
    (model : Model S) (num_active_paths_ : Nat) (rg rb : DecoderResult S C)
    (hg : GreedySearchDecoder.Reachable model rg)
    (hb : ModifiedBeamSearchDecoder.Reachable backend ops model num_active_paths_ rb) :
    (model.ContextSize ≤ rg.tokens.length ∧
      (GreedySearchDecoder.BuildDecoderInput model rg).data.length = model.ContextSize ∧
      (GreedySearchDecoder.StripLeadingBlanks model rg).tokens.length
        = rg.tokens.length - model.ContextSize ∧
      ∀ (encoder_out : Tensor S) (t : Nat),
        model.ContextSize
            ≤ (GreedySearchDecoder.running model encoder_out rg t).1.tokens.length ∧
          (GreedySearchDecoder.BuildDecoderInput model
              (GreedySearchDecoder.running model encoder_out rg t).1).data.length
            = model.ContextSize) ∧
    ((∀ hyp ∈ rb.hyps.hyps_dict, model.ContextSize ≤ hyp.ys.length ∧
        (lastN model.ContextSize hyp.ys).length = model.ContextSize) ∧
      model.ContextSize ≤ rb.tokens.length ∧
      (∃ (hyp : Hypothesis S C) (r' : DecoderResult S C),
        rb.hyps.GetMostProbable true = some hyp ∧ model.ContextSize ≤ hyp.ys.length ∧
        ModifiedBeamSearchDecoder.StripLeadingBlanks model rb = some r' ∧
        r'.tokens.length = hyp.ys.length - model.ContextSize) ∧
      ∀ (encoder_out : Tensor S) (graph : Option (ContextGraph S C)) (t : Nat)
        (st : Hypotheses S C × DecoderResult S C),
        ModifiedBeamSearchDecoder.DecodeFrames backend ops model num_active_paths_ encoder_out
          graph (List.range t) (rb.hyps, { rb with hyps := ⟨[]⟩ }) = some st →
        ∀ hyp ∈ st.1.hyps_dict, model.ContextSize ≤ hyp.ys.length ∧
          (lastN model.ContextSize hyp.ys).length = model.ContextSize) := by
  have hpad := GreedySearchDecoder.padInv_of_reachable model rg hg
  have hlen : model.ContextSize ≤ rg.tokens.length := by
    have := hpad.1
    omega
  obtain ⟨hq, hyp, hbest⟩ :=
    ModifiedBeamSearchDecoder.padLength_of_reachable backend ops model num_active_paths_ rb hb
  have hpub :=
    ModifiedBeamSearchDecoder.published_of_reachable backend ops model num_active_paths_ rb hb
  refine ⟨⟨hlen, length_lastN _ _ hlen, ?_, ?_⟩, ⟨?_, ?_, ?_, ?_⟩⟩
  · simp only [GreedySearchDecoder.StripLeadingBlanks, List.length_drop]
  · intro encoder_out t
    have hrun := GreedySearchDecoder.padInv_frames model encoder_out rg.frame_offset
      model.ContextSize (List.range t) (rg, GreedySearchDecoder.initialDecoderOut model rg) hpad
    have hrun1 : model.ContextSize
        ≤ (GreedySearchDecoder.running model encoder_out rg t).1.tokens.length := by
      have := hrun.1
      unfold GreedySearchDecoder.running
      omega
    exact ⟨hrun1, length_lastN _ _ hrun1⟩
  · intro e he
    have := hq e he
    have hle : model.ContextSize ≤ e.ys.length := by omega
    exact ⟨hle, length_lastN _ _ hle⟩
  · obtain ⟨best, hb1, htok, _⟩ := hpub
    have := hq best (Hypotheses.mem_of_GetMostProbable _ true best hb1)
    rw [htok]
    omega
  · have hmem := hq hyp (Hypotheses.mem_of_GetMostProbable _ true hyp hbest)
    refine ⟨hyp, { rb with
        tokens := hyp.ys.drop model.ContextSize
        timestamps := hyp.timestamps
        num_trailing_blanks := hyp.num_trailing_blanks }, hbest, by omega, ?_, ?_⟩
    · simp only [ModifiedBeamSearchDecoder.StripLeadingBlanks, hbest]
    · simp only [List.length_drop]
  · intro encoder_out graph t st hframes e he
    have hst := (ModifiedBeamSearchDecoder.decodeFrames_spec
      (fun ys ts => ys.length = model.ContextSize + ts.length)
      (fun ys ts k x _ _ hq => by simp only [List.length_append, List.length_singleton]; omega)
      backend ops model num_active_paths_ encoder_out graph (List.range t) _ st hframes hq).1 e he
    have hle : model.ContextSize ≤ e.ys.length := by omega
    exact ⟨hle, length_lastN _ _ hle⟩

/-- Witness of C29 on `Demo.greedyResult` and `Demo.beamExpected`, both with the
tokens `[0, 0, 7]` and `context_size = 2`. -/
theorem tokens_keep_pad_witness :
    GreedySearchDecoder.Reachable Demo.model Demo.greedyResult ∧
    ModifiedBeamSearchDecoder.Reachable Backend.mnn Demo.ops Demo.model 2 Demo.beamExpected ∧
    Demo.model.ContextSize ≤ Demo.greedyResult.tokens.length ∧
    (∀ hyp ∈ Demo.beamExpected.hyps.hyps_dict, Demo.model.ContextSize ≤ hyp.ys.length ∧
      (lastN Demo.model.ContextSize hyp.ys).length = Demo.model.ContextSize) :=
  ⟨GreedySearchDecoder.Reachable.decode _ _ GreedySearchDecoder.Reachable.empty,
    ModifiedBeamSearchDecoder.Reachable.decode (Demo.chunk [0, 0, 7, 0]) none _ _
      ModifiedBeamSearchDecoder.Reachable.empty (by decide),
    (tokens_keep_pad Backend.mnn Demo.ops Demo.model 2 Demo.greedyResult Demo.beamExpected
      (GreedySearchDecoder.Reachable.decode _ _ GreedySearchDecoder.Reachable.empty)
      (ModifiedBeamSearchDecoder.Reachable.decode (Demo.chunk [0, 0, 7, 0]) none _ _
        ModifiedBeamSearchDecoder.Reachable.empty (by decide))).1.1,
    (tokens_keep_pad Backend.mnn Demo.ops Demo.model 2 Demo.greedyResult Demo.beamExpected
      (GreedySearchDecoder.Reachable.decode _ _ GreedySearchDecoder.Reachable.empty)
      (ModifiedBeamSearchDecoder.Reachable.decode (Demo.chunk [0, 0, 7, 0]) none _ _
        ModifiedBeamSearchDecoder.Reachable.empty (by decide))).2.1⟩

/-! ## Buffers laid out in blocks of equal length -/

theorem length_slice {α : Type} (l : List α) (start len : Nat) (h : start + len ≤ l.length) :
    (slice l start len).length = len := by
  unfold slice
  rw [List.length_take, List.length_drop]
  omega

theorem slice_slice {α : Type} (l : List α) (a n b m : Nat) (h : b + m ≤ n) :
    slice (slice l a n) b m = slice l (a + b) m := by
  unfold slice
  rw [List.drop_take, List.drop_drop, List.take_take, Nat.min_eq_left (by omega)]

theorem flatMap_drop_blocks {α β : Type} (f : β → List α) (w : Nat) (l : List β) :
    ∀ y : Nat, (∀ x ∈ l, (f x).length = w) →
      (l.flatMap f).drop (y * w) = (l.drop y).flatMap f := by
  induction l with
  | nil => intro y _; simp
  | cons a l ih =>
    intro y hf
    cases y with
    | zero => simp
    | succ y =>
      have ha : (f a).length = w := hf a (List.mem_cons_self a l)
      rw [List.flatMap_cons, List.drop_succ_cons,
        show (y + 1) * w = (f a).length + y * w by rw [ha, Nat.succ_mul, Nat.add_comm],
        List.drop_append]
      exact ih y (fun x hx => hf x (List.mem_cons_of_mem a hx))

/-- Reading inside block `y` of a buffer made of blocks of length `w`. -/
theorem slice_flatMap_blocks {α β : Type} (f : β → List α) (w : Nat) (l : List β)
    (hf : ∀ x ∈ l, (f x).length = w) (y : Nat) (hy : y < l.length) (off n : Nat)
    (hn : off + n ≤ w) (rest : List α) :
    slice (l.flatMap f ++ rest) (y * w + off) n = slice (f l[y]) off n := by
  have hlen : (f l[y]).length = w := hf _ (List.getElem_mem hy)
  have hsum : ∀ (k : List β), (∀ x ∈ k, (f x).length = w) →
      (k.map (List.length ∘ f)).sum = k.length * w := by
    intro k
    induction k with
    | nil => intro _; simp
    | cons a k ihk =>
      intro hk
      rw [List.map_cons, List.sum_cons, ihk (fun x hx => hk x (List.mem_cons_of_mem a hx)),
        List.length_cons, Nat.succ_mul, Nat.add_comm]
      congr 1
      exact hk a (List.mem_cons_self a k)
  have htotal : y * w ≤ (l.flatMap f).length := by
    rw [List.length_flatMap, hsum l hf]
    exact Nat.mul_le_mul_right w (Nat.le_of_lt hy)
  unfold slice
  rw [← List.drop_drop, List.drop_append_of_le_length htotal, flatMap_drop_blocks f w l y hf,
    List.drop_eq_getElem_cons hy, List.flatMap_cons, List.append_assoc,
    List.drop_append_of_le_length (by omega),
    List.take_append_of_le_length (by rw [List.length_drop]; omega)]

/-! ## Greedy search: splitting a chunk -/

/-- A frame of the concatenation is the frame of the part it falls into. -/
theorem getEncoderOutFrame_concatFrames {S : Type} (a b : Tensor S) (batch fa fb dim : Nat)
    (ha : a.shape = [batch, fa, dim]) (hb : b.shape = [batch, fb, dim])
    (had : a.data.length = batch * (fa * dim)) (hbd : b.data.length = batch * (fb * dim))
    (t : Nat) :
    (t < fa → GetEncoderOutFrame (concatFrames a b) t = GetEncoderOutFrame a t) ∧
    (t < fb → GetEncoderOutFrame (concatFrames a b) (fa + t) = GetEncoderOutFrame b t) := by
  have hblockA : ∀ i : Nat, i < batch →
      (slice a.data (i * (fa * dim)) (fa * dim)).length = fa * dim := by
    intro i hi
    apply length_slice
    rw [had]
    calc i * (fa * dim) + fa * dim = (i + 1) * (fa * dim) := by rw [Nat.succ_mul]
      _ ≤ batch * (fa * dim) := Nat.mul_le_mul_right _ hi
  have hblockB : ∀ i : Nat, i < batch →
      (slice b.data (i * (fb * dim)) (fb * dim)).length = fb * dim := by
    intro i hi
    apply length_slice
    rw [hbd]
    calc i * (fb * dim) + fb * dim = (i + 1) * (fb * dim) := by rw [Nat.succ_mul]
      _ ≤ batch * (fb * dim) := Nat.mul_le_mul_right _ hi
  have hblock : ∀ x ∈ List.range batch,
      (slice a.data (x * (fa * dim)) (fa * dim)
        ++ slice b.data (x * (fb * dim)) (fb * dim)).length = (fa + fb) * dim := by
    intro x hx
    rw [List.mem_range] at hx
    rw [List.length_append, hblockA x hx, hblockB x hx, Nat.add_mul]
  have hread : ∀ (i : Nat) (hi : i < batch) (off : Nat), off + dim ≤ (fa + fb) * dim →
      slice ((List.range batch).flatMap fun i =>
          slice a.data (i * (fa * dim)) (fa * dim)
            ++ slice b.data (i * (fb * dim)) (fb * dim))
        (i * ((fa + fb) * dim) + off) dim
      = slice (slice a.data (i * (fa * dim)) (fa * dim)
          ++ slice b.data (i * (fb * dim)) (fb * dim)) off dim := by
    intro i hi off hoff
    have h := slice_flatMap_blocks (fun i => slice a.data (i * (fa * dim)) (fa * dim)
        ++ slice b.data (i * (fb * dim)) (fb * dim)) ((fa + fb) * dim) (List.range batch)
      hblock i (by rw [List.length_range]; exact hi) off dim hoff []
    rw [List.append_nil, List.getElem_range] at h
    exact h
  constructor
  · intro ht
    unfold GetEncoderOutFrame concatFrames
    simp only [ha, hb, List.getD_cons_zero, List.getD_cons_succ]
    congr 1
    apply List.flatMap_congr
    intro i hi
    rw [List.mem_range] at hi
    have hle : t * dim + dim ≤ fa * dim := by
      calc t * dim + dim = (t + 1) * dim := by rw [Nat.succ_mul]
        _ ≤ fa * dim := Nat.mul_le_mul_right _ ht
    rw [hread i hi (t * dim) (by rw [Nat.add_mul]; omega)]
    unfold slice
    rw [List.drop_append_of_le_length (by rw [← slice, hblockA i hi]; omega),
      List.take_append_of_le_length
        (by rw [List.length_drop, ← slice, hblockA i hi]; omega)]
    exact slice_slice a.data _ _ _ _ hle
  · intro ht
    unfold GetEncoderOutFrame concatFrames
    simp only [ha, hb, List.getD_cons_zero, List.getD_cons_succ]
    congr 1
    apply List.flatMap_congr
    intro i hi
    rw [List.mem_range] at hi
    have hle : t * dim + dim ≤ fb * dim := by
      calc t * dim + dim = (t + 1) * dim := by rw [Nat.succ_mul]
        _ ≤ fb * dim := Nat.mul_le_mul_right _ ht
    rw [hread i hi ((fa + t) * dim) (by rw [Nat.add_mul, Nat.add_mul]; omega)]
    unfold slice
    rw [Nat.add_mul,
      show fa * dim + t * dim
        = (List.take (fa * dim) (List.drop (i * (fa * dim)) a.data)).length + t * dim by
          rw [← slice, hblockA i hi],
      List.drop_append]
    exact slice_slice b.data _ _ _ _ hle

namespace GreedySearchDecoder

variable {S C : Type} [LT S] [DecidableRel (fun a b : S => a < b)]

/-- The frame loop reads `encoder_out` only through the frame it is at, the frame
index only through `t + frame_offset`, and never reads `frame_offset` or
`decoder_out` of `*result`. -/
theorem decodeFrame_rebase (model : Model S) (e1 e2 : Tensor S) (f1 f2 : Int) (t1 t2 : Nat)
    (he : GetEncoderOutFrame e1 t1 = GetEncoderOutFrame e2 t2)
    (ht : (t1 : Int) + f1 = (t2 : Int) + f2) (fo : Int) (d : Option (Tensor S))
    (st : DecoderResult S C × Tensor S) :
    DecodeFrame model e2 f2 (rebase fo d st) t2 = rebase fo d (DecodeFrame model e1 f1 st t1) := by
  unfold DecodeFrame rebase
  dsimp only
  rw [he, ht]
  split <;> rfl

theorem frames_rebase (model : Model S) (e1 e2 : Tensor S) (f1 f2 : Int) (k : Nat)
    (fo : Int) (d : Option (Tensor S)) (m : Nat)
    (he : ∀ t : Nat, t < m → GetEncoderOutFrame e1 (k + t) = GetEncoderOutFrame e2 t)
    (hf : f2 = f1 + (k : Int)) (m' : Nat) :
    ∀ (a : Nat) (st : DecoderResult S C × Tensor S), a + m' ≤ m →
      (List.range' a m').foldl (DecodeFrame model e2 f2) (rebase fo d st)
        = rebase fo d ((List.range' (k + a) m').foldl (DecodeFrame model e1 f1) st) := by
  induction m' with
  | zero => intro a st _; rfl
  | succ m' ih =>
    intro a st ha
    rw [List.range'_succ, List.range'_succ, List.foldl_cons, List.foldl_cons,
      decodeFrame_rebase model e1 e2 f1 f2 (k + a) a (he a (by omega))
        (by push_cast; omega) fo d st]
    exact ih (a + 1) _ (by omega)

theorem frames_congr (model : Model S) (e1 e2 : Tensor S) (f : Int) (ts : List Nat)
    (he : ∀ t ∈ ts, GetEncoderOutFrame e1 t = GetEncoderOutFrame e2 t) :
    ∀ st : DecoderResult S C × Tensor S,
      ts.foldl (DecodeFrame model e1 f) st = ts.foldl (DecodeFrame model e2 f) st := by
  induction ts with
  | nil => intro st; rfl
  | cons t ts ih =>
    intro st
    have hstep : DecodeFrame model e1 f st t = DecodeFrame model e2 f st t := by
      unfold DecodeFrame
      dsimp only
      rw [he t (List.mem_cons_self t ts)]
    rw [List.foldl_cons, List.foldl_cons, hstep]
    exact ih (fun u hu => he u (List.mem_cons_of_mem t hu)) _

/-- C27. Chunk-split equivalence (greedy): for every result `r` and every encoder
output that is the concatenation along the frame axis of the parts `a` and `b`,
`Decode` on the whole chunk yields the same result (`tokens`, `timestamps`,
`num_trailing_blanks`, `frame_offset`, `decoder_out`, and `hyps`) as `Decode` on `a`
followed by `Decode` on `b`. -/
theorem greedy_chunk_split (model : Model S) (a b : Tensor S) (batch fa fb dim : Nat)
    (ha : a.shape = [batch, fa, dim]) (hb : b.shape = [batch, fb, dim])
    (had : a.data.length = batch * (fa * dim)) (hbd : b.data.length = batch * (fb * dim))
    (r : DecoderResult S C) :
    Decode model (concatFrames a b) r = Decode model b (Decode model a r) := by
  have hfr := getEncoderOutFrame_concatFrames a b batch fa fb dim ha hb had hbd
  have hna : a.shape.getD 1 0 = fa := by rw [ha]; rfl
  have hnb : b.shape.getD 1 0 = fb := by rw [hb]; rfl
  have hnc : (concatFrames a b).shape.getD 1 0 = fa + fb := by
    unfold concatFrames
    simp only [ha, hb, List.getD_cons_zero, List.getD_cons_succ]
  have hfirst : (List.range fa).foldl (DecodeFrame model (concatFrames a b) r.frame_offset)
        (r, initialDecoderOut model r)
      = (List.range fa).foldl (DecodeFrame model a r.frame_offset)
        (r, initialDecoderOut model r) :=
    frames_congr model _ _ _ _ (fun t ht => (hfr t).1 (List.mem_range.mp ht)) _
  have hsecond := frames_rebase model (concatFrames a b) b r.frame_offset
    (r.frame_offset + (fa : Int)) fa (r.frame_offset + (fa : Int))
    (some ((List.range fa).foldl (DecodeFrame model a r.frame_offset)
      (r, initialDecoderOut model r)).2) fb (fun t ht => (hfr t).2 ht) rfl fb 0
    ((List.range fa).foldl (DecodeFrame model a r.frame_offset) (r, initialDecoderOut model r))
    (by omega)
  have hfo := frameOffset_frames model a r.frame_offset (List.range fa)
    (r, initialDecoderOut model r)
  have hleft : Decode model (concatFrames a b) r
      = { ((List.range (fa + fb)).foldl (DecodeFrame model (concatFrames a b) r.frame_offset)
            (r, initialDecoderOut model r)).1 with
          frame_offset :=
            ((List.range (fa + fb)).foldl (DecodeFrame model (concatFrames a b) r.frame_offset)
              (r, initialDecoderOut model r)).1.frame_offset + ((fa + fb : Nat) : Int)
          decoder_out := some
            ((List.range (fa + fb)).foldl (DecodeFrame model (concatFrames a b) r.frame_offset)
              (r, initialDecoderOut model r)).2 } := by
    unfold Decode
    dsimp only
    rw [hnc]
    rfl
  have hright : Decode model b (Decode model a r)
      = { ((List.range fb).foldl (DecodeFrame model b (r.frame_offset + (fa : Int)))
            (rebase (r.frame_offset + (fa : Int))
              (some ((List.range fa).foldl (DecodeFrame model a r.frame_offset)
                (r, initialDecoderOut model r)).2)
              ((List.range fa).foldl (DecodeFrame model a r.frame_offset)
                (r, initialDecoderOut model r)))).1 with
          frame_offset :=
            ((List.range fb).foldl (DecodeFrame model b (r.frame_offset + (fa : Int)))
              (rebase (r.frame_offset + (fa : Int))
                (some ((List.range fa).foldl (DecodeFrame model a r.frame_offset)
                  (r, initialDecoderOut model r)).2)
                ((List.range fa).foldl (DecodeFrame model a r.frame_offset)
                  (r, initialDecoderOut model r)))).1.frame_offset + (fb : Int)
          decoder_out := some
            ((List.range fb).foldl (DecodeFrame model b (r.frame_offset + (fa : Int)))
              (rebase (r.frame_offset + (fa : Int))
                (some ((List.range fa).foldl (DecodeFrame model a r.frame_offset)
                  (r, initialDecoderOut model r)).2)
                ((List.range fa).foldl (DecodeFrame model a r.frame_offset)
                  (r, initialDecoderOut model r)))).2 } := by
    have hA : Decode model a r
        = (rebase (r.frame_offset + (fa : Int))
            (some ((List.range fa).foldl (DecodeFrame model a r.frame_offset)
              (r, initialDecoderOut model r)).2)
            ((List.range fa).foldl (DecodeFrame model a r.frame_offset)
              (r, initialDecoderOut model r))).1 := by
      unfold Decode rebase
      dsimp only
      rw [hna]
      unfold initialDecoderOut at hfo
      rw [hfo]
      rfl
    rw [hA]
    unfold Decode
    dsimp only
    rw [hnb]
    rfl
  have hsplit : List.range (fa + fb) = List.range fa ++ List.range' fa fb := by
    rw [List.range_eq_range', List.range_eq_range', Nat.add_comm fa fb,
      ← List.range'_append_1 0 fa fb, Nat.zero_add]
  have hwhole : (List.range (fa + fb)).foldl (DecodeFrame model (concatFrames a b) r.frame_offset)
        (r, initialDecoderOut model r)
      = (List.range' fa fb).foldl (DecodeFrame model (concatFrames a b) r.frame_offset)
          ((List.range fa).foldl (DecodeFrame model a r.frame_offset)
            (r, initialDecoderOut model r)) := by
    rw [hsplit, List.foldl_append, hfirst]
  have hfo2 := frameOffset_frames model (concatFrames a b) r.frame_offset (List.range' fa fb)
    ((List.range fa).foldl (DecodeFrame model a r.frame_offset) (r, initialDecoderOut model r))
  rw [Nat.add_zero, ← List.range_eq_range'] at hsecond
  rw [hleft, hright, hwhole, hsecond]
  unfold rebase
  dsimp only
  rw [hfo2, hfo]
  congr 1
  push_cast
  ring

/-- Witness of C27: the chunk `[0, 0, 7, 0]` of `Demo.model` split into `[0, 0, 7]`
and `[0]`. -/
theorem greedy_chunk_split_witness :
    (Demo.chunk [0, 0, 7]).shape = [1, 3, 1] ∧ (Demo.chunk [0]).shape = [1, 1, 1] ∧
    (Demo.chunk [0, 0, 7]).data.length = 1 * (3 * 1) ∧
    (Demo.chunk [0]).data.length = 1 * (1 * 1) ∧
    concatFrames (Demo.chunk [0, 0, 7]) (Demo.chunk [0]) = Demo.chunk [0, 0, 7, 0] ∧
    Decode Demo.model (concatFrames (Demo.chunk [0, 0, 7]) (Demo.chunk [0]))
        (GetEmptyResult Demo.model : DecoderResult Int Nat)
      = Decode Demo.model (Demo.chunk [0])
          (Decode Demo.model (Demo.chunk [0, 0, 7])
            (GetEmptyResult Demo.model : DecoderResult Int Nat)) :=
  ⟨rfl, rfl, rfl, rfl, by decide,
    greedy_chunk_split Demo.model (Demo.chunk [0, 0, 7]) (Demo.chunk [0]) 1 3 1 1 rfl rfl rfl rfl
      (GetEmptyResult Demo.model : DecoderResult Int Nat)⟩

end GreedySearchDecoder

/-! ## Beam search: the beam width -/

namespace Hypotheses

variable {S C : Type} [LT S] [DecidableRel (fun a b : S => a < b)]

theorem length_addEntry_le (ops : MathOps S) (hyp : Hypothesis S C)
    (l : List (Hypothesis S C)) : (addEntry ops hyp l).length ≤ l.length + 1 := by
  induction l with
  | nil => simp [addEntry]
  | cons e rest ih =>
    unfold addEntry
    split
    · simp
    · simp only [List.length_cons]
      omega

theorem length_AddAll_le (ops : MathOps S) (hyps : List (Hypothesis S C)) :
    ∀ self : Hypotheses S C,
      (self.AddAll ops hyps).hyps_dict.length ≤ self.hyps_dict.length + hyps.length := by
  induction hyps with
  | nil => intro self; simp [AddAll]
  | cons x xs ih =>
    intro self
    unfold AddAll
    rw [List.foldl_cons]
    have h1 := ih (self.Add ops x)
    have h2 := length_addEntry_le ops x self.hyps_dict
    unfold AddAll at h1
    simp only [Hypotheses.Add, List.length_cons] at h1 ⊢
    omega

theorem length_GetTopK_le (self : Hypotheses S C) (k : Nat) (b : Bool) :
    (self.GetTopK k b).length ≤ k := by
  unfold GetTopK
  exact List.length_take_le k _

end Hypotheses

namespace ModifiedBeamSearchDecoder

variable {S C : Type} [Zero S] [Add S] [LT S] [DecidableRel (fun a b : S => a < b)]

/-- One frame of `Decode`, part by part: the top paths `prev`, the prediction-network
output, the scores, the selection and the expansion of the selected pairs. -/
theorem decodeFrame_unfold (backend : Backend) (ops : MathOps S) (model : Model S)
    (num_active_paths_ : Nat) (encoder_out : Tensor S) (graph : Option (ContextGraph S C))
    (st : Hypotheses S C × DecoderResult S C) (t : Nat) :
    DecodeFrame backend ops model num_active_paths_ encoder_out graph st t
      = (predictionOut model (st.1.GetTopK num_active_paths_ true) st.2 t).bind fun decoder_out =>
          (addPrevLogProb (st.1.GetTopK num_active_paths_ true)
            (joinerScores ops model encoder_out t decoder_out)).bind fun p_joiner_out =>
            (expand ops graph (st.1.GetTopK num_active_paths_ true) p_joiner_out
              ((joinerScores ops model encoder_out t decoder_out).shape.getD 1 0) t
              st.2.frame_offset
              (selection ops (joinerScores ops model encoder_out t decoder_out) p_joiner_out
                num_active_paths_)
              st.1.Clear).map fun cur =>
              (cur, resultAfterReuse backend
                (fastPath model (st.1.GetTopK num_active_paths_ true) st.2 t) st.2) := by
  unfold DecodeFrame predictionOut joinerScores selection frameSlice
  dsimp only
  rw [frameOffset_resultAfterReuse]
  cases fastPath model (st.1.GetTopK num_active_paths_ true) st.2 t with
  | some d =>
    dsimp only [Option.bind]
    split
    · rename_i h1; rw [h1]
    · rename_i pj h1
      rw [h1]
      dsimp only
      split
      · rename_i h2; rw [h2]; rfl
      · rename_i cur h2; rw [h2]; rfl
  | none =>
    dsimp only
    cases RunDecoder2D model (BuildDecoderInput model (st.1.GetTopK num_active_paths_ true)) with
    | none => rfl
    | some d =>
      dsimp only [Option.bind]
      split
      · rename_i h1; rw [h1]
      · rename_i pj h1
        rw [h1]
        dsimp only
        split
        · rename_i h2; rw [h2]; rfl
        · rename_i cur h2; rw [h2]; rfl

/-- After a frame the container holds at most as many hypotheses as pairs were
selected. -/
theorem length_decodeFrame_le (backend : Backend) (ops : MathOps S) (model : Model S)
    (num_active_paths_ : Nat) (encoder_out : Tensor S) (graph : Option (ContextGraph S C))
    (hk : ∀ (p : List S) (size : Nat),
      (ops.TopkIndex p size num_active_paths_).length ≤ num_active_paths_)
    (st st' : Hypotheses S C × DecoderResult S C) (t : Nat)
    (h : DecodeFrame backend ops model num_active_paths_ encoder_out graph st t = some st') :
    st'.1.hyps_dict.length ≤ num_active_paths_ := by
  rw [decodeFrame_unfold] at h
  cases hd : predictionOut model (st.1.GetTopK num_active_paths_ true) st.2 t with
  | none => rw [hd] at h; cases h
  | some d =>
    rw [hd] at h
    simp only [Option.some_bind] at h
    cases hp : addPrevLogProb (st.1.GetTopK num_active_paths_ true)
        (joinerScores ops model encoder_out t d) with
    | none => rw [hp] at h; cases h
    | some pj =>
      rw [hp] at h
      simp only [Option.some_bind] at h
      cases he : expand ops graph (st.1.GetTopK num_active_paths_ true) pj
          ((joinerScores ops model encoder_out t d).shape.getD 1 0) t st.2.frame_offset
          (selection ops (joinerScores ops model encoder_out t d) pj num_active_paths_)
          st.1.Clear with
      | none => rw [he] at h; cases h
      | some cur =>
        rw [he] at h
        simp only [Option.map_some', Option.some.injEq] at h
        subst h
        obtain ⟨children, hlen, hc⟩ := expand_eq_AddAll ops graph _ pj _ t _ _ _ _ he
        have hsel : (selection ops (joinerScores ops model encoder_out t d) pj
            num_active_paths_).length ≤ num_active_paths_ := hk _ _
        have hall := Hypotheses.length_AddAll_le ops children st.1.Clear
        rw [← hc] at hall
        simp only [Hypotheses.Clear, List.length_nil] at hall
        dsimp only
        omega

/-- C25. Beam width bound: if the top-k selection returns at most
`num_active_paths` indices, then after every `Decode` call over a chunk with at
least one frame `result.hyps` holds at most `num_active_paths` hypotheses, at every
frame at most `num_active_paths` parent hypotheses are expanded, and after every
frame the container holds at most `num_active_paths` hypotheses. -/
theorem beam_width_bound (backend : Backend) (ops : MathOps S) (model : Model S)
    (num_active_paths_ : Nat) (encoder_out : Tensor S) (s : Option (Stream S C))
    (r r' : DecoderResult S C)
    (hk : ∀ (p : List S) (size : Nat),
      (ops.TopkIndex p size num_active_paths_).length ≤ num_active_paths_)
    (hn : 1 ≤ numFrames encoder_out)
    (h : Decode backend ops model num_active_paths_ encoder_out s r = some r') :
    r'.hyps.hyps_dict.length ≤ num_active_paths_ ∧
    ∀ (t : Nat) (st : Hypotheses S C × DecoderResult S C),
      DecodeFrames backend ops model num_active_paths_ encoder_out
        (s.bind fun x => x.context_graph) (List.range t) (r.hyps, { r with hyps := ⟨[]⟩ })
          = some st →
      (st.1.GetTopK num_active_paths_ true).length ≤ num_active_paths_ ∧
      (1 ≤ t → st.1.hyps_dict.length ≤ num_active_paths_) := by
  have hframes : ∀ (t : Nat) (st : Hypotheses S C × DecoderResult S C), 1 ≤ t →
      DecodeFrames backend ops model num_active_paths_ encoder_out
        (s.bind fun x => x.context_graph) (List.range t) (r.hyps, { r with hyps := ⟨[]⟩ })
          = some st →
      st.1.hyps_dict.length ≤ num_active_paths_ := by
    intro t st ht hst
    obtain ⟨k, rfl⟩ : ∃ k, t = k + 1 := ⟨t - 1, by omega⟩
    rw [List.range_succ, decodeFrames_append] at hst
    cases hpre : DecodeFrames backend ops model num_active_paths_ encoder_out
        (s.bind fun x => x.context_graph) (List.range k) (r.hyps, { r with hyps := ⟨[]⟩ }) with
    | none => rw [hpre] at hst; cases hst
    | some st0 =>
      rw [hpre] at hst
      simp only [Option.some_bind] at hst
      rw [decodeFrames_cons] at hst
      cases hstep : DecodeFrame backend ops model num_active_paths_ encoder_out
          (s.bind fun x => x.context_graph) st0 k with
      | none => rw [hstep] at hst; cases hst
      | some st1 =>
        rw [hstep] at hst
        simp only [Option.some_bind, DecodeFrames, Option.some.injEq] at hst
        subst hst
        exact length_decodeFrame_le backend ops model num_active_paths_ encoder_out _ hk st0 st1
          k hstep
  refine ⟨?_, fun t st hst => ⟨Hypotheses.length_GetTopK_le _ _ _, fun ht => hframes t st ht hst⟩⟩
  rw [decode_eq_publish] at h
  cases hall : DecodeFrames backend ops model num_active_paths_ encoder_out
      (s.bind fun x => x.context_graph) (List.range (numFrames encoder_out))
      (r.hyps, { r with hyps := ⟨[]⟩ }) with
  | none => rw [hall] at h; cases h
  | some st =>
    rw [hall] at h
    simp only [Option.some_bind] at h
    have hlen := hframes _ st hn hall
    unfold publish at h
    dsimp only at h
    split at h
    · cases h
    · injection h with h
      subst h
      exact hlen

/-- Witness of C25: `Demo.ops` selects one index per frame, within the beam width
`2`; after the chunk `[0, 0, 7, 0]` the container holds one hypothesis. -/
theorem beam_width_bound_witness :
    (∀ (p : List Int) (size : Nat), (Demo.ops.TopkIndex p size 2).length ≤ 2) ∧
    1 ≤ numFrames (Demo.chunk [0, 0, 7, 0]) ∧
    Decode Backend.mnn Demo.ops Demo.model 2 (Demo.chunk [0, 0, 7, 0]) none
      (GetEmptyResult Demo.model : DecoderResult Int Nat) = some Demo.beamExpected ∧
    Demo.beamExpected.hyps.hyps_dict.length ≤ 2 :=
  ⟨fun _ _ => Nat.le_succ 1, by decide, by decide,
    (beam_width_bound Backend.mnn Demo.ops Demo.model 2 (Demo.chunk [0, 0, 7, 0]) none
      (GetEmptyResult Demo.model : DecoderResult Int Nat) Demo.beamExpected
      (fun _ _ => Nat.le_succ 1) (by decide) (by decide)).1⟩

end ModifiedBeamSearchDecoder

/-! ## Beam search: the score of a child -/

theorem getElem?_eq_head?_slice {α : Type} (l : List α) (i : Nat) :
    l[i]? = (slice l i 1).head? := by
  unfold slice
  rw [List.head?_take, if_neg (by omega), List.head?_drop]

theorem slice_zero_length {α : Type} (l : List α) (n : Nat) (h : l.length = n) :
    slice l 0 n = l := by
  unfold slice
  rw [List.drop_zero, ← h, List.take_length]

namespace ModifiedBeamSearchDecoder

variable {S C : Type}

/-- Row `y` of the joiner output after `LogSoftmax`: the log-softmax of row `y`. -/
theorem slice_logSoftmax_row (ops : MathOps S) (x : Tensor S) (y : Nat)
    (hy : y < x.shape.getD 0 0)
    (hbuf : x.shape.getD 0 0 * x.shape.getD 1 0 ≤ x.data.length) :
    slice (LogSoftmax ops x).data (y * x.shape.getD 1 0) (x.shape.getD 1 0)
      = (List.range (x.shape.getD 1 0)).map
          (ops.LogSoftmax (slice x.data (y * x.shape.getD 1 0) (x.shape.getD 1 0))) := by
  have hrow : ∀ z : Nat, z < x.shape.getD 0 0 →
      (slice x.data (z * x.shape.getD 1 0) (x.shape.getD 1 0)).length = x.shape.getD 1 0 := by
    intro z hz
    apply length_slice
    calc z * x.shape.getD 1 0 + x.shape.getD 1 0 = (z + 1) * x.shape.getD 1 0 := by
          rw [Nat.succ_mul]
      _ ≤ x.shape.getD 0 0 * x.shape.getD 1 0 := Nat.mul_le_mul_right _ hz
      _ ≤ x.data.length := hbuf
  have hblocks : ∀ z ∈ List.range (x.shape.getD 0 0),
      ((fun y => (List.range (slice x.data (y * x.shape.getD 1 0) (x.shape.getD 1 0)).length).map
          (ops.LogSoftmax (slice x.data (y * x.shape.getD 1 0) (x.shape.getD 1 0)))) z).length
        = x.shape.getD 1 0 := by
    intro z hz
    rw [List.mem_range] at hz
    simp only [List.length_map, List.length_range]
    exact hrow z hz
  have h := slice_flatMap_blocks
    (fun y => (List.range (slice x.data (y * x.shape.getD 1 0) (x.shape.getD 1 0)).length).map
      (ops.LogSoftmax (slice x.data (y * x.shape.getD 1 0) (x.shape.getD 1 0))))
    (x.shape.getD 1 0) (List.range (x.shape.getD 0 0)) hblocks y
    (by rw [List.length_range]; exact hy) 0 (x.shape.getD 1 0) (by omega)
    (x.data.drop (x.shape.getD 0 0 * x.shape.getD 1 0))
  rw [Nat.add_zero, List.getElem_range] at h
  unfold LogSoftmax
  dsimp only
  rw [h, hrow y hy]
  have hlen : ((List.range (x.shape.getD 1 0)).map
      (ops.LogSoftmax (slice x.data (y * x.shape.getD 1 0) (x.shape.getD 1 0)))).length
        = x.shape.getD 1 0 := by simp
  exact slice_zero_length _ _ hlen

/-- The entry `(y, k)` of the score matrix after the loop that adds the parents'
log-probabilities: the log-softmax of row `y` at `k` plus `prev[y].log_prob`. -/
theorem addPrevLogProb_entry [Add S] (ops : MathOps S) (prev : List (Hypothesis S C))
    (x : Tensor S) (hrows : x.shape.getD 0 0 ≤ prev.length)
    (hbuf : x.shape.getD 0 0 * x.shape.getD 1 0 ≤ x.data.length) :
    ∃ p_joiner_out : List S, addPrevLogProb prev (LogSoftmax ops x) = some p_joiner_out ∧
      ∀ (y k : Nat) (parent : Hypothesis S C), y < x.shape.getD 0 0 → k < x.shape.getD 1 0 →
        prev[y]? = some parent →
        p_joiner_out[y * x.shape.getD 1 0 + k]?
          = some (ops.LogSoftmax (slice x.data (y * x.shape.getD 1 0) (x.shape.getD 1 0)) k
              + parent.log_prob) := by
  have hshape : (LogSoftmax ops x).shape = x.shape := rfl
  refine ⟨_, by unfold addPrevLogProb; rw [hshape]; dsimp only; rw [if_pos hrows], ?_⟩
  intro y k parent hy hk hparent
  have hlenTake : (prev.take (x.shape.getD 0 0)).length = x.shape.getD 0 0 := by
    rw [List.length_take]
    omega
  have hblocks : ∀ ip ∈ (prev.take (x.shape.getD 0 0)).enum,
      ((fun ip : Nat × Hypothesis S C =>
          (slice (LogSoftmax ops x).data (ip.1 * x.shape.getD 1 0) (x.shape.getD 1 0)).map
            fun v => v + ip.2.log_prob) ip).length = x.shape.getD 1 0 := by
    intro ip hip
    have hlt := List.fst_lt_of_mem_enum hip
    rw [hlenTake] at hlt
    simp only [List.length_map]
    rw [slice_logSoftmax_row ops x ip.1 hlt hbuf]
    simp
  have hyl : y < (prev.take (x.shape.getD 0 0)).enum.length := by
    rw [List.enum_length, hlenTake]
    exact hy
  have h := slice_flatMap_blocks
    (fun ip : Nat × Hypothesis S C =>
      (slice (LogSoftmax ops x).data (ip.1 * x.shape.getD 1 0) (x.shape.getD 1 0)).map
        fun v => v + ip.2.log_prob)
    (x.shape.getD 1 0) ((prev.take (x.shape.getD 0 0)).enum) hblocks y hyl k 1 (by omega)
    ((LogSoftmax ops x).data.drop (x.shape.getD 0 0 * x.shape.getD 1 0))
  have hget : (prev.take (x.shape.getD 0 0)).enum[y] = (y, parent) := by
    rw [List.getElem_enum, List.getElem_take]
    congr 1
    have hlt : y < prev.length := by omega
    rw [List.getElem?_eq_getElem hlt] at hparent
    exact Option.some.inj hparent
  rw [getElem?_eq_head?_slice, h, hget, ← getElem?_eq_head?_slice]
  dsimp only
  rw [slice_logSoftmax_row ops x y hy hbuf, List.getElem?_map, List.getElem?_map,
    List.getElem?_range hk]
  rfl

/-- The child for the flat index `i` when its parent and its score exist. -/
theorem child_of_entry [Zero S] [Add S] (graph : Option (ContextGraph S C))
    (prev : List (Hypothesis S C)) (p_joiner_out : List S) (vocab_size t : Nat)
    (frame_offset : Int) (i : Nat) (parent : Hypothesis S C) (score : S)
    (hw : 0 < vocab_size) (hp : prev[i / vocab_size]? = some parent)
    (hs : p_joiner_out[i / vocab_size * vocab_size + i % vocab_size]? = some score) :
    child graph prev p_joiner_out vocab_size t frame_offset i
      = some
        (if i % vocab_size ≠ 0 ∧ i % vocab_size ≠ 2 then
          match graph with
          | some g =>
            { parent with
              ys := parent.ys ++ [((i % vocab_size : Nat) : Int)]
              num_trailing_blanks := 0
              timestamps := parent.timestamps ++ [(t : Int) + frame_offset]
              context_state :=
                (g.ForwardOneStep parent.context_state ((i % vocab_size : Nat) : Int) false).2
              log_prob := score
                + (g.ForwardOneStep parent.context_state ((i % vocab_size : Nat) : Int) false).1 }
          | none =>
            { parent with
              ys := parent.ys ++ [((i % vocab_size : Nat) : Int)]
              num_trailing_blanks := 0
              timestamps := parent.timestamps ++ [(t : Int) + frame_offset]
              log_prob := score + 0 }
        else
          { parent with
            num_trailing_blanks := parent.num_trailing_blanks + 1
            log_prob := score + 0 }) := by
  unfold child
  rw [if_neg (by omega)]
  simp only [hp, hs]
  split
  · cases graph <;> rfl
  · rfl

/-- C23. Beam child scoring: in a frame of `Decode`, for a flat index `i` of the
(path x vocab) score matrix, the child is derived from the parent
`prev[i / vocab_size]` with the token `i % vocab_size`, and its `log_prob` is the
log-softmax of the parent's joiner row at the token, plus the parent's `log_prob`,
plus the context score: the score of
`ForwardOneStep(parent.context_state, token, false)` when the token is neither `0`
nor `2` and a context graph is attached (`context_state` then being the returned
state), and `0` otherwise, `context_state` then being the parent's. -/
theorem beam_child_scoring [Zero S] [Add S] [LT S] [DecidableRel (fun a b : S => a < b)]
    (backend : Backend) (ops : MathOps S) (model : Model S) (num_active_paths_ : Nat)
    (encoder_out : Tensor S) (graph : Option (ContextGraph S C))
    (st : Hypotheses S C × DecoderResult S C) (t : Nat) (decoder_out : Tensor S)
    (hd : predictionOut model (st.1.GetTopK num_active_paths_ true) st.2 t = some decoder_out)
    (hw : 0 < (model.RunJoiner (frameSlice encoder_out t) decoder_out).shape.getD 1 0)
    (hrows : (model.RunJoiner (frameSlice encoder_out t) decoder_out).shape.getD 0 0
      ≤ (st.1.GetTopK num_active_paths_ true).length)
    (hbuf : (model.RunJoiner (frameSlice encoder_out t) decoder_out).shape.getD 0 0
        * (model.RunJoiner (frameSlice encoder_out t) decoder_out).shape.getD 1 0
      ≤ (model.RunJoiner (frameSlice encoder_out t) decoder_out).data.length)
    (i : Nat)
    (hi : i < (model.RunJoiner (frameSlice encoder_out t) decoder_out).shape.getD 0 0
        * (model.RunJoiner (frameSlice encoder_out t) decoder_out).shape.getD 1 0) :
    ∃ (p_joiner_out : List S) (parent new_hyp : Hypothesis S C),
      DecodeFrame backend ops model num_active_paths_ encoder_out graph st t
        = (expand ops graph (st.1.GetTopK num_active_paths_ true) p_joiner_out
            ((model.RunJoiner (frameSlice encoder_out t) decoder_out).shape.getD 1 0) t
            st.2.frame_offset
            (selection ops (joinerScores ops model encoder_out t decoder_out) p_joiner_out
              num_active_paths_)
            st.1.Clear).map (fun cur =>
              (cur, resultAfterReuse backend
                (fastPath model (st.1.GetTopK num_active_paths_ true) st.2 t) st.2)) ∧
      (st.1.GetTopK num_active_paths_ true)[i
          / (model.RunJoiner (frameSlice encoder_out t) decoder_out).shape.getD 1 0]?
        = some parent ∧
      child graph (st.1.GetTopK num_active_paths_ true) p_joiner_out
          ((model.RunJoiner (frameSlice encoder_out t) decoder_out).shape.getD 1 0) t
          st.2.frame_offset i = some new_hyp ∧
      (∀ base : S,
        base = ops.LogSoftmax
            (slice (model.RunJoiner (frameSlice encoder_out t) decoder_out).data
              (i / (model.RunJoiner (frameSlice encoder_out t) decoder_out).shape.getD 1 0
                * (model.RunJoiner (frameSlice encoder_out t) decoder_out).shape.getD 1 0)
              ((model.RunJoiner (frameSlice encoder_out t) decoder_out).shape.getD 1 0))
            (i % (model.RunJoiner (frameSlice encoder_out t) decoder_out).shape.getD 1 0)
          + parent.log_prob →
        ∀ token : Nat,
          token = i % (model.RunJoiner (frameSlice encoder_out t) decoder_out).shape.getD 1 0 →
          (token ≠ 0 ∧ token ≠ 2 →
            new_hyp.ys = parent.ys ++ [(token : Int)] ∧
            new_hyp.timestamps = parent.timestamps ++ [(t : Int) + st.2.frame_offset] ∧
            new_hyp.num_trailing_blanks = 0 ∧
            (∀ g : ContextGraph S C, graph = some g →
              new_hyp.log_prob
                = base + (g.ForwardOneStep parent.context_state (token : Int) false).1 ∧
              new_hyp.context_state
                = (g.ForwardOneStep parent.context_state (token : Int) false).2) ∧
            (graph = none →
              new_hyp.log_prob = base + 0 ∧ new_hyp.context_state = parent.context_state)) ∧
          (token = 0 ∨ token = 2 →
            new_hyp = { parent with
              num_trailing_blanks := parent.num_trailing_blanks + 1
              log_prob := base + 0 })) := by
  obtain ⟨pj, hpj, hentry⟩ := addPrevLogProb_entry ops (st.1.GetTopK num_active_paths_ true)
    (model.RunJoiner (frameSlice encoder_out t) decoder_out) hrows hbuf
  have hy : i / (model.RunJoiner (frameSlice encoder_out t) decoder_out).shape.getD 1 0
      < (model.RunJoiner (frameSlice encoder_out t) decoder_out).shape.getD 0 0 :=
    Nat.div_lt_of_lt_mul (by rw [Nat.mul_comm]; exact hi)
  have hk := Nat.mod_lt i hw
  have hlt : i / (model.RunJoiner (frameSlice encoder_out t) decoder_out).shape.getD 1 0
      < (st.1.GetTopK num_active_paths_ true).length := by omega
  have hparent := List.getElem?_eq_getElem hlt
  have hscore := hentry _ _ _ hy hk hparent
  have hchild := child_of_entry graph (st.1.GetTopK num_active_paths_ true) pj
    ((model.RunJoiner (frameSlice encoder_out t) decoder_out).shape.getD 1 0) t
    st.2.frame_offset i _ _ hw hparent hscore
  refine ⟨pj, _, _, ?_, hparent, hchild, ?_⟩
  · rw [decodeFrame_unfold, hd]
    simp only [Option.some_bind]
    unfold joinerScores
    rw [hpj]
    rfl
  · intro base hbase token htoken
    subst hbase htoken
    constructor
    · intro hne
      rw [if_pos hne]
      cases graph with
      | none =>
        refine ⟨rfl, rfl, rfl, ?_, fun _ => ⟨rfl, rfl⟩⟩
        intro g hg
        cases hg
      | some g0 =>
        refine ⟨rfl, rfl, rfl, ?_, ?_⟩
        · intro g hg
          cases hg
          exact ⟨rfl, rfl⟩
        · intro hg
          cases hg
    · intro hblank
      rw [if_neg (by omega)]

/-- Witness of C23: frame `0` of the chunk `[7, 0]` from the empty result, with
`Demo.graph` attached: the index `7` of the one-row score matrix gives the child of
the pad hypothesis with token `7`, whose `log_prob` is the score `1`, plus the
parent's `0`, plus the bias `2`. -/
theorem beam_child_scoring_witness :
    predictionOut Demo.model (Demo.frameState.1.GetTopK 2 true) Demo.frameState.2 0
      = some Demo.padOut ∧
    (Demo.model.RunJoiner (frameSlice (Demo.chunk [7, 0]) 0) Demo.padOut).shape = [1, 8] ∧
    (Demo.model.RunJoiner (frameSlice (Demo.chunk [7, 0]) 0) Demo.padOut).data.length = 8 ∧
    (DecodeFrame Backend.mnn Demo.ops Demo.model 2 (Demo.chunk [7, 0]) (some Demo.graph)
        Demo.frameState 0).map (fun st => st.1)
      = some ⟨[{ ys := [0, 0, 7], log_prob := 3, timestamps := [0], context_state := some 1 }]⟩ ∧
    ∃ (p_joiner_out : List Int) (parent new_hyp : Hypothesis Int Nat),
      (Demo.frameState.1.GetTopK 2 true)[7 / 8]? = some parent ∧
      child (some Demo.graph) (Demo.frameState.1.GetTopK 2 true) p_joiner_out 8 0 0 7
        = some new_hyp ∧
      new_hyp.log_prob
        = Demo.ops.LogSoftmax
            (slice (Demo.model.RunJoiner (frameSlice (Demo.chunk [7, 0]) 0) Demo.padOut).data
              (7 / 8 * 8) 8) (7 % 8)
          + parent.log_prob
          + (Demo.graph.ForwardOneStep parent.context_state 7 false).1 := by
  obtain ⟨pj, parent, new_hyp, _, hparent, hchild, hscore⟩ :=
    beam_child_scoring Backend.mnn Demo.ops Demo.model 2 (Demo.chunk [7, 0]) (some Demo.graph)
      Demo.frameState 0 Demo.padOut (by decide) (by decide) (by decide) (by decide) 7
      (by decide)
  exact ⟨by decide, by decide, by decide, by decide, pj, parent, new_hyp, hparent, hchild,
    ((((hscore _ rfl 7 rfl).1 (by decide)).2.2.2.1) Demo.graph rfl).1⟩

end ModifiedBeamSearchDecoder

/-! ## Beam search: the fast path -/

/-- For a sequence that is the pad of `c >= 1` blanks followed by tokens other than
`0` and `2`, having exactly `c` entries is the same as the last `c` entries being
the pad. -/
theorem length_eq_iff_window_pad (c : Nat) (hc : 1 ≤ c) (rest : List Int)
    (hrest : ∀ x ∈ rest, x ≠ 0 ∧ x ≠ 2) :
    (List.replicate c (0 : Int) ++ rest).length = c
      ↔ lastN c (List.replicate c (0 : Int) ++ rest) = List.replicate c 0 := by
  constructor
  · intro hlen
    have hnil : rest = [] := by
      rw [List.length_append, List.length_replicate] at hlen
      exact List.eq_nil_of_length_eq_zero (by omega)
    subst hnil
    unfold lastN
    simp
  · intro hwin
    by_contra hne
    have hpos : 1 ≤ rest.length := by
      rw [List.length_append, List.length_replicate] at hne
      omega
    have hget : (lastN c (List.replicate c (0 : Int) ++ rest))[c - 1]?
        = rest[rest.length - 1]? := by
      unfold lastN
      rw [List.getElem?_drop, List.length_append, List.length_replicate,
        List.getElem?_append_right (by rw [List.length_replicate]; omega),
        List.length_replicate]
      congr 1
      omega
    rw [hwin, List.getElem?_replicate, if_pos (by omega),
      List.getElem?_eq_getElem (by omega)] at hget
    have hmem : rest[rest.length - 1] ∈ rest := List.getElem_mem _
    have := (hrest _ hmem).1
    exact this (Option.some.inj hget).symm

namespace ModifiedBeamSearchDecoder

variable {S C : Type}

/-- The input rows of `RunDecoder2D` are the windows of the hypotheses. -/
theorem runDecoder2D_rows (model : Model S) (prev : List (Hypothesis S C))
    (hlen : ∀ p ∈ prev, model.ContextSize ≤ p.ys.length) :
    ((List.range prev.length).map fun y =>
        model.RunDecoder
          { shape := [1, model.ContextSize]
            data := slice (prev.flatMap fun hyp => lastN model.ContextSize hyp.ys)
              (y * model.ContextSize) model.ContextSize })
      = prev.map (windowOut model) := by
  apply List.ext_getElem
  · simp
  · intro y h1 h2
    have hy : y < prev.length := by simpa using h1
    rw [List.getElem_map, List.getElem_map, List.getElem_range]
    have hblocks : ∀ p ∈ prev,
        ((fun hyp : Hypothesis S C => lastN model.ContextSize hyp.ys) p).length
          = model.ContextSize :=
      fun p hp => length_lastN _ _ (hlen p hp)
    have h := slice_flatMap_blocks (fun hyp : Hypothesis S C => lastN model.ContextSize hyp.ys)
      model.ContextSize prev hblocks y hy 0 model.ContextSize (by omega) []
    rw [List.append_nil, Nat.add_zero] at h
    rw [h, slice_zero_length _ _ (hblocks _ (List.getElem_mem hy))]
    rfl

/-- C24 (amended). Beam fast-path reuse: a frame of `Decode` uses the cached
`result.decoder_out` instead of recomputing the prediction-network output if and
only if the frame index is `0`, exactly one previous hypothesis exists, it has
`len(ys) = context_size`, and `result.decoder_out` is non-null; for
`context_size >= 1` and a hypothesis that is the pad followed by tokens other than
`0` and `2`, the test `len(ys) = context_size` is equivalent to the token window
being the all-blank pad.  In every other case the output is that of `RunDecoder2D`:
with at least one previous hypothesis it has one row per previous hypothesis, row
`y` being `RunDecoder` of the last `context_size` tokens of hypothesis `y`; with
none there is no tensor. -/
theorem beam_fast_path [Zero S] [Add S] [LT S] [DecidableRel (fun a b : S => a < b)]
    (backend : Backend) (ops : MathOps S) (model : Model S) (num_active_paths_ : Nat)
    (encoder_out : Tensor S) (graph : Option (ContextGraph S C))
    (st : Hypotheses S C × DecoderResult S C) (t : Nat) :
    ((DecodeFrame backend ops model num_active_paths_ encoder_out graph st t).isSome = true →
      ∃ decoder_out : Tensor S,
        predictionOut model (st.1.GetTopK num_active_paths_ true) st.2 t = some decoder_out) ∧
    ((fastPath model (st.1.GetTopK num_active_paths_ true) st.2 t).isSome = true ↔
      t = 0 ∧ (st.1.GetTopK num_active_paths_ true).length = 1 ∧
        (∀ p ∈ st.1.GetTopK num_active_paths_ true, p.ys.length = model.ContextSize) ∧
        st.2.decoder_out.isSome = true) ∧
    ((fastPath model (st.1.GetTopK num_active_paths_ true) st.2 t).isSome = true →
      predictionOut model (st.1.GetTopK num_active_paths_ true) st.2 t = st.2.decoder_out) ∧
    ((fastPath model (st.1.GetTopK num_active_paths_ true) st.2 t).isSome = false →
      predictionOut model (st.1.GetTopK num_active_paths_ true) st.2 t
        = RunDecoder2D model
            (BuildDecoderInput model (st.1.GetTopK num_active_paths_ true))) ∧
    (∀ rest : List Int, 1 ≤ model.ContextSize → (∀ x ∈ rest, x ≠ 0 ∧ x ≠ 2) →
      ((List.replicate model.ContextSize (0 : Int) ++ rest).length = model.ContextSize
        ↔ lastN model.ContextSize (List.replicate model.ContextSize (0 : Int) ++ rest)
            = List.replicate model.ContextSize 0)) ∧
    (∀ prev : List (Hypothesis S C), prev ≠ [] →
      (∀ p ∈ prev, model.ContextSize ≤ p.ys.length) →
      ∃ first : Hypothesis S C, prev.head? = some first ∧
        RunDecoder2D model (BuildDecoderInput model prev)
          = some { shape := [prev.length, (windowOut model first).shape.getD 1 0]
                   data := (prev.map (windowOut model)).flatMap fun o =>
                     o.data.take (o.shape.getD 1 0) }) ∧
    RunDecoder2D model (BuildDecoderInput model ([] : List (Hypothesis S C))) = none := by
  refine ⟨?_, ?_, ?_, ?_, ?_, ?_, rfl⟩
  · intro hsome
    rw [decodeFrame_unfold] at hsome
    cases hd : predictionOut model (st.1.GetTopK num_active_paths_ true) st.2 t with
    | none => rw [hd] at hsome; cases hsome
    | some d => exact ⟨d, rfl⟩
  · unfold fastPath
    constructor
    · intro h
      split at h
      · rename_i p d hprev hout
        split at h
        · rename_i hcond
          refine ⟨hcond.1, by rw [hprev]; rfl, ?_, by rw [hout]; rfl⟩
          intro q hq
          rw [hprev, List.mem_singleton] at hq
          rw [hq]
          exact hcond.2
        · cases h
      · cases h
    · rintro ⟨ht, hlen, hys, hout⟩
      obtain ⟨p, hp⟩ := List.length_eq_one.mp hlen
      obtain ⟨d, hd⟩ := Option.isSome_iff_exists.mp hout
      rw [hp, hd]
      dsimp only
      rw [if_pos ⟨ht, hys p (by rw [hp]; exact List.mem_singleton_self p)⟩]
      rfl
  · intro h
    obtain ⟨d, hd⟩ := Option.isSome_iff_exists.mp h
    have hcache : st.2.decoder_out = some d := by
      unfold fastPath at hd
      split at hd
      · rename_i p d0 _ hout
        split at hd
        · rw [hout, ← hd]
        · cases hd
      · cases hd
    unfold predictionOut
    rw [hd, hcache]
  · intro h
    unfold predictionOut
    cases hf : fastPath model (st.1.GetTopK num_active_paths_ true) st.2 t with
    | none => rfl
    | some d => rw [hf] at h; cases h
  · intro rest hc hrest
    exact length_eq_iff_window_pad model.ContextSize hc rest hrest
  · intro prev hne hlen
    cases prev with
    | nil => exact absurd rfl hne
    | cons p ps =>
      refine ⟨p, rfl, ?_⟩
      have hrows := runDecoder2D_rows model (p :: ps) hlen
      unfold RunDecoder2D BuildDecoderInput
      simp only [List.getD_cons_zero, List.getD_cons_succ]
      rw [hrows]
      rfl

/-- C24 as stated fails for `context_size = 0`: after token `5` was decoded, frame
`0` of the next chunk has exactly one previous hypothesis, which satisfies the blank
invariant and whose token window is the (empty) pad, and `decoder_out` is non-null,
yet `len(ys) = 1` is not `context_size` and the prediction-network output is
recomputed. -/
theorem beam_fast_path_counterexample :
    Decode Backend.mnn Demo.ops Demo.modelNoContext 2 (Demo.chunk [5]) none
      (GetEmptyResult Demo.modelNoContext : DecoderResult Int Nat)
      = some Demo.noContextResult ∧
    Demo.noContextResult.hyps.GetTopK 2 true = [Demo.noContextHyp] ∧
    (∀ x ∈ Demo.noContextHyp.ys.drop Demo.modelNoContext.ContextSize, x ≠ 0 ∧ x ≠ 2) ∧
    lastN Demo.modelNoContext.ContextSize Demo.noContextHyp.ys
      = List.replicate Demo.modelNoContext.ContextSize 0 ∧
    Demo.noContextResult.decoder_out.isSome = true ∧
    Demo.noContextHyp.ys.length ≠ Demo.modelNoContext.ContextSize ∧
    fastPath Demo.modelNoContext (Demo.noContextResult.hyps.GetTopK 2 true)
      { Demo.noContextResult with hyps := ⟨[]⟩ } 0 = none :=
  ⟨by decide, by decide, by decide, by decide, by decide, by decide, by decide⟩

/-- The fast path on `Demo.model`: with the cached tensor `Demo.padOut` carried over
a reset, frame `0` takes it over; at frame `1`, or without it, the output is
recomputed. -/
theorem demo_fast_path :
    predictionOut Demo.model (Demo.frameState.1.GetTopK 2 true)
      { Demo.frameState.2 with decoder_out := some { shape := [1, 1], data := [9] } } 0
      = some { shape := [1, 1], data := [9] } ∧
    predictionOut Demo.model (Demo.frameState.1.GetTopK 2 true)
      { Demo.frameState.2 with decoder_out := some { shape := [1, 1], data := [9] } } 1
      = some Demo.padOut ∧
    predictionOut Demo.model (Demo.frameState.1.GetTopK 2 true) Demo.frameState.2 0
      = some Demo.padOut := by
  decide

end ModifiedBeamSearchDecoder

/-! ## The microphone program: the ninth argument -/

namespace OpenVino

namespace Microphone

variable {S : Type} [Zero S] [OfScientific S]

/-- C26 fails on the code: with all nine arguments of the usage text `argc` is `10`,
so the test `argc > 9` holds and `main` prints the usage and returns; the same
happens for every command line of ten entries, and whenever `main` gets past the
test `hotwords_score` is `0`, never the value of `argv[9]`.  With eight arguments
`main` proceeds and takes `hotwords_file` from the eighth. -/
theorem microphone_nine_arguments (atoi : String → Int) (atof : String → S) :
    main atoi atof nineArguments = MainStage.usage 10 ∧
    (∀ argv : List String, argv.length = 10 → main atoi atof argv = MainStage.usage 10) ∧
    (∀ (argv : List String) (config : SherpaOVRecognizerConfig S),
      main atoi atof argv = MainStage.proceeds config →
      5 ≤ argv.length ∧ argv.length ≤ 9 ∧ config.hotwords_score = 0) ∧
    (∀ argv : List String, argv.length = 9 →
      ∃ config : SherpaOVRecognizerConfig S,
        main atoi atof argv = MainStage.proceeds config ∧
        config.hotwords_file = arg argv 8 ∧ config.hotwords_score = 0) := by
  have hten : ∀ argv : List String, argv.length = 10 →
      main atoi atof argv = MainStage.usage 10 := by
    intro argv h
    unfold main
    dsimp only
    rw [h, if_pos (Or.inr (by decide))]
  refine ⟨hten _ rfl, hten, ?_, ?_⟩
  · intro argv config h
    unfold main at h
    dsimp only at h
    split at h
    · cases h
    · rename_i hargc
      injection h with h
      subst h
      refine ⟨by omega, by omega, ?_⟩
      dsimp only
      rw [if_neg (by omega)]
  · intro argv h
    cases hm : main atoi atof argv with
    | usage k =>
      unfold main at hm
      dsimp only at hm
      rw [if_neg (by omega)] at hm
      cases hm
    | proceeds config =>
      refine ⟨config, rfl, ?_, ?_⟩
      · unfold main at hm
        dsimp only at hm
        rw [if_neg (by omega)] at hm
        injection hm with hm
        subst hm
        dsimp only
        rw [if_pos (by omega)]
      · unfold main at hm
        dsimp only at hm
        rw [if_neg (by omega)] at hm
        injection hm with hm
        subst hm
        dsimp only
        rw [if_neg (by omega)]

end Microphone

end OpenVino

/-! ## `GetResult` -/

namespace Recognizer

variable {S D C : Type} [IntCast D] [Div D] [Mul D] [OfScientific D]
  [IntCast S] [Mul S] [LE S] [DecidableRel (fun a b : S => a ≤ b)]
  [LT S] [DecidableRel (fun a b : S => a < b)] [OfScientific S]

end Recognizer

/-! ## Greedy search: the argmax -/

theorem maxElementLoop_lt {S : Type} [LT S] [DecidableRel (fun a b : S => a < b)]
    (xs : List S) : ∀ (largest : S) (idx cur : Nat), idx < cur →
      maxElementLoop xs largest idx cur < cur + xs.length := by
  induction xs with
  | nil =>
    intro largest idx cur h
    simpa [maxElementLoop] using h
  | cons x xs ih =>
    intro largest idx cur h
    unfold maxElementLoop
    rw [List.length_cons]
    split
    · have := ih x cur (cur + 1) (by omega)
      omega
    · have := ih largest idx (cur + 1) (by omega)
      omega

theorem maxElementIndex_lt {S : Type} [LT S] [DecidableRel (fun a b : S => a < b)]
    (l : List S) (hl : l ≠ []) : maxElementIndex l < l.length := by
  cases l with
  | nil => exact absurd rfl hl
  | cons x xs =>
    have := maxElementLoop_lt xs x 0 1 (by omega)
    simp only [maxElementIndex, List.length_cons]
    omega

/-- Scores of the `float` model, which has no NaN, compare like numbers. -/
theorem orderedScores_binary32 (row : List Binary32) : OrderedScores row :=
  ⟨fun x _ y _ => le_total x.val y.val, fun _ _ _ _ _ _ hxy hyz => le_trans (α := ℚ) hxy hyz,
    fun x _ y _ => lt_iff_not_le (α := ℚ) (x := x.val) (y := y.val)⟩

theorem isFirstMax_maxElementLoop {S : Type} [LE S] [LT S]
    [DecidableRel (fun a b : S => a < b)] (xs : List S) :
    ∀ (pre : List S) (largest : S) (idx : Nat), OrderedScores (pre ++ xs) →
      IsFirstMax pre idx largest →
      ∃ best, IsFirstMax (pre ++ xs) (maxElementLoop xs largest idx pre.length) best := by
  induction xs with
  | nil =>
    intro pre largest idx _ h
    exact ⟨largest, by simpa [maxElementLoop] using h⟩
  | cons x xs ih =>
    intro pre largest idx hord h
    obtain ⟨hget, hle, hlt⟩ := h
    obtain ⟨htot, htrans, hiff⟩ := hord
    have happ : pre ++ x :: xs = (pre ++ [x]) ++ xs := by simp
    have hlen : (pre ++ [x]).length = pre.length + 1 := by simp
    have hxm : x ∈ pre ++ x :: xs := by simp
    have hpm : ∀ y, y ∈ pre → y ∈ pre ++ x :: xs := by
      intro y hy
      simp [hy]
    have hgm : ∀ (j : Nat) (y : S), pre[j]? = some y → y ∈ pre := by
      intro j y hy
      exact List.getElem?_mem hy
    have hlm : largest ∈ pre ++ x :: xs := hpm _ (hgm _ _ hget)
    have hsplit : ∀ (j : Nat) (y : S), (pre ++ [x])[j]? = some y → pre[j]? = some y ∨ y = x := by
      intro j y hy
      by_cases hj : j < pre.length
      · rw [List.getElem?_append_left hj] at hy
        exact Or.inl hy
      · rw [List.getElem?_append_right (by omega)] at hy
        cases hk : j - pre.length with
        | zero =>
          rw [hk] at hy
          simp at hy
          exact Or.inr hy.symm
        | succ k =>
          rw [hk] at hy
          simp at hy
    have hord2 : OrderedScores ((pre ++ [x]) ++ xs) := by
      rw [← happ]
      exact ⟨htot, htrans, hiff⟩
    unfold maxElementLoop
    by_cases hx : largest < x
    · have hnle : ¬ x ≤ largest := (hiff largest hlm x hxm).1 hx
      have hlx : largest ≤ x := by
        rcases htot largest hlm x hxm with h1 | h1
        · exact h1
        · exact absurd h1 hnle
      rw [if_pos hx, happ, ← hlen]
      apply ih _ _ _ hord2
      refine ⟨by simp, ?_, ?_⟩
      · intro j y hy
        rcases hsplit j y hy with h1 | h1
        · exact htrans y (hpm _ (hgm _ _ h1)) largest hlm x hxm (hle j y h1) hlx
        · rw [h1]
          rcases htot x hxm x hxm with h2 | h2 <;> exact h2
      · intro j y hj hy
        rw [List.getElem?_append_left hj] at hy
        have hym : y ∈ pre ++ x :: xs := hpm _ (hgm _ _ hy)
        apply (hiff y hym x hxm).2
        intro hxy
        exact hnle (htrans x hxm y hym largest hlm hxy (hle j y hy))
    · have hxl : x ≤ largest := by
        by_contra hcon
        exact hx ((hiff largest hlm x hxm).2 hcon)
      rw [if_neg hx, happ, ← hlen]
      apply ih _ _ _ hord2
      have hidx : idx < pre.length := by
        by_contra hcon
        rw [List.getElem?_eq_none (by omega)] at hget
        cases hget
      refine ⟨by rw [List.getElem?_append_left hidx]; exact hget, ?_, ?_⟩
      · intro j y hy
        rcases hsplit j y hy with h1 | h1
        · exact hle j y h1
        · rw [h1]
          exact hxl
      · intro j y hj hy
        rw [List.getElem?_append_left (by omega)] at hy
        exact hlt j y hj hy

theorem isFirstMax_maxElementIndex {S : Type} [LE S] [LT S]
    [DecidableRel (fun a b : S => a < b)] (l : List S) (hl : l ≠ [])
    (hord : OrderedScores l) : ∃ best, IsFirstMax l (maxElementIndex l) best := by
  cases l with
  | nil => exact absurd rfl hl
  | cons x xs =>
    have hxx : x ≤ x := by
      rcases hord.1 x (by simp) x (by simp) with h | h <;> exact h
    have h := isFirstMax_maxElementLoop xs [x] x 0 hord
      ⟨rfl, by
        intro j y hy
        cases j with
        | zero => simp at hy; rw [← hy]; exact hxx
        | succ j => simp at hy,
       by intro j y hj; omega⟩
    simpa [maxElementIndex] using h

namespace GreedySearchDecoder

/-- C28 (amended). Greedy argmax tie-breaking: for every joiner output whose row
holds `vocab_size >= 1` scores, the token chosen by `Decode` is the index that
`std::max_element` finds in the row and lies in `[0, vocab_size)`.  When the scores
of the row compare like numbers, which for `float` means that none of them is NaN,
no score of the row is larger than the chosen one and every score at a smaller
index is strictly smaller, so the token is the smallest index whose score is
greater than or equal to every other score. -/
theorem greedy_argmax_tie_breaking {S : Type} [LE S] [LT S]
    [DecidableRel (fun a b : S => a < b)] (joiner_out : Tensor S)
    (h1 : 1 ≤ joiner_out.shape.getD 1 0)
    (hbuf : joiner_out.shape.getD 1 0 ≤ joiner_out.data.length) :
    newToken joiner_out = maxElementIndex (joiner_out.data.take (joiner_out.shape.getD 1 0)) ∧
    newToken joiner_out < joiner_out.shape.getD 1 0 ∧
    (OrderedScores (joiner_out.data.take (joiner_out.shape.getD 1 0)) →
      ∃ best : S, joiner_out.data[newToken joiner_out]? = some best ∧
        (∀ (j : Nat) (x : S), j < joiner_out.shape.getD 1 0 →
          joiner_out.data[j]? = some x → x ≤ best) ∧
        (∀ (j : Nat) (x : S), j < newToken joiner_out →
          joiner_out.data[j]? = some x → x < best) ∧
        (∀ (k : Nat) (y : S), k < joiner_out.shape.getD 1 0 → joiner_out.data[k]? = some y →
          (∀ (j : Nat) (x : S), j < joiner_out.shape.getD 1 0 →
            joiner_out.data[j]? = some x → x ≤ y) →
          newToken joiner_out ≤ k)) := by
  have hne : joiner_out.data.take (joiner_out.shape.getD 1 0) ≠ [] := by
    intro hnil
    have := congrArg List.length hnil
    rw [List.length_take, List.length_nil] at this
    omega
  have htake : ∀ j : Nat, j < joiner_out.shape.getD 1 0 →
      (joiner_out.data.take (joiner_out.shape.getD 1 0))[j]? = joiner_out.data[j]? := by
    intro j hj
    rw [List.getElem?_take_of_lt hj]
  have hidx : newToken joiner_out < joiner_out.shape.getD 1 0 := by
    have := maxElementIndex_lt _ hne
    rw [List.length_take] at this
    have hnt : newToken joiner_out
        = maxElementIndex (joiner_out.data.take (joiner_out.shape.getD 1 0)) := rfl
    omega
  refine ⟨rfl, hidx, ?_⟩
  intro hord
  obtain ⟨best, hget, hle, hlt⟩ := isFirstMax_maxElementIndex _ hne hord
  have hbest : joiner_out.data[newToken joiner_out]? = some best := by
    rw [← htake _ hidx]
    exact hget
  have hmem : ∀ (j : Nat) (x : S), j < joiner_out.shape.getD 1 0 →
      joiner_out.data[j]? = some x → x ∈ joiner_out.data.take (joiner_out.shape.getD 1 0) := by
    intro j x hj hx
    rw [← htake j hj] at hx
    exact List.getElem?_mem hx
  refine ⟨best, hbest, ?_, ?_, ?_⟩
  · intro j x hj hx
    exact hle j x (by rw [htake j hj]; exact hx)
  · intro j x hj hx
    exact hlt j x hj (by rw [htake j (by omega)]; exact hx)
  · intro k y hk hy hmax
    by_contra hcon
    have hk1 : k < newToken joiner_out := by omega
    have hky : y < best := hlt k y hk1 (by rw [htake k hk]; exact hy)
    have := hmax (newToken joiner_out) best hidx hbest
    exact (hord.2.2 y (hmem k y hk hy) best (hmem _ best hidx hbest)).1 hky this

/-- Witness of C28: of the `float` scores `[1, 3, 3, 2]` the first `3`, at index `1`,
is chosen. -/
theorem greedy_argmax_tie_breaking_witness :
    newToken Demo.tiedFloatJoinerOut = 1 ∧
    newToken Demo.tiedFloatJoinerOut < Demo.tiedFloatJoinerOut.shape.getD 1 0 ∧
    ∃ best : Binary32,
      Demo.tiedFloatJoinerOut.data[newToken Demo.tiedFloatJoinerOut]? = some best ∧
      (∀ (j : Nat) (x : Binary32), j < Demo.tiedFloatJoinerOut.shape.getD 1 0 →
        Demo.tiedFloatJoinerOut.data[j]? = some x → x ≤ best) ∧
      (∀ (j : Nat) (x : Binary32), j < newToken Demo.tiedFloatJoinerOut →
        Demo.tiedFloatJoinerOut.data[j]? = some x → x < best) ∧
      (∀ (k : Nat) (y : Binary32), k < Demo.tiedFloatJoinerOut.shape.getD 1 0 →
        Demo.tiedFloatJoinerOut.data[k]? = some y →
        (∀ (j : Nat) (x : Binary32), j < Demo.tiedFloatJoinerOut.shape.getD 1 0 →
          Demo.tiedFloatJoinerOut.data[j]? = some x → x ≤ y) →
        newToken Demo.tiedFloatJoinerOut ≤ k) :=
  ⟨by with_unfolding_all rfl,
    (greedy_argmax_tie_breaking Demo.tiedFloatJoinerOut (by decide) (by decide)).2.1,
    (greedy_argmax_tie_breaking Demo.tiedFloatJoinerOut (by decide) (by decide)).2.2
      (orderedScores_binary32 _)⟩

/-- Counterexample to C28 as stated: in the row `[NaN, 1, 2]` every comparison with
the NaN is false, so `std::max_element` stays at index `0`; the chosen token is `0`
although its score is not greater than or equal to the score `1` at index `1`, and
the index of the largest number is `2`. -/
theorem greedy_argmax_nan :
    1 ≤ Demo.nanJoinerOut.shape.getD 1 0 ∧
    Demo.nanJoinerOut.shape.getD 1 0 ≤ Demo.nanJoinerOut.data.length ∧
    newToken Demo.nanJoinerOut = 0 ∧
    Demo.nanJoinerOut.data[0]? = some Demo.Score.nan ∧
    Demo.nanJoinerOut.data[1]? = some (Demo.Score.num 1) ∧
    ¬ (Demo.Score.num 1 ≤ Demo.Score.nan) ∧
    ¬ (∃ best : Demo.Score, Demo.nanJoinerOut.data[newToken Demo.nanJoinerOut]? = some best ∧
        ∀ (j : Nat) (x : Demo.Score), j < Demo.nanJoinerOut.shape.getD 1 0 →
          Demo.nanJoinerOut.data[j]? = some x → x ≤ best) := by
  refine ⟨by decide, by decide, by decide, rfl, rfl, by decide, ?_⟩
  rintro ⟨best, hbest, hall⟩
  have h0 : newToken Demo.nanJoinerOut = 0 := by decide
  rw [h0] at hbest
  have hb : best = Demo.Score.nan := by
    have : Demo.nanJoinerOut.data[0]? = some Demo.Score.nan := rfl
    rw [this] at hbest
    exact (Option.some.inj hbest).symm
  have h := hall 1 (Demo.Score.num 1) (by decide) rfl
  rw [hb] at h
  exact absurd h (by decide)

end GreedySearchDecoder

/-! ## Streams reachable through the recognizer: the result invariant -/

namespace Hypotheses

theorem getMostProbable_of_ne_nil {S C : Type} [LT S] [DecidableRel (fun a b : S => a < b)]
    (self : Hypotheses S C) (h : self.hyps_dict ≠ []) :
    ∃ hyp : Hypothesis S C, self.GetMostProbable true = some hyp := by
  obtain ⟨x, hx⟩ := List.exists_mem_of_ne_nil _ h
  have hr : x ∈ ranked self.hyps_dict := (mem_ranked _ _).mpr hx
  unfold GetMostProbable GetTopK
  cases hl : ranked self.hyps_dict with
  | nil => rw [hl] at hr; cases hr
  | cons y ys => exact ⟨y, rfl⟩

end Hypotheses

namespace Recognizer

variable {S C : Type}

theorem resultInv_empty [Zero S] (self : Recognizer S) :
    ResultInv self (self.decoder_.GetEmptyResult self.model_ : DecoderResult S C) := by
  unfold ResultInv Decoder.GetEmptyResult
  cases self.decoder_ with
  | GreedySearch => exact GreedySearchDecoder.padInv_empty self.model_
  | ModifiedBeamSearch n =>
    refine ⟨?_, ?_⟩
    · intro h hh
      simp only [ModifiedBeamSearchDecoder.GetEmptyResult, List.mem_singleton] at hh
      subst hh
      simp
    · simp [ModifiedBeamSearchDecoder.GetEmptyResult]

/-- The invariant does not read `context_state` or `decoder_out`. -/
theorem resultInv_rebind (self : Recognizer S) (r : DecoderResult S C) (x : Option C)
    (d : Option (Tensor S)) (h : ResultInv self r) :
    ResultInv self
      { r with
        hyps := ⟨r.hyps.hyps_dict.map fun h => { h with context_state := x }⟩
        decoder_out := d } := by
  unfold ResultInv at h ⊢
  cases hd : self.decoder_ with
  | GreedySearch =>
    rw [hd] at h
    exact h
  | ModifiedBeamSearch n =>
    rw [hd] at h
    refine ⟨?_, ?_⟩
    · intro e he
      simp only [List.mem_map] at he
      obtain ⟨a, ha, rfl⟩ := he
      exact h.1 a ha
    · simpa using h.2

theorem resultInv_decoder_out (self : Recognizer S) (r : DecoderResult S C)
    (d : Option (Tensor S)) (h : ResultInv self r) :
    ResultInv self { r with decoder_out := d } := by
  unfold ResultInv at h ⊢
  cases hd : self.decoder_ with
  | GreedySearch => rw [hd] at h; exact h
  | ModifiedBeamSearch n => rw [hd] at h; exact h

theorem resultInv_createStream [Zero S] (self : Recognizer S)
    (graphOf : List (List Int) → S → List S → ContextGraph S C) :
    ResultInv self (self.CreateStream graphOf).result := by
  unfold Recognizer.CreateStream
  split
  · exact resultInv_empty self
  · exact resultInv_rebind self _ _ none (resultInv_empty self)

theorem resultInv_reset [Zero S] (self : Recognizer S) (s : Stream S C) :
    ResultInv self (self.Reset s).result := by
  unfold Recognizer.Reset Stream.Reset
  cases s.context_graph with
  | none => exact resultInv_decoder_out self _ _ (resultInv_empty self)
  | some g => exact resultInv_rebind self _ _ _ (resultInv_empty self)

theorem resultInv_decodeStream [Zero S] [Add S] [LT S] [DecidableRel (fun a b : S => a < b)]
    (self : Recognizer S) (s s' : Stream S C) (hs : ResultInv self s.result)
    (h : self.DecodeStream s = some s') : ResultInv self s'.result := by
  have hdec : (if s.context_graph.isSome then
        self.decoder_.DecodeWithStream self.math self.model_
          (self.model_.RunEncoder (self.encoderInput s) s.states).1
          { s with num_processed_frames := s.num_processed_frames + self.model_.Offset }
          s.result
      else
        self.decoder_.Decode self.math self.model_
          (self.model_.RunEncoder (self.encoderInput s) s.states).1 s.result)
      = some s'.result := by
    unfold Recognizer.DecodeStream at h
    dsimp only at h
    split at h
    · cases h
    · rename_i r hr
      injection h with h
      subst h
      exact hr
  unfold ResultInv at hs ⊢
  cases hd : self.decoder_ with
  | GreedySearch =>
    rw [hd] at hs hdec
    split at hdec
    · cases hdec
    · simp only [Decoder.Decode, Option.some.injEq] at hdec
      rw [← hdec]
      exact GreedySearchDecoder.padInv_decode self.model_ _ _ _ hs
  | ModifiedBeamSearch n =>
    rw [hd] at hs hdec
    have hkey : ∀ (enc : Tensor S) (st : Option (Stream S C)),
        ModifiedBeamSearchDecoder.Decode Backend.mnn self.math self.model_ n enc st s.result
          = some s'.result →
        (∀ h ∈ s'.result.hyps.hyps_dict,
            h.ys.length = self.model_.ContextSize + h.timestamps.length) ∧
          s'.result.hyps.hyps_dict ≠ [] := by
      intro enc st hdec'
      obtain ⟨hq, _, _, hyp, hbest, _⟩ :=
        ModifiedBeamSearchDecoder.decode_spec
          (fun ys ts => ys.length = self.model_.ContextSize + ts.length)
          (fun ys ts k x _ _ hq => by
            simp only [List.length_append, List.length_cons, List.length_nil]; omega)
          Backend.mnn self.math self.model_ n enc st s.result s'.result hdec' hs.1
      exact ⟨hq, List.ne_nil_of_mem (Hypotheses.mem_of_GetMostProbable _ true hyp hbest)⟩
    split at hdec
    · exact hkey _ _ hdec
    · exact hkey _ _ hdec

/-- `GetResult` converts the stripped copy of the result of the stream, finalized
when `IsEndpoint` holds, and hands back that stream. -/
theorem getResult_eq {D : Type} [IntCast D] [Div D] [Mul D] [OfScientific D]
    [IntCast S] [Mul S] [LE S] [DecidableRel (fun a b : S => a ≤ b)]
    [LT S] [DecidableRel (fun a b : S => a < b)] [OfScientific S]
    (toFloat : D → S) (Finalize : Stream S C → Stream S C)
    (self : Recognizer S) (s : Stream S C) :
    self.GetResult toFloat Finalize s
      = (self.decoder_.StripLeadingBlanks self.model_
          (if self.IsEndpoint s then Finalize s else s).result).map fun d =>
          (Convert toFloat d self.sym_ 10 4, if self.IsEndpoint s then Finalize s else s) := by
  unfold Recognizer.GetResult
  dsimp only
  cases self.decoder_.StripLeadingBlanks self.model_
    (if self.IsEndpoint s then Finalize s else s).result <;> rfl

theorem resultInv_of_reachable [Zero S] [Add S] [LT S] [DecidableRel (fun a b : S => a < b)]
    (self : Recognizer S) (graphOf : List (List Int) → S → List S → ContextGraph S C)
    (s : Stream S C) (h : Reachable self graphOf s) : ResultInv self s.result := by
  induction h with
  | create => exact resultInv_createStream self graphOf
  | accept s frames _ ih => exact ih
  | decode s s1 _ hd ih => exact resultInv_decodeStream self s s1 ih hd
  | reset s _ ih => exact resultInv_reset self s

/-- Under the invariant `StripLeadingBlanks` returns, with one timestamp per token. -/
theorem strip_of_resultInv [LT S] [DecidableRel (fun a b : S => a < b)]
    (self : Recognizer S) (r : DecoderResult S C) (h : ResultInv self r) :
    ∃ d : DecoderResult S C, self.decoder_.StripLeadingBlanks self.model_ r = some d ∧
      d.tokens.length = d.timestamps.length := by
  unfold ResultInv at h
  unfold Decoder.StripLeadingBlanks
  cases hd : self.decoder_ with
  | GreedySearch =>
    rw [hd] at h
    refine ⟨_, rfl, ?_⟩
    have h1 := h.1
    simp only [GreedySearchDecoder.StripLeadingBlanks, List.length_drop]
    omega
  | ModifiedBeamSearch n =>
    rw [hd] at h
    obtain ⟨hyp, hbest⟩ := Hypotheses.getMostProbable_of_ne_nil r.hyps h.2
    have hlen := h.1 hyp (Hypotheses.mem_of_GetMostProbable _ true hyp hbest)
    refine ⟨{ r with
        tokens := hyp.ys.drop self.model_.ContextSize
        timestamps := hyp.timestamps
        num_trailing_blanks := hyp.num_trailing_blanks }, ?_, ?_⟩
    · simp only [ModifiedBeamSearchDecoder.StripLeadingBlanks, hbest]
    · simp only [List.length_drop]
      omega

end Recognizer

/-- The shape of `Convert`: one string and one timestamp per token, the text being
the strings in a row. -/
theorem convert_shape {S D C : Type} [IntCast D] [Div D] [Mul D] [OfScientific D]
    [IntCast S] [Mul S] (toFloat : D → S)
    (src : DecoderResult S C) (sym_table : Int → ByteString) (a b : Int) :
    (Convert toFloat src sym_table a b).tokens = src.tokens ∧
    (Convert toFloat src sym_table a b).stokens = src.tokens.map sym_table ∧
    (Convert toFloat src sym_table a b).text
      = (Convert toFloat src sym_table a b).stokens.flatten ∧
    (Convert toFloat src sym_table a b).timestamps.length = src.timestamps.length := by
  refine ⟨rfl, ?_, ?_, ?_⟩
  · show (convertTokens sym_table src.tokens).2 = _
    rw [convertTokens_eq]
  · show (convertTokens sym_table src.tokens).1 = (convertTokens sym_table src.tokens).2.flatten
    rw [convertTokens_eq]
  · exact List.length_map _ _

namespace CApi

variable {S D C : Type}

/-- C API `GetResult` on a stream state reachable through `CreateStream`,
`DecodeStream`, `Reset` and changes of the buffered frames, for a `Finalize` that
leaves the result of a stream at an endpoint as it is (nothing is assumed of
`Finalize` when endpointing is disabled or the streams are no endpoints): the call
returns; both recognizer calls give the same result `res`, `count` is its number of
tokens, which is also its number of token strings and of timestamps, so every index
`i < count` the loop reads exists; the text is `res.text` followed by a NUL; with
`count = 0` both pointers are null; with `count > 0` the loop runs without a write
outside the buffer of `len(text) + count` bytes and ends with `pos` at its end, the
buffer holding the token strings in order, each followed by one NUL byte, and the
timestamps array holding exactly the `count` timestamps of `res`. -/
theorem getResult_of_finalize_keeps_result [Zero S] [Add S] [IntCast D] [Div D] [Mul D]
    [OfScientific D] [IntCast S] [Mul S] [LE S]
    [DecidableRel (fun a b : S => a ≤ b)] [LT S] [DecidableRel (fun a b : S => a < b)]
    [OfScientific S] (toFloat : D → S) (Finalize : Stream S C → Stream S C)
    (p : Recognizer S)
    (graphOf : List (List Int) → S → List S → ContextGraph S C) (s : Stream S C)
    (h : p.Reachable graphOf s)
    (hfin : ∀ t : Stream S C, p.IsEndpoint t = true → (Finalize t).result = t.result) :
    ∃ (res : RecognitionResult S) (s1 s2 : Stream S C) (r : SherpaDeployMnnResult S),
      p.GetResult toFloat Finalize s = some (res, s1) ∧
      p.GetResult toFloat Finalize s1 = some (res, s2) ∧
      GetResult toFloat Finalize p s = some (r, s2) ∧
      r.count = res.tokens.length ∧
      res.stokens.length = r.count ∧
      res.timestamps.length = r.count ∧
      r.text = res.text ++ [0] ∧
      res.text = res.stokens.flatten ∧
      (r.count = 0 → r.tokens = none ∧ r.timestamps = none) ∧
      (0 < r.count →
        fillArrays res (List.range r.count)
            (List.replicate (res.text.length + r.count) 0, [], 0)
          = some (packed res.stokens, res.timestamps, res.text.length + r.count) ∧
        r.tokens = some (packed res.stokens) ∧
        (packed res.stokens).length = res.text.length + r.count ∧
        r.timestamps = some res.timestamps ∧
        res.timestamps.length = r.count) := by
  have hinv := Recognizer.resultInv_of_reachable p graphOf s h
  obtain ⟨d, hstrip, hlen⟩ := Recognizer.strip_of_resultInv p s.result hinv
  obtain ⟨htok, hstok, htext, hts⟩ := convert_shape toFloat d p.sym_ 10 4
  have hres : ∀ t : Stream S C, (if p.IsEndpoint t then Finalize t else t).result = t.result := by
    intro t
    split
    · rename_i he
      exact hfin t he
    · rfl
  have hfirst : p.GetResult toFloat Finalize s
      = some (Convert toFloat d p.sym_ 10 4, if p.IsEndpoint s then Finalize s else s) := by
    rw [Recognizer.getResult_eq, hres, hstrip]; rfl
  have hsecond : p.GetResult toFloat Finalize (if p.IsEndpoint s then Finalize s else s)
      = some (Convert toFloat d p.sym_ 10 4,
          if p.IsEndpoint (if p.IsEndpoint s then Finalize s else s)
          then Finalize (if p.IsEndpoint s then Finalize s else s)
          else (if p.IsEndpoint s then Finalize s else s)) := by
    rw [Recognizer.getResult_eq, hres, hres, hstrip]; rfl
  generalize hcv : Convert toFloat d p.sym_ 10 4 = cv at htok hstok htext hts hfirst hsecond
  have hlenS : cv.stokens.length = cv.tokens.length := by
    rw [hstok, htok, List.length_map]
  have hlenT : cv.timestamps.length = cv.tokens.length := by
    rw [hts, htok, hlen]
  have hpack : (packed cv.stokens).length = cv.text.length + cv.tokens.length := by
    rw [length_packed, htext, hlenS]
  have hfill : fillArrays cv (List.range cv.tokens.length)
        (List.replicate (cv.text.length + cv.tokens.length) 0, [], 0)
      = some (packed cv.stokens, cv.timestamps, cv.text.length + cv.tokens.length) := by
    have hspec := fillArrays_spec cv cv.tokens.length 0 [] []
      (by rw [hlenS]; omega) (by rw [hlenT]; omega)
    simp only [List.drop_zero, List.nil_append, List.length_nil, Nat.zero_add] at hspec
    rw [← List.range_eq_range', hpack] at hspec
    rw [hspec, ← hlenT, List.take_length]
  by_cases hc : 0 < cv.tokens.length
  · refine ⟨cv, _, _,
      { text := cv.text ++ [0]
        tokens := some (packed cv.stokens)
        timestamps := some cv.timestamps
        count := cv.tokens.length },
      hfirst, hsecond, ?_, rfl, hlenS, hlenT, rfl, htext, ?_, ?_⟩
    · unfold GetResult
      rw [hfirst]
      dsimp only
      rw [hsecond]
      dsimp only
      rw [if_pos hc, hfill]
    · intro h0
      dsimp only at h0
      omega
    · intro _
      exact ⟨hfill, rfl, hpack, rfl, hlenT⟩
  · refine ⟨cv, _, _,
      { text := cv.text ++ [0]
        tokens := none
        timestamps := none
        count := cv.tokens.length },
      hfirst, hsecond, ?_, rfl, hlenS, hlenT, rfl, htext, ?_, ?_⟩
    · unfold GetResult
      rw [hfirst]
      dsimp only
      rw [hsecond]
      dsimp only
      rw [if_neg hc]
    · intro _
      exact ⟨rfl, rfl⟩
    · intro h0
      exact absurd h0 hc

/-- An instance: a stream of `DemoF.recognizer` that was created, fed three frames
and decoded once is reachable; the C API result for it has one token, the text and
the tokens buffer `"h\0"` and one timestamp, the `float` product of `0.04` and the
frame index `2`. -/
theorem getResult_decoded :
    DemoF.recognizer.Reachable DemoF.graphOf DemoF.decoded ∧
    GetResult Binary64.toFloat DemoF.dropFrames DemoF.recognizer DemoF.decoded
      = some ({ text := [104, 0], tokens := some [104, 0],
                timestamps := some [(0.04 : Binary32) * ((2 : Int) : Binary32)],
                count := 1 }, DemoF.decoded) :=
  ⟨Recognizer.Reachable.decode _ _
      (Recognizer.Reachable.accept _ [[0], [0], [((7 : Int) : Binary32)]]
        Recognizer.Reachable.create)
      (by with_unfolding_all rfl),
    by with_unfolding_all rfl⟩

end CApi

end SherpaDeploy
